import Mathlib

/-!
A verification development for the `exprscript` interpreter (`src/main.cpp`):
a step-driven, stackful tree-walking evaluator with an explicit object heap,
shared closure environments, tail-call optimization, and a mark-sweep-compact
garbage collector.  The definitions below are a shallow embedding of the C++
source: C++ `std::string` values become `List Char`, the heap `std::vector<Value>`
becomes `List Value`, heap `Location` (`int` indices) become `Nat`, and the
`std::shared_ptr<Env>` objects shared between stack layers become indices into
an explicit environment pool (`EnvPool`).
-/

namespace ExprScript

/-- `using Location = int` in the source; at runtime locations are heap
indices, modelled as `Nat`. -/
abbrev Location := Nat

/-- The backslash character (written via escape in the C++ source). -/
def bslash : Char := '\\'

/-- The double-quote character. -/
def dquote : Char := '\"'

/-- The escaping loop body of `quote` (main.cpp, function `quote`): backslash
becomes backslash-backslash, double quote becomes backslash-quote, every other
character is copied verbatim. -/
def quoteEsc : List Char → List Char
  | [] => []
  | c :: cs =>
    (if c = bslash then [bslash, bslash]
     else if c = dquote then [bslash, dquote]
     else [c]) ++ quoteEsc cs

/-- `quote` (main.cpp): wrap in double quotes, escaping backslash and quote. -/
def quote (s : List Char) : List Char :=
  dquote :: (quoteEsc s ++ [dquote])

/-- The decoding loop of `unquote` (main.cpp): the C++ code reverses the
string and pops from the back, which processes the characters left to right;
we model that directly by structural recursion on the list. -/
def decodeEsc : List Char → Except String (List Char)
  | [] => .ok []
  | c :: rest =>
    if c = bslash then
      match rest with
      | [] => .error "incomplete escape sequence"
      | c1 :: rest2 =>
        if c1 = bslash then
          match decodeEsc rest2 with
          | .ok t => .ok (bslash :: t)
          | .error m => .error m
        else if c1 = dquote then
          match decodeEsc rest2 with
          | .ok t => .ok (dquote :: t)
          | .error m => .error m
        else if c1 = 't' then
          match decodeEsc rest2 with
          | .ok t => .ok ('\t' :: t)
          | .error m => .error m
        else if c1 = 'n' then
          match decodeEsc rest2 with
          | .ok t => .ok ('\n' :: t)
          | .error m => .error m
        else .error "invalid escape sequence"
    else
      match decodeEsc rest with
      | .ok t => .ok (c :: t)
      | .error m => .error m

/-- `unquote` (main.cpp): require length at least 2 and surrounding double
quotes (`panic` otherwise, modelled by `Except.error`), strip them
(`substr(1, n - 2)`), then decode the escape pairs. -/
def unquote (s : List Char) : Except String (List Char) :=
  if 2 ≤ s.length ∧ s.head? = some dquote ∧ s.getLast? = some dquote then
    decodeEsc (s.drop 1).dropLast
  else
    .error "invalid quoted string"

/-- Variable environment (`using Env = std::vector<std::pair<std::string, Location>>`);
newer variables have larger indices, i.e. sit later in the list. -/
abbrev Env := List (String × Nat)

/-- `lookup` (main.cpp): scan the environment from newest (back) to oldest
(front) and return the first matching binding's location.  The recursion
prefers a hit in the (newer) tail of the list, which is exactly the
`rbegin`-to-`rend` scan of the source. -/
def lookup (name : String) : Env → Option Nat
  | [] => none
  | p :: rest =>
    match lookup name rest with
    | some loc => some loc
    | none => if p.1 = name then some p.2 else none

/-- The abstract syntax tree (`ExprNode` class hierarchy in main.cpp), with
the fields the evaluator reads.  Literal nodes carry the heap location
pre-allocated for them (`loc`); `LambdaNode` carries its `freeVars`
annotation (the only node whose free-variable set is read at run time);
`ExprCallNode` carries its `tail` annotation (the only node whose tail bit is
read at run time).  Source locations, which affect only error messages and
the printing of closures, are not modelled. -/
inductive ExprNode where
  | IntegerNode (val : Int) (loc : Nat)
  | StringNode (val : List Char) (loc : Nat)
  | VariableNode (name : String)
  | LambdaNode (varList : List String) (freeVars : List String) (expr : ExprNode)
  | LetrecNode (varExprList : List (String × ExprNode)) (expr : ExprNode)
  | IfNode (cond : ExprNode) (branch1 : ExprNode) (branch2 : ExprNode)
  | SequenceNode (exprList : List ExprNode)
  | IntrinsicCallNode (intrinsic : String) (argList : List ExprNode)
  | ExprCallNode (tailPos : Bool) (expr : ExprNode) (argList : List ExprNode)
  | AtNode (var : String) (expr : ExprNode)
deriving Inhabited

/-- Runtime values (`using Value = std::variant<Void, Integer, String, Closure>`).
A closure stores a copy of its captured environment together with the
defining `LambdaNode`'s parameter list and body (`closure.fun->varList` and
`closure.fun->expr` are the only closure fields the evaluator reads). -/
inductive Value where
  | VoidV
  | IntegerV (value : Int)
  | StringV (value : List Char)
  | ClosureV (env : Env) (varList : List String) (expr : ExprNode)
deriving Inhabited

/-- `valueToString` (main.cpp): the printed form of a final value.  The C++
prints a closure as `<closure evaluated at SL>` where `SL` is the defining
lambda's source location; since source locations are not modelled we print
the constant `<closure>` (two closures built from the same lambda node print
identically in both renderings). -/
def valueToString : Value → String
  | .VoidV => "<void>"
  | .IntegerV v => toString v
  | .StringV v => String.mk (quote v)
  | .ClosureV _ _ _ => "<closure>"

/-- The closure-capture scan in the `LambdaNode` case of `State::step`
(main.cpp): walk the environment newest-first (here: an already reversed
list), break as soon as every free variable has been captured, copy a binding
whose name is still wanted and then stop wanting it. -/
def captureSearch (usedVars : List String) : Env → Env
  | [] => []
  | p :: rest =>
    if usedVars.isEmpty then []
    else if p.1 ∈ usedVars then p :: captureSearch (usedVars.erase p.1) rest
    else captureSearch usedVars rest

/-- The full capture computation of the `LambdaNode` case: scan newest-first,
then `std::reverse` the result to restore oldest-first order. -/
def capture (freeVars : List String) (env : Env) : Env :=
  (captureSearch freeVars env.reverse).reverse

/-- Lexicographic comparison of two byte strings, as C++ `operator<` on
`std::string`. -/
def lexLt : List Char → List Char → Bool
  | [], [] => false
  | [], _ :: _ => true
  | _ :: _, [] => false
  | a :: as, b :: bs => if a < b then true else if b < a then false else lexLt as bs

/-- Read two `Integer` arguments, mirroring `_typecheck<Integer, Integer>`
followed by the two `std::get<Integer>(heap[args[i]])` reads: `some` exactly
when there are exactly two arguments and both heap slots hold integers. -/
def intArgs2 (heap : List Value) : List Nat → Option (Int × Int)
  | [x, y] =>
    match heap.getD x .VoidV, heap.getD y .VoidV with
    | .IntegerV a, .IntegerV b => some (a, b)
    | _, _ => none
  | _ => none

/-- Read two `String` arguments (`_typecheck<String, String>`). -/
def strArgs2 (heap : List Value) : List Nat → Option (List Char × List Char)
  | [x, y] =>
    match heap.getD x .VoidV, heap.getD y .VoidV with
    | .StringV a, .StringV b => some (a, b)
    | _, _ => none
  | _ => none

/-- Read one `Integer` argument (`_typecheck<Integer>`). -/
def intArg1 (heap : List Value) : List Nat → Option Int
  | [x] =>
    match heap.getD x .VoidV with
    | .IntegerV a => some a
    | _ => none
  | _ => none

/-- Read one `String` argument (`_typecheck<String>`). -/
def strArg1 (heap : List Value) : List Nat → Option (List Char)
  | [x] =>
    match heap.getD x .VoidV with
    | .StringV a => some a
    | _ => none
  | _ => none

/-- Read one `String` and two `Integer` arguments
(`_typecheck<String, Integer, Integer>`). -/
def strIntIntArgs3 (heap : List Value) : List Nat → Option (List Char × Int × Int)
  | [x, y, z] =>
    match heap.getD x .VoidV, heap.getD y .VoidV, heap.getD z .VoidV with
    | .StringV s, .IntegerV l, .IntegerV r => some (s, l, r)
    | _, _, _ => none
  | _ => none

/-- Read one argument of any type (`_typecheck<Value>`). -/
def anyArg1 (heap : List Value) : List Nat → Option Value
  | [x] => some (heap.getD x .VoidV)
  | _ => none

/-- The error message produced by `_typecheck` via `panic`. -/
def typeErr : String := "type error on intrinsic call"

/-- `State::_callIntrinsic` (main.cpp): dispatch on the intrinsic name.
`panic` is modelled by `Except.error`.  Host-input intrinsics `.getchar` and
`.getint` are modelled at end-of-input / failed read, where the source
returns `Void`; `.putstr` and `.flush` return `Void` (their stream output
does not feed back into evaluation); `.eval`, which recursively constructs
and runs a fresh interpreter, is outside this pure model and is mapped to an
error. -/
def callIntrinsic (heap : List Value) (name : String) (args : List Nat) :
    Except String Value :=
  if name = ".void" then
    if args.length = 0 then .ok .VoidV else .error typeErr
  else if name = ".+" then
    match intArgs2 heap args with
    | some (a, b) => .ok (.IntegerV (a + b))
    | none => .error typeErr
  else if name = ".-" then
    match intArgs2 heap args with
    | some (a, b) => .ok (.IntegerV (a - b))
    | none => .error typeErr
  else if name = ".*" then
    match intArgs2 heap args with
    | some (a, b) => .ok (.IntegerV (a * b))
    | none => .error typeErr
  else if name = "./" then
    match intArgs2 heap args with
    | some (a, b) =>
      if b = 0 then .error "division by zero"
      else .ok (.IntegerV (a.tdiv b))
    | none => .error typeErr
  else if name = ".%" then
    match intArgs2 heap args with
    | some (a, b) =>
      if b = 0 then .error "division by zero"
      else .ok (.IntegerV (a.tmod b))
    | none => .error typeErr
  else if name = ".<" then
    match intArgs2 heap args with
    | some (a, b) => .ok (.IntegerV (if a < b then 1 else 0))
    | none => .error typeErr
  else if name = ".<=" then
    match intArgs2 heap args with
    | some (a, b) => .ok (.IntegerV (if a ≤ b then 1 else 0))
    | none => .error typeErr
  else if name = ".>" then
    match intArgs2 heap args with
    | some (a, b) => .ok (.IntegerV (if b < a then 1 else 0))
    | none => .error typeErr
  else if name = ".>=" then
    match intArgs2 heap args with
    | some (a, b) => .ok (.IntegerV (if b ≤ a then 1 else 0))
    | none => .error typeErr
  else if name = ".=" then
    match intArgs2 heap args with
    | some (a, b) => .ok (.IntegerV (if a = b then 1 else 0))
    | none => .error typeErr
  else if name = "./=" then
    match intArgs2 heap args with
    | some (a, b) => .ok (.IntegerV (if a = b then 0 else 1))
    | none => .error typeErr
  else if name = ".and" then
    match intArgs2 heap args with
    | some (a, b) => .ok (.IntegerV (if a ≠ 0 ∧ b ≠ 0 then 1 else 0))
    | none => .error typeErr
  else if name = ".or" then
    match intArgs2 heap args with
    | some (a, b) => .ok (.IntegerV (if a ≠ 0 ∨ b ≠ 0 then 1 else 0))
    | none => .error typeErr
  else if name = ".not" then
    match intArg1 heap args with
    | some a => .ok (.IntegerV (if a ≠ 0 then 0 else 1))
    | none => .error typeErr
  else if name = ".s+" then
    match strArgs2 heap args with
    | some (a, b) => .ok (.StringV (a ++ b))
    | none => .error typeErr
  else if name = ".s<" then
    match strArgs2 heap args with
    | some (a, b) => .ok (.IntegerV (if lexLt a b then 1 else 0))
    | none => .error typeErr
  else if name = ".s<=" then
    match strArgs2 heap args with
    | some (a, b) => .ok (.IntegerV (if lexLt b a then 0 else 1))
    | none => .error typeErr
  else if name = ".s>" then
    match strArgs2 heap args with
    | some (a, b) => .ok (.IntegerV (if lexLt b a then 1 else 0))
    | none => .error typeErr
  else if name = ".s>=" then
    match strArgs2 heap args with
    | some (a, b) => .ok (.IntegerV (if lexLt a b then 0 else 1))
    | none => .error typeErr
  else if name = ".s=" then
    match strArgs2 heap args with
    | some (a, b) => .ok (.IntegerV (if a = b then 1 else 0))
    | none => .error typeErr
  else if name = ".s/=" then
    match strArgs2 heap args with
    | some (a, b) => .ok (.IntegerV (if a = b then 0 else 1))
    | none => .error typeErr
  else if name = ".s||" then
    match strArg1 heap args with
    | some a => .ok (.IntegerV a.length)
    | none => .error typeErr
  else if name = ".s[]" then
    match strIntIntArgs3 heap args with
    | some (s, l, r) =>
      -- `int n = value.size()` in the source
      if ¬((0 ≤ l ∧ l < (s.length : Int)) ∧ (0 ≤ r ∧ r < (s.length : Int)) ∧ l ≤ r) then
        .error "invalid substring range"
      else
        .ok (.StringV ((s.drop l.toNat).take (r - l).toNat))
    | none => .error typeErr
  else if name = ".quote" then
    match strArg1 heap args with
    | some a => .ok (.StringV (quote a))
    | none => .error typeErr
  else if name = ".unquote" then
    match strArg1 heap args with
    | some a =>
      match unquote a with
      | .ok r => .ok (.StringV r)
      | .error m => .error m
    | none => .error typeErr
  else if name = ".s->i" then
    match strArg1 heap args with
    | some a =>
      match String.toInt? (String.mk a) with
      | some v => .ok (.IntegerV v)
      | none => .error "stoi failure"
    | none => .error typeErr
  else if name = ".i->s" then
    match intArg1 heap args with
    | some a => .ok (.StringV (toString a).data)
    | none => .error typeErr
  else if name = ".type" then
    match anyArg1 heap args with
    | some v =>
      match v with
      | .VoidV => .ok (.IntegerV 0)
      | .IntegerV _ => .ok (.IntegerV 1)
      | _ => .ok (.IntegerV 2)
    | none => .error typeErr
  else if name = ".eval" then
    match strArg1 heap args with
    | some _ => .error "eval outside pure model"
    | none => .error typeErr
  else if name = ".getchar" then
    if args.length = 0 then .ok .VoidV else .error typeErr
  else if name = ".getint" then
    if args.length = 0 then .ok .VoidV else .error typeErr
  else if name = ".putstr" then
    match strArg1 heap args with
    | some _ => .ok .VoidV
    | none => .error typeErr
  else if name = ".flush" then
    if args.length = 0 then .ok .VoidV else .error typeErr
  else
    .error "unrecognized intrinsic call"

/-- The pool of shared environment objects.  In the source, each stack frame
owns a `std::shared_ptr<Env>` and non-frame layers of the same call frame
share it; we model each `shared_ptr` pointee as an entry of this pool and
layers hold the entry's index. -/
abbrev EnvPool := List Env

/-- `Layer` (main.cpp): one stack entry per in-progress AST node.  `envRef`
models the `std::shared_ptr<Env> env` member as a pool index; `expr = none`
is the `nullptr` sentinel of the main frame.  `localLocs` is the `local`
member (locations of already evaluated sub-results). -/
structure Layer where
  envRef : Nat
  expr : Option ExprNode
  frame : Bool
  pc : Nat := 0
  localLocs : List Nat := []
deriving Inhabited

/-- `State` (main.cpp): the control stack (head of the list = top of the C++
`std::vector`, i.e. `stack.back()`), the heap of values, the count of
pre-allocated immortal literal slots, and the result location.  The AST root
member `expr` is not replicated here: the stack's bottom-most non-sentinel
layer references it.  The environment pool is passed alongside the state
(see `step`) because the C++ `shared_ptr` pointees live outside the `State`
object — the copy constructor copies the pointers, not the pointees. -/
structure State where
  stack : List Layer
  heap : List Value
  numLiterals : Nat
  resultLoc : Nat
deriving Inhabited

/-- `State::State(const State &)` (main.cpp): the copy constructor clones the
AST and copies `stack`, `heap`, `numLiterals` and `resultLoc` member-wise.
Copying `stack` copies each `Layer` including its `std::shared_ptr<Env>`, so
the copy's layers reference the same pool entries (`envRef` indices are
copied unchanged, not re-allocated). -/
def stateCopy (s : State) : State :=
  { stack := s.stack
    heap := s.heap
    numLiterals := s.numLiterals
    resultLoc := s.resultLoc }

/-- Result of one `State::step()` call: `halt` models `return false` (the
main-frame sentinel was reached; the state is unchanged), `next` models
`return true` with the updated environment pool and state, `fail` models a
`panic("runtime", ...)` throw. -/
inductive StepResult where
  | halt
  | next (pool : EnvPool) (s : State)
  | fail (msg : String)

/-- The environment a layer currently sees (`*(layer.env)`). -/
def layerEnv (pool : EnvPool) (l : Layer) : Env :=
  pool.getD l.envRef []

/-- A freshly pushed non-frame child layer sharing the parent's environment
(`stack.emplace_back(layer.env, node)`). -/
def childLayer (envRef : Nat) (e : ExprNode) : Layer :=
  { envRef := envRef, expr := some e, frame := false }

/-- Dummy binding used for in-range list indexing (`varExprList[i]`). -/
def dummyVE : String × ExprNode := ("", .SequenceNode [])

/-- `State::step()` (main.cpp): dispatch on the dynamic type of the top
layer's expression and advance its evaluation by one step.  Out-of-range
heap / pool accesses, which are undefined behaviour in the C++ and never
occur in well-formed states, are modelled by `List.getD` / `List.set`
(default value / no-op). -/
def step (pool : EnvPool) (s : State) : StepResult :=
  match s.stack with
  | [] => .fail "empty stack"
  | layer :: rest =>
    match layer.expr with
    | none => .halt
    | some e =>
      match e with
      | .IntegerNode _ loc =>
        .next pool { s with resultLoc := loc, stack := rest }
      | .StringNode _ loc =>
        .next pool { s with resultLoc := loc, stack := rest }
      | .VariableNode name =>
        match lookup name (layerEnv pool layer) with
        | none => .fail ("undefined variable " ++ name)
        | some loc => .next pool { s with resultLoc := loc, stack := rest }
      | .LambdaNode varList freeVars body =>
        let savedEnv := capture freeVars (layerEnv pool layer)
        .next pool
          { s with
            heap := s.heap ++ [.ClosureV savedEnv varList body]
            resultLoc := s.heap.length
            stack := rest }
      | .LetrecNode varExprList body =>
        let n := varExprList.length
        let env := layerEnv pool layer
        -- unified argument recording: tie the knot for binding `pc - 2`
        let afterRecord : Except String (List Value) :=
          if 1 < layer.pc ∧ layer.pc ≤ n + 1 then
            match lookup (varExprList.getD (layer.pc - 2) dummyVE).1 env with
            | none =>
              .error ("undefined variable " ++ (varExprList.getD (layer.pc - 2) dummyVE).1)
            | some loc => .ok (s.heap.set loc (s.heap.getD s.resultLoc .VoidV))
          else .ok s.heap
        match afterRecord with
        | .error m => .fail m
        | .ok heap1 =>
          if layer.pc = 0 then
            -- create all new locations: extend the shared env with one fresh
            -- Void binding per bound name (`_new<Void>()` appends to the heap)
            let base := s.heap.length
            let newBinds :=
              (varExprList.enum.map fun p => (p.2.1, base + p.1) : Env)
            .next (pool.set layer.envRef (env ++ newBinds))
              { s with
                heap := heap1 ++ List.replicate n .VoidV
                stack := { layer with pc := 1 } :: rest }
          else if layer.pc ≤ n then
            -- evaluate binding `pc - 1` (the C++ increments pc first and then
            -- indexes `varExprList[pc - 2]` with the new pc)
            .next pool
              { s with
                heap := heap1
                stack :=
                  childLayer layer.envRef (varExprList.getD (layer.pc - 1) dummyVE).2 ::
                    { layer with pc := layer.pc + 1 } :: rest }
          else if layer.pc = n + 1 then
            -- evaluate body
            .next pool
              { s with
                heap := heap1
                stack :=
                  childLayer layer.envRef body :: { layer with pc := layer.pc + 1 } :: rest }
          else
            -- finish letrec: pop the n extensions off the shared env, pop layer
            .next (pool.set layer.envRef (env.take (env.length - n)))
              { s with heap := heap1, stack := rest }
      | .IfNode cond branch1 branch2 =>
        if layer.pc = 0 then
          .next pool
            { s with stack := childLayer layer.envRef cond :: { layer with pc := 1 } :: rest }
        else if layer.pc = 1 then
          match s.heap.getD s.resultLoc .VoidV with
          | .IntegerV v =>
            .next pool
              { s with
                stack :=
                  childLayer layer.envRef (if v ≠ 0 then branch1 else branch2) ::
                    { layer with pc := 2 } :: rest }
          | _ => .fail "wrong cond type"
        else
          .next pool { s with stack := rest }
      | .SequenceNode exprList =>
        if layer.pc < exprList.length then
          .next pool
            { s with
              stack :=
                childLayer layer.envRef (exprList.getD layer.pc default) ::
                  { layer with pc := layer.pc + 1 } :: rest }
        else
          .next pool { s with stack := rest }
      | .IntrinsicCallNode intrinsic argList =>
        let n := argList.length
        -- unified argument recording
        let local1 :=
          if 0 < layer.pc ∧ layer.pc ≤ n then layer.localLocs ++ [s.resultLoc]
          else layer.localLocs
        if layer.pc < n then
          .next pool
            { s with
              stack :=
                childLayer layer.envRef (argList.getD layer.pc default) ::
                  { layer with pc := layer.pc + 1, localLocs := local1 } :: rest }
        else
          match callIntrinsic s.heap intrinsic local1 with
          | .error m => .fail m
          | .ok v =>
            .next pool
              { s with
                heap := s.heap ++ [v]
                resultLoc := s.heap.length
                stack := rest }
      | .ExprCallNode tailPos callee argList =>
        let n := argList.length
        -- unified argument recording
        let local1 :=
          if 2 < layer.pc ∧ layer.pc ≤ n + 2 then layer.localLocs ++ [s.resultLoc]
          else layer.localLocs
        if layer.pc = 0 then
          .next pool
            { s with stack := childLayer layer.envRef callee :: { layer with pc := 1 } :: rest }
        else if layer.pc = 1 then
          -- record the callee's location
          .next pool
            { s with
              stack := { layer with pc := 2, localLocs := layer.localLocs ++ [s.resultLoc] } :: rest }
        else if layer.pc ≤ n + 1 then
          -- evaluate argument `pc - 2` (C++ increments pc first, then indexes
          -- `argList[pc - 3]` with the new pc)
          .next pool
            { s with
              stack :=
                childLayer layer.envRef (argList.getD (layer.pc - 2) default) ::
                  { layer with pc := layer.pc + 1, localLocs := local1 } :: rest }
        else if layer.pc = n + 2 then
          -- the call step
          match s.heap.getD (local1.getD 0 0) .VoidV with
          | .ClosureV cenv varList body =>
            if local1.length ≠ varList.length + 1 then
              .fail "wrong number of arguments"
            else
              -- lexical scope: copy the closure env, append (param, argLoc)
              let newEnv := cenv ++ varList.zip (local1.drop 1)
              let selfUpdated := { layer with pc := layer.pc + 1, localLocs := local1 }
              -- tail call optimization: pop layers down to and including the
              -- topmost frame before pushing the new frame
              let stackBase :=
                if tailPos then
                  ((selfUpdated :: rest).dropWhile (fun l => !l.frame)).tail
                else selfUpdated :: rest
              .next (pool ++ [newEnv])
                { s with
                  stack :=
                    { envRef := pool.length, expr := some body, frame := true } :: stackBase }
          | _ => .fail "calling a non-callable"
        else
          .next pool { s with stack := rest }
      | .AtNode varName atExpr =>
        if layer.pc = 0 then
          .next pool
            { s with stack := childLayer layer.envRef atExpr :: { layer with pc := 1 } :: rest }
        else
          match s.heap.getD s.resultLoc .VoidV with
          | .ClosureV cenv _ _ =>
            match lookup varName cenv with
            | none => .fail ("undefined variable " ++ varName)
            | some loc => .next pool { s with resultLoc := loc, stack := rest }
          | _ => .fail "@ wrong type"

/-- The locations embedded in a value: only closures embed locations (their
captured environment); this is the recursion pattern of `traverseLocation`
inside `State::_mark` (main.cpp). -/
def valueLocs : Value → List Nat
  | .ClosureV env _ _ => env.map (·.2)
  | _ => []

/-- The GC roots of `State::_mark` (main.cpp): every frame layer's
environment bindings (non-frame layers share their frame's env object and
are counted once via the frame), every layer's `local` list, and
`resultLoc`. -/
def markRoots (pool : EnvPool) (s : State) : List Nat :=
  (s.stack.flatMap fun layer =>
    (if layer.frame then (layerEnv pool layer).map (·.2) else []) ++ layer.localLocs)
  ++ [s.resultLoc]

/-- One expansion round of the transitive traversal of `State::_mark`: keep
everything already visited and add the locations embedded in the visited
values. -/
def markExpand (heap : List Value) (visited : List Nat) : List Nat :=
  (visited.flatMap fun l => l :: valueLocs (heap.getD l .VoidV)).dedup

/-- `State::_mark` (main.cpp): the set of locations reachable from the roots,
computed by expanding until saturation (the C++ uses a depth-first traversal
with a visited set; iterating the one-step expansion enough times yields the
same set of visited locations). -/
def mark (pool : EnvPool) (s : State) : List Nat :=
  Nat.iterate (markExpand s.heap) (s.heap.length + (markRoots pool s).length + 1)
    (markRoots pool s)

/-- The heap indices `[numLiterals, heap.length)` that survive collection, in
ascending order — the slots the sweep loop of `State::_sweepAndCompact`
keeps. -/
def keepList (visited : List Nat) (nl heapLen : Nat) : List Nat :=
  ((List.range heapLen).drop nl).filter (fun j => j ∈ visited)

/-- The relocation map of `State::_sweepAndCompact` as a total function: the
`k`-th surviving slot moves to index `numLiterals + k`; literals and
non-surviving locations are unchanged (the C++ map contains no entry for
them, and `_relocate` leaves absent locations unchanged). -/
def relocOf (visited : List Nat) (nl heapLen : Nat) (j : Nat) : Nat :=
  match (keepList visited nl heapLen).findIdx? (fun x => x = j) with
  | some k => nl + k
  | none => j

/-- The compacted heap produced by `State::_sweepAndCompact`: the literal
prefix followed by the surviving slots in their original (stable) order. -/
def sweepAndCompact (visited : List Nat) (nl : Nat) (heap : List Value) :
    List Value :=
  heap.take nl ++ (keepList visited nl heap.length).map (fun j => heap.getD j .VoidV)

/-- Rewrite every location of an environment (`reloc` applied to each
binding in `State::_relocate`). -/
def relocEnv (ρ : Nat → Nat) (env : Env) : Env :=
  env.map fun p => (p.1, ρ p.2)

/-- Rewrite the locations embedded in a value (the closure-environment
rewriting loop at the end of `State::_relocate`). -/
def relocValue (ρ : Nat → Nat) : Value → Value
  | .ClosureV env varList body => .ClosureV (relocEnv ρ env) varList body
  | v => v

/-- `State::_gc` (main.cpp): mark, sweep-and-compact, then relocate every
stored location — each frame layer's environment object (once per owning
frame), each layer's locals, `resultLoc`, and the closure environments in
the (new) heap. -/
def gc (pool : EnvPool) (s : State) : EnvPool × State :=
  let visited := mark pool s
  let ρ := relocOf visited s.numLiterals s.heap.length
  let newPool :=
    s.stack.foldl
      (fun pl layer =>
        if layer.frame then pl.set layer.envRef (relocEnv ρ (pl.getD layer.envRef []))
        else pl)
      pool
  (newPool,
    { stack := s.stack.map fun layer => { layer with localLocs := layer.localLocs.map ρ }
      heap := (sweepAndCompact visited s.numLiterals s.heap).map (relocValue ρ)
      numLiterals := s.numLiterals
      resultLoc := ρ s.resultLoc })

/-- The outcome of a bounded run: `none` when the step budget ran out,
otherwise the final value (`State::getResult`) or the runtime error. -/
abbrev Outcome := Option (Except String Value)

/-- The hypothetical no-GC driver: `while (step()) {}` followed by
`getResult()`. -/
def runNoGC : Nat → EnvPool → State → Outcome
  | 0, _, _ => none
  | fuel + 1, pool, s =>
    match step pool s with
    | .halt => some (.ok (s.heap.getD s.resultLoc .VoidV))
    | .fail m => some (.error m)
    | .next pool1 s1 => runNoGC fuel pool1 s1

/-- The GC driver loop of `State::execute` (main.cpp): after each step,
collect whenever the heap size exceeds the threshold, and reset the
threshold to twice the live count. -/
def runGC : Nat → Nat → EnvPool → State → Outcome
  | 0, _, _, _ => none
  | fuel + 1, threshold, pool, s =>
    match step pool s with
    | .halt => some (.ok (s.heap.getD s.resultLoc .VoidV))
    | .fail m => some (.error m)
    | .next pool1 s1 =>
      if s1.heap.length > threshold then
        let ps2 := gc pool1 s1
        runGC fuel (2 * ps2.2.heap.length) ps2.1 ps2.2
      else
        runGC fuel threshold pool1 s1

/-- `State::execute` (main.cpp) with an explicit step budget: the initial GC
threshold is `numLiterals + 64`. -/
def execute (fuel : Nat) (pool : EnvPool) (s : State) : Outcome :=
  runGC fuel (s.numLiterals + 64) pool s

/-- Agreement of two run outcomes: both still running, both failing with the
same message, or both finishing with values of the same printed form. -/
def outcomesAgree : Outcome → Outcome → Prop
  | some (.ok vA), some (.ok vB) => valueToString vA = valueToString vB
  | some (.error a), some (.error b) => a = b
  | none, none => True
  | _, _ => False

mutual

/-- All pre-allocated literal locations recorded in an expression
(`IntegerNode::loc` / `StringNode::loc` for every literal node of the
subtree). -/
def exprLits : ExprNode → List Nat
  | .IntegerNode _ loc => [loc]
  | .StringNode _ loc => [loc]
  | .VariableNode _ => []
  | .LambdaNode _ _ e => exprLits e
  | .LetrecNode ves e => exprLitsVEs ves ++ exprLits e
  | .IfNode c b1 b2 => exprLits c ++ exprLits b1 ++ exprLits b2
  | .SequenceNode es => exprLitsList es
  | .IntrinsicCallNode _ as => exprLitsList as
  | .ExprCallNode _ e as => exprLits e ++ exprLitsList as
  | .AtNode _ e => exprLits e

/-- Literal locations of a letrec binding list. -/
def exprLitsVEs : List (String × ExprNode) → List Nat
  | [] => []
  | ve :: rest => exprLits ve.2 ++ exprLitsVEs rest

/-- Literal locations of an expression list. -/
def exprLitsList : List ExprNode → List Nat
  | [] => []
  | e :: rest => exprLits e ++ exprLitsList rest

end

/-- All locations of an environment are valid heap indices. -/
def envLocsOK (hl : Nat) (env : Env) : Prop := ∀ p ∈ env, p.2 < hl

/-- Validity of one heap value: a closure's captured environment points into
the heap and its body's literal locations lie in the immortal literal
range. -/
def valueOK (hl nlits : Nat) : Value → Prop
  | .ClosureV env _ body => envLocsOK hl env ∧ ∀ l ∈ exprLits body, l < nlits
  | _ => True

/-- Validity of one stack layer: locals point into the heap, the env
reference points into the pool, and the expression's literal locations lie
in the literal range. -/
def layerOK (hl nlits poolLen : Nat) (l : Layer) : Prop :=
  (∀ x ∈ l.localLocs, x < hl) ∧ l.envRef < poolLen ∧
  (∀ e, l.expr = some e → ∀ x ∈ exprLits e, x < nlits)

/-- The env reference of the topmost frame of a stack (searching from the
top). -/
def frameOf : List Layer → Option Nat
  | [] => none
  | l :: rest => if l.frame then some l.envRef else frameOf rest

/-- The env-sharing discipline: every non-frame layer references the same
env object as the nearest frame below it. -/
def shareInv : List Layer → Prop
  | [] => True
  | l :: rest => (l.frame = true ∨ frameOf rest = some l.envRef) ∧ shareInv rest

/-- Well-formedness of a machine state, preserved by `step` and `gc`: all
stored locations are in range, literals form a prefix of the heap, every
layer's env reference is backed by the pool and shared per the frame
discipline, and distinct frames own distinct env objects. -/
structure WF (pool : EnvPool) (s : State) : Prop where
  litsLe : s.numLiterals ≤ s.heap.length
  resOK : s.resultLoc < s.heap.length
  heapOK : ∀ v ∈ s.heap, valueOK s.heap.length s.numLiterals v
  stackOK : ∀ l ∈ s.stack, layerOK s.heap.length s.numLiterals pool.length l
  share : shareInv s.stack
  frameNodup : (s.stack.filter (fun l => l.frame)).Pairwise (fun a b => a.envRef ≠ b.envRef)
  poolOK : ∀ l ∈ s.stack, envLocsOK s.heap.length (pool.getD l.envRef [])

/-- Rewrite the locations of a value through a renaming (same shape as
`relocValue`; kept as the canonical form used by the simulation relation). -/
def mapValue (φ : Nat → Nat) : Value → Value := relocValue φ

/-- Rewrite a layer's locals through a renaming (its other fields carry no
locations). -/
def layerMap (φ : Nat → Nat) (l : Layer) : Layer :=
  { l with localLocs := l.localLocs.map φ }

/-- Extend a renaming after both machines allocate: locations below `lb`
(the allocating machine's old heap size) keep their image, the `k` freshly
allocated locations `lb + i` map to the other machine's fresh `la + i`. -/
def extMap (φ : Nat → Nat) (lb la : Nat) (l : Nat) : Nat :=
  if l < lb then φ l else la + (l - lb)

/-- Inverse of the compaction relocation: new index `nl + k` came from the
`k`-th surviving old location; literal indices are unchanged. -/
def unreloc (keep : List Nat) (nl : Nat) (l : Nat) : Nat :=
  if l < nl then l else keep.getD (l - nl) 0

/-- The simulation relation between a reference run `A` (never collecting)
and a run `B`: a location renaming `φ` embeds `B`'s heap into `A`'s heap,
fixing literals, and both machines have identical stacks and pools up to the
renaming. -/
structure Rel (φ : Nat → Nat) (pA : EnvPool) (sA : State)
    (pB : EnvPool) (sB : State) : Prop where
  inj : ∀ l1 < sB.heap.length, ∀ l2 < sB.heap.length, φ l1 = φ l2 → l1 = l2
  maps : ∀ l < sB.heap.length,
    φ l < sA.heap.length ∧
    sA.heap.getD (φ l) .VoidV = mapValue φ (sB.heap.getD l .VoidV)
  litsEq : sA.numLiterals = sB.numLiterals
  litsFix : ∀ l < sB.numLiterals, φ l = l
  res : sA.resultLoc = φ sB.resultLoc
  stackEq : sA.stack = sB.stack.map (layerMap φ)
  poolLen : pA.length = pB.length
  poolRel : ∀ l ∈ sB.stack, pA.getD l.envRef [] = relocEnv φ (pB.getD l.envRef [])

/-- Number of frame layers on a stack. -/
def countFrames (ls : List Layer) : Nat := ls.countP (fun l => l.frame)

/-- An intrinsic result that is the integer 0 or the integer 1. -/
def isBoolResult (r : Except String Value) : Prop :=
  r = .ok (.IntegerV 0) ∨ r = .ok (.IntegerV 1)

/-- The frame-env-distinctness predicate of `WF`. -/
def frameNodup (L : List Layer) : Prop :=
  (L.filter (fun l => l.frame)).Pairwise (fun a b => a.envRef ≠ b.envRef)

/-- The callee-recorded discipline: a layer evaluating an `ExprCallNode` whose
pc has passed the callee-recording step (`pc ≥ 2`) has a nonempty `local`
list — its head is the callee's location, read as `layer->local[0]` by the
call step of the C++. -/
def calleeRecorded (l : Layer) : Prop :=
  ∀ tp c args, l.expr = some (.ExprCallNode tp c args) → 2 ≤ l.pc → l.localLocs ≠ []

/-- Every layer of the stack obeys the callee-recorded discipline (an
invariant of reachable states; in its absence the C++ call step would index
the empty `local` vector, which is undefined behaviour). -/
def stackGood (L : List Layer) : Prop := ∀ l ∈ L, calleeRecorded l

/-- One-step simulation target: given the result of machine `B`'s step, what
the reference machine `A` (same program, heap embedded through a renaming)
must do — halt together, fail with the same message, or step into a state
related by some renaming. -/
def stepSim (pA : EnvPool) (sA : State) : StepResult → Prop
  | .halt => step pA sA = .halt
  | .fail m => step pA sA = .fail m
  | .next p1B s1B =>
    ∃ ψ, match step pA sA with
      | .next p1A s1A => Rel ψ p1A s1A p1B s1B
      | _ => False

/-- The literal heap prefix is location-free: cells below `numLiterals` hold
the pre-allocated `Integer`/`String` literals of the program, never closures
with captured environments (the `State` constructor only places `Integer` and
`String` objects there; `_mark` relies on this, as it never traverses the
contents of an unreachable literal cell). -/
def litsFlat (s : State) : Prop :=
  ∀ i < s.numLiterals, valueLocs (s.heap.getD i .VoidV) = []

/-- A segment of an environment owned by an in-progress letrec: its binding
names are exactly the letrec's bound names in order, and every bound location
is a non-literal heap slot (a letrec always allocates fresh cells at the end
of the heap, beyond the literal prefix). -/
def segFor (nl : Nat) (ves : List (String × ExprNode)) (seg : Env) : Prop :=
  seg.map Prod.fst = ves.map Prod.fst ∧ ∀ p ∈ seg, nl ≤ p.2

/-- An environment decomposes as an arbitrary base followed by one segment
per in-progress letrec; the `vess` list is newest-letrec-first and newer
segments sit later (more newly appended) in the environment. -/
def envSeg (nl : Nat) : Env → List (List (String × ExprNode)) → Prop
  | _, [] => True
  | env, ves :: restVes =>
    ∃ pre seg, env = pre ++ seg ∧ segFor nl ves seg ∧ envSeg nl pre restVes

/-- The binding list a layer contributes to its environment's segment
structure: a `LetrecNode` layer whose `pc` has passed the allocation step
(`pc ≥ 1`) owns one segment; every other layer owns none. -/
def activeLetrec (r : Nat) (l : Layer) : Option (List (String × ExprNode)) :=
  if l.envRef = r then
    match l.expr with
    | some (.LetrecNode ves _) => if 1 ≤ l.pc then some ves else none
    | _ => none
  else none

/-- The in-progress letrec binding lists for environment `r`, topmost stack
layer first. -/
def activeVes (r : Nat) : List Layer → List (List (String × ExprNode))
  | [] => []
  | l :: rest =>
    match activeLetrec r l with
    | some ves => ves :: activeVes r rest
    | none => activeVes r rest

/-- Every stack layer sees its environment structured into a base plus the
segments of the in-progress letrecs sharing that environment (an invariant of
reachable states: it is what makes the letrec knot-tying step write only to
non-literal heap slots, and the final letrec step pop exactly its own
bindings). -/
def stackSegs (nl : Nat) (pool : EnvPool) (L : List Layer) : Prop :=
  ∀ l ∈ L, envSeg nl (pool.getD l.envRef []) (activeVes l.envRef L)

/-! Concrete machine configurations used to witness or refute claims. -/

/-- The program `letrec (x 0) x`, with the literal `0` pre-allocated at
heap location 0. -/
def c1Letrec : ExprNode := .LetrecNode [("x", .IntegerNode 0 0)] (.VariableNode "x")

/-- The main-frame sentinel layer. -/
def mainLayer : Layer := { envRef := 0, expr := none, frame := true }

/-- Environment pool of a freshly constructed machine: one empty main-frame
environment. -/
def c1Pool : EnvPool := [[]]

/-- A freshly constructed machine about to evaluate `letrec (x 0) x`. -/
def c1State : State :=
  { stack := [childLayer 0 c1Letrec, mainLayer]
    heap := [.IntegerV 0]
    numLiterals := 1
    resultLoc := 0 }

/-- The pool after the original machine performs the letrec pc=0 step: the
shared main-frame environment object now holds the fresh binding. -/
def c1PoolAfter : EnvPool := [[("x", 1)]]

/-- The state after the original machine performs the letrec pc=0 step. -/
def c1StateAfter : State :=
  { stack := [{ envRef := 0, expr := some c1Letrec, frame := false, pc := 1 }, mainLayer]
    heap := [.IntegerV 0, .VoidV]
    numLiterals := 1
    resultLoc := 0 }

/-- A machine whose top layer is the letrec of `c1Letrec` at the knot-tying
pc (pc = 2 records binding 0), with the letrec's fresh binding `x ↦ 1`
already pushed on the shared environment. -/
def c3State : State :=
  { stack := [{ envRef := 0, expr := some c1Letrec, frame := false, pc := 2 }, mainLayer]
    heap := [.IntegerV 0, .VoidV]
    numLiterals := 1
    resultLoc := 0 }

/-- The top layer of an `ExprCall` in tail position at its call step
(`pc = argList.size + 2`). -/
def callLayer (envRef : Nat) (callee : ExprNode) (argsL : List ExprNode)
    (frameb : Bool) (locs : List Nat) : Layer :=
  { envRef := envRef, expr := some (.ExprCallNode true callee argsL),
    frame := frameb, pc := argsL.length + 2, localLocs := locs }

/-- The same `ExprCall` layer immediately after the call step bumped its pc
and recorded the last argument. -/
def callLayerBumped (envRef : Nat) (callee : ExprNode) (argsL : List ExprNode)
    (frameb : Bool) (local1 : List Nat) : Layer :=
  { envRef := envRef, expr := some (.ExprCallNode true callee argsL),
    frame := frameb, pc := argsL.length + 2 + 1, localLocs := local1 }

/-- The fresh frame layer pushed by the call step. -/
def pushedFrame (poolLen : Nat) (body : ExprNode) : Layer :=
  { envRef := poolLen, expr := some body, frame := true }

/-- A stack layer evaluating a `LetrecNode`. -/
def letrecLayer (envRef : Nat) (ves : List (String × ExprNode)) (body : ExprNode)
    (frameb : Bool) (pcv : Nat) (locs : List Nat) : Layer :=
  { envRef := envRef, expr := some (.LetrecNode ves body), frame := frameb,
    pc := pcv, localLocs := locs }

/-- The enclosing call frame of the tail-call scenario. -/
def c4Frame : Layer :=
  { envRef := 1, expr := some (.VariableNode "unused"), frame := true }

/-- A machine at the call step of a tail-marked `ExprCall` with a
zero-argument closure callee at heap location 0 (the scenario of a
self-recursive tail call). -/
def c4State : State :=
  { stack := [callLayer 1 (.VariableNode "f") [] false [0], c4Frame, mainLayer]
    heap := [.ClosureV [] [] (.IntegerNode 0 1), .IntegerV 7]
    numLiterals := 2
    resultLoc := 1 }

/-! ## Theorems -/

theorem decodeEsc_quoteEsc (s : List Char) : decodeEsc (quoteEsc s) = .ok s := by
  induction s with
  | nil => rfl
  | cons c cs ih =>
    by_cases hb : c = bslash
    · subst hb
      simp [quoteEsc, decodeEsc, ih]
    · by_cases hq : c = dquote
      · subst hq
        have hne : dquote ≠ bslash := by decide
        simp [quoteEsc, decodeEsc, hb, hne, ih]
      · have h1 : quoteEsc (c :: cs) = c :: quoteEsc cs := by
          simp [quoteEsc, hb, hq]
        rw [h1, decodeEsc.eq_def]
        simp [hb, ih]

theorem unquote_quote (s : List Char) : unquote (quote s) = .ok s := by
  have hlen : (quote s).length = (quoteEsc s).length + 2 := by
    simp [quote]
  have hhead : (quote s).head? = some dquote := by
    simp [quote]
  have hlast : (quote s).getLast? = some dquote := by
    rw [quote, show dquote :: (quoteEsc s ++ [dquote]) = (dquote :: quoteEsc s) ++ [dquote] by
      simp]
    exact List.getLast?_concat _
  have hstrip : ((quote s).drop 1).dropLast = quoteEsc s := by
    simp [quote]
  rw [unquote]
  rw [if_pos ⟨by omega, hhead, hlast⟩, hstrip]
  exact decodeEsc_quoteEsc s

/-- C8: for every runtime string `s`, `.quote` produces `quote s` (escaping
only backslash and double quote) and `.unquote` applied to that quoted
string returns `s` exactly: the quote/unquote round trip is the identity. -/
theorem quote_unquote_roundtrip (s : List Char) (heap : List Value) (loc : Nat)
    (h : heap.getD loc .VoidV = .StringV s) :
    callIntrinsic heap ".quote" [loc] = .ok (.StringV (quote s)) ∧
    callIntrinsic (heap ++ [.StringV (quote s)]) ".unquote" [heap.length] =
      .ok (.StringV s) ∧
    unquote (quote s) = .ok s := by
  refine ⟨?_, ?_, unquote_quote s⟩
  · simp only [List.getD_eq_getElem?_getD] at h
    simp [callIntrinsic, strArg1, h]
  · simp [callIntrinsic, strArg1, List.getD_append_right, unquote_quote s]

theorem quote_unquote_roundtrip_witness :
    ([.StringV ['a', 'b']] : List Value).getD 0 .VoidV = .StringV ['a', 'b'] ∧
    callIntrinsic [.StringV ['a', 'b']] ".quote" [0] =
      .ok (.StringV (quote ['a', 'b'])) := by
  exact ⟨rfl, (quote_unquote_roundtrip ['a', 'b'] [.StringV ['a', 'b']] 0 rfl).1⟩

/-- C6: `.s[] s l r` raises a runtime error if and only if `0 ≤ l ≤ r < |s|`
fails (the source's test `0 ≤ l < |s| ∧ 0 ≤ r < |s| ∧ l ≤ r` is equivalent);
on success it returns the half-open substring `[l, r)`.  In particular it
always fails on the empty string, and the last character can never be
included since `r < |s|` is required. -/
theorem substring_intrinsic_spec (s : List Char) (l r : Int) :
    callIntrinsic [.StringV s, .IntegerV l, .IntegerV r] ".s[]" [0, 1, 2] =
      (if 0 ≤ l ∧ l ≤ r ∧ r < (s.length : Int)
       then .ok (.StringV ((s.drop l.toNat).take (r - l).toNat))
       else .error "invalid substring range") ∧
    ((∃ m, callIntrinsic [.StringV s, .IntegerV l, .IntegerV r] ".s[]" [0, 1, 2] =
        .error m) ↔ ¬(0 ≤ l ∧ l ≤ r ∧ r < (s.length : Int))) ∧
    (s = [] →
      callIntrinsic [.StringV s, .IntegerV l, .IntegerV r] ".s[]" [0, 1, 2] =
        .error "invalid substring range") := by
  have hcond : ((0 ≤ l ∧ l < (s.length : Int)) ∧ (0 ≤ r ∧ r < (s.length : Int)) ∧ l ≤ r) ↔
      (0 ≤ l ∧ l ≤ r ∧ r < (s.length : Int)) := by
    constructor
    · rintro ⟨⟨h1, _⟩, ⟨_, h4⟩, h5⟩
      exact ⟨h1, h5, h4⟩
    · rintro ⟨h1, h2, h3⟩
      exact ⟨⟨h1, by omega⟩, ⟨by omega, h3⟩, h2⟩
  have hmain : callIntrinsic [.StringV s, .IntegerV l, .IntegerV r] ".s[]" [0, 1, 2] =
      (if 0 ≤ l ∧ l ≤ r ∧ r < (s.length : Int)
       then .ok (.StringV ((s.drop l.toNat).take (r - l).toNat))
       else .error "invalid substring range") := by
    by_cases h : 0 ≤ l ∧ l ≤ r ∧ r < (s.length : Int)
    · simp [callIntrinsic, strIntIntArgs3, hcond, h]
      omega
    · simp [callIntrinsic, strIntIntArgs3, hcond, h]
  refine ⟨hmain, ?_, ?_⟩
  · rw [hmain]
    by_cases h : 0 ≤ l ∧ l ≤ r ∧ r < (s.length : Int)
    · simp [h]
    · simp [h]
  · intro hs
    subst hs
    rw [hmain, if_neg]
    intro hcontra
    simp at hcontra
    omega

/-- C7: `.type` on a single argument never errors and returns integer 0 for
Void, 1 for Integer, and 2 for everything else — both String and Closure
yield 2. -/
theorem type_intrinsic_spec (heap : List Value) (loc : Nat) :
    callIntrinsic heap ".type" [loc] =
      .ok (.IntegerV
        (match heap.getD loc .VoidV with
         | .VoidV => 0
         | .IntegerV _ => 1
         | .StringV _ => 2
         | .ClosureV _ _ _ => 2)) ∧
    (∀ s, callIntrinsic [.StringV s] ".type" [0] = .ok (.IntegerV 2)) ∧
    (∀ env varList body,
      callIntrinsic [.ClosureV env varList body] ".type" [0] = .ok (.IntegerV 2)) := by
  refine ⟨?_, fun s => rfl, fun env varList body => rfl⟩
  rcases hv : heap.getD loc .VoidV with _ | v | sv | ⟨e, vl, b⟩
  all_goals
    simp only [List.getD_eq_getElem?_getD] at hv
    simp [callIntrinsic, anyArg1, hv]

/-- C9: `.+`, `.-` and `.*` on two integer arguments always return an
integer and never raise an error; `./` and `.%` on two integer arguments
raise a runtime error if and only if the divisor is 0, and otherwise return
the C++ truncated quotient and remainder. -/
theorem arithmetic_totality (a b : Int) :
    callIntrinsic [.IntegerV a, .IntegerV b] ".+" [0, 1] = .ok (.IntegerV (a + b)) ∧
    callIntrinsic [.IntegerV a, .IntegerV b] ".-" [0, 1] = .ok (.IntegerV (a - b)) ∧
    callIntrinsic [.IntegerV a, .IntegerV b] ".*" [0, 1] = .ok (.IntegerV (a * b)) ∧
    callIntrinsic [.IntegerV a, .IntegerV b] "./" [0, 1] =
      (if b = 0 then .error "division by zero" else .ok (.IntegerV (a.tdiv b))) ∧
    callIntrinsic [.IntegerV a, .IntegerV b] ".%" [0, 1] =
      (if b = 0 then .error "division by zero" else .ok (.IntegerV (a.tmod b))) ∧
    ((∃ m, callIntrinsic [.IntegerV a, .IntegerV b] "./" [0, 1] = .error m) ↔ b = 0) ∧
    ((∃ m, callIntrinsic [.IntegerV a, .IntegerV b] ".%" [0, 1] = .error m) ↔ b = 0) := by
  refine ⟨rfl, rfl, rfl, ?_, ?_, ?_, ?_⟩ <;> by_cases hb : b = 0 <;>
    simp [callIntrinsic, intArgs2, hb]

/-- C10: every successful result of the comparison and logical intrinsics
(integer `.<` `.<=` `.>` `.>=` `.=` `./=` `.and` `.or` `.not` and string
`.s<` `.s<=` `.s>` `.s>=` `.s=` `.s/=`) is the integer 0 or the integer 1;
`.and`, `.or` and `.not` treat any nonzero integer as true and normalize the
result, so their results are always valid `if` conditions. -/
theorem boolean_intrinsics_spec (a b : Int) (s t : List Char) :
    isBoolResult (callIntrinsic [.IntegerV a, .IntegerV b] ".<" [0, 1]) ∧
    isBoolResult (callIntrinsic [.IntegerV a, .IntegerV b] ".<=" [0, 1]) ∧
    isBoolResult (callIntrinsic [.IntegerV a, .IntegerV b] ".>" [0, 1]) ∧
    isBoolResult (callIntrinsic [.IntegerV a, .IntegerV b] ".>=" [0, 1]) ∧
    isBoolResult (callIntrinsic [.IntegerV a, .IntegerV b] ".=" [0, 1]) ∧
    isBoolResult (callIntrinsic [.IntegerV a, .IntegerV b] "./=" [0, 1]) ∧
    isBoolResult (callIntrinsic [.IntegerV a, .IntegerV b] ".and" [0, 1]) ∧
    isBoolResult (callIntrinsic [.IntegerV a, .IntegerV b] ".or" [0, 1]) ∧
    isBoolResult (callIntrinsic [.IntegerV a] ".not" [0]) ∧
    isBoolResult (callIntrinsic [.StringV s, .StringV t] ".s<" [0, 1]) ∧
    isBoolResult (callIntrinsic [.StringV s, .StringV t] ".s<=" [0, 1]) ∧
    isBoolResult (callIntrinsic [.StringV s, .StringV t] ".s>" [0, 1]) ∧
    isBoolResult (callIntrinsic [.StringV s, .StringV t] ".s>=" [0, 1]) ∧
    isBoolResult (callIntrinsic [.StringV s, .StringV t] ".s=" [0, 1]) ∧
    isBoolResult (callIntrinsic [.StringV s, .StringV t] ".s/=" [0, 1]) ∧
    callIntrinsic [.IntegerV a, .IntegerV b] ".and" [0, 1] =
      .ok (.IntegerV (if a ≠ 0 ∧ b ≠ 0 then 1 else 0)) ∧
    callIntrinsic [.IntegerV a, .IntegerV b] ".or" [0, 1] =
      .ok (.IntegerV (if a ≠ 0 ∨ b ≠ 0 then 1 else 0)) ∧
    callIntrinsic [.IntegerV a] ".not" [0] =
      .ok (.IntegerV (if a ≠ 0 then 0 else 1)) := by
  have h1 : ∀ (c : Prop) (_ : Decidable c), isBoolResult (.ok (.IntegerV (if c then 1 else 0))) := by
    intro c hc
    by_cases h : c <;> simp [isBoolResult, h]
  have h0 : ∀ (c : Prop) (_ : Decidable c), isBoolResult (.ok (.IntegerV (if c then 0 else 1))) := by
    intro c hc
    by_cases h : c <;> simp [isBoolResult, h]
  exact ⟨h1 _ _, h1 _ _, h1 _ _, h1 _ _, h1 _ _, h0 _ _, h1 _ _, h1 _ _, h0 _ _,
    h1 _ _, h0 _ _, h1 _ _, h0 _ _, h1 _ _, h0 _ _, rfl, rfl, rfl⟩

theorem lookup_reverse_cons (x : String) (p : String × Nat) (rest : Env) :
    lookup x ((p :: rest).reverse) =
      if p.1 = x then some p.2 else lookup x rest.reverse := by
  have key : ∀ (l : Env), lookup x (l ++ [p]) =
      if p.1 = x then some p.2 else lookup x l := by
    intro l
    induction l with
    | nil => simp [lookup]
    | cons q t ih =>
      show lookup x (q :: (t ++ [p])) = _
      rw [lookup, ih]
      by_cases hp : p.1 = x
      · simp [hp]
      · simp [hp, lookup]
  simpa using key rest.reverse

theorem mem_captureSearch (x : String) (l : Nat) :
    ∀ (L : Env) (used : List String), used.Nodup →
      ((x, l) ∈ captureSearch used L ↔ x ∈ used ∧ lookup x L.reverse = some l) := by
  intro L
  induction L with
  | nil =>
    intro used _
    simp [captureSearch, lookup]
  | cons p rest ih =>
    intro used hnd
    rw [captureSearch]
    by_cases hemp : used.isEmpty
    · rw [if_pos hemp]
      rcases List.isEmpty_iff.mp hemp with rfl
      simp
    · rw [if_neg hemp, lookup_reverse_cons]
      by_cases hmem : p.1 ∈ used
      · rw [if_pos hmem]
        by_cases hx : p.1 = x
        · subst hx
          have hnotin : p.1 ∉ used.erase p.1 := hnd.not_mem_erase
          simp only [List.mem_cons, ih (used.erase p.1) (hnd.erase p.1), if_pos rfl]
          constructor
          · rintro (h | ⟨h1, _⟩)
            · exact ⟨hmem, by rw [← h]; simp⟩
            · exact absurd h1 hnotin
          · rintro ⟨_, h2⟩
            left
            have : p.2 = l := by injection h2
            rw [← this]
          -- the pair equality `(p.1, l) = p` unfolds to `p.2 = l`
        · have hxp : ¬ ((x, l) = p) := by
            intro hcontra
            exact hx (by rw [← hcontra])
          simp only [List.mem_cons, ih (used.erase p.1) (hnd.erase p.1), if_neg hx, hxp,
            false_or]
          rw [List.Nodup.mem_erase_iff hnd]
          constructor
          · rintro ⟨⟨_, h1⟩, h2⟩
            exact ⟨h1, h2⟩
          · rintro ⟨h1, h2⟩
            exact ⟨⟨fun he => hx he.symm, h1⟩, h2⟩
      · rw [if_neg hmem, ih used hnd]
        by_cases hx : p.1 = x
        · subst hx
          simp [hmem]
        · rw [if_neg hx]

theorem captureSearch_names_nodup (L : Env) :
    ∀ (used : List String), used.Nodup →
      ((captureSearch used L).map Prod.fst).Nodup := by
  induction L with
  | nil =>
    intro used _
    simp [captureSearch]
  | cons p rest ih =>
    intro used hnd
    rw [captureSearch]
    by_cases hemp : used.isEmpty
    · simp [hemp]
    · rw [if_neg hemp]
      by_cases hmem : p.1 ∈ used
      · rw [if_pos hmem]
        refine List.Nodup.cons ?_ (ih (used.erase p.1) (hnd.erase p.1))
        intro hcontra
        rcases List.mem_map.mp hcontra with ⟨⟨y, loc⟩, hy, hfst⟩
        have hmemy := ((mem_captureSearch y loc rest (used.erase p.1) (hnd.erase p.1)).mp hy).1
        have hy2 : y = p.1 := hfst
        rw [hy2] at hmemy
        exact hnd.not_mem_erase hmemy
      · rw [if_neg hmem]
        exact ih used hnd

theorem captureSearch_sublist (L : Env) :
    ∀ (used : List String), List.Sublist (captureSearch used L) L := by
  induction L with
  | nil =>
    intro used
    simp [captureSearch]
  | cons p rest ih =>
    intro used
    rw [captureSearch]
    by_cases hemp : used.isEmpty
    · simp [hemp]
    · rw [if_neg hemp]
      by_cases hmem : p.1 ∈ used
      · rw [if_pos hmem]
        exact (ih (used.erase p.1)).cons₂ p
      · rw [if_neg hmem]
        exact (ih used).cons p

/-- C5 (amended): when a Lambda node is evaluated the machine allocates
`ClosureV (capture freeVars env) varList body`; the captured environment
contains exactly one binding — the newest one — for each free variable of
the node *that is bound in the current environment* (a free variable with no
binding is silently omitted); no binding whose name is not free is captured;
and the captured bindings keep their original (oldest-first) relative
order as a sublist of the environment. -/
theorem lambda_capture_spec (fv : List String) (env : Env) (hnd : fv.Nodup) :
    (∀ x l, ((x, l) ∈ capture fv env) ↔ (x ∈ fv ∧ lookup x env = some l)) ∧
    ((capture fv env).map Prod.fst).Nodup ∧
    List.Sublist (capture fv env) env ∧
    (∀ pool heap nlit res envRef frameb pcv locs rest varList body,
      step pool
        { stack := { envRef := envRef, expr := some (.LambdaNode varList fv body),
                     frame := frameb, pc := pcv, localLocs := locs } :: rest,
          heap := heap, numLiterals := nlit, resultLoc := res } =
      .next pool
        { stack := rest,
          heap := heap ++ [.ClosureV (capture fv (pool.getD envRef [])) varList body],
          numLiterals := nlit, resultLoc := heap.length }) := by
  refine ⟨?_, ?_, ?_, fun _ _ _ _ _ _ _ _ _ _ _ => rfl⟩
  · intro x l
    rw [capture, List.mem_reverse, mem_captureSearch x l env.reverse fv hnd,
      List.reverse_reverse]
  · rw [capture, List.map_reverse]
    exact List.nodup_reverse.mpr (captureSearch_names_nodup env.reverse fv hnd)
  · rw [capture]
    simpa using (captureSearch_sublist env.reverse fv).reverse

theorem lambda_capture_spec_witness :
    (["x"] : List String).Nodup ∧
    ("x", 2) ∈ capture ["x"] [("x", 0), ("y", 1), ("x", 2)] := by
  refine ⟨by decide, ?_⟩
  exact ((lambda_capture_spec ["x"] [("x", 0), ("y", 1), ("x", 2)] (by decide)).1 "x" 2).mpr
    ⟨by decide, rfl⟩

/-- C5 counterexample: the claim "the Closure captures exactly one binding
per free variable of the node" fails when a free variable has no binding in
the current environment: evaluating `lambda () x` (free variable `x`) in an
empty environment allocates a closure whose captured environment is empty —
it contains no binding at all for the free variable `x`. -/
theorem lambda_capture_counterexample :
    step [[]]
      { stack := [childLayer 0 (.LambdaNode [] ["x"] (.VariableNode "x")), mainLayer],
        heap := [], numLiterals := 0, resultLoc := 0 } =
      .next [[]]
        { stack := [mainLayer], heap := [.ClosureV [] [] (.VariableNode "x")],
          numLiterals := 0, resultLoc := 0 } ∧
    capture ["x"] ([] : Env) = [] ∧
    "x" ∈ (["x"] : List String) ∧
    (∀ l, ("x", l) ∉ capture ["x"] ([] : Env)) := by
  exact ⟨rfl, rfl, by decide, fun l h => by simp [capture, captureSearch] at h⟩

/-- C1 (bug demonstration): the copy constructor `State::State(const State&)`
copies the stack `std::vector<Layer>` member-wise, which copies each layer's
`std::shared_ptr<Env>` — the clone's layers reference the *same* environment
objects as the original (`stateCopy` preserves every `envRef`).  Stepping the
original machine on `letrec (x 0) x` (the pc = 0 step pushes the fresh
binding `x ↦ 1` onto the shared main-frame environment) therefore changes
the environment observed through the clone's own, unstepped layer: it is
`[]` before the step and `[("x", 1)]` after.  This contradicts the claim
that no environment object is shared between the two States and that
stepping one never changes the environments observed by the other. -/
theorem state_copy_shares_envs :
    stateCopy c1State = c1State ∧
    (stateCopy c1State).stack.map (fun l => l.envRef) =
      c1State.stack.map (fun l => l.envRef) ∧
    step c1Pool c1State = .next c1PoolAfter c1StateAfter ∧
    layerEnv c1Pool ((stateCopy c1State).stack.getD 0 mainLayer) = [] ∧
    layerEnv c1PoolAfter ((stateCopy c1State).stack.getD 0 mainLayer) = [("x", 1)] ∧
    layerEnv c1PoolAfter ((stateCopy c1State).stack.getD 0 mainLayer) ≠
      layerEnv c1Pool ((stateCopy c1State).stack.getD 0 mainLayer) := by
  refine ⟨rfl, rfl, rfl, rfl, rfl, by decide⟩

theorem dropWhile_until_frame (L : List Layer) (hfr : ∃ fr ∈ L, fr.frame = true) :
    ∃ F M, L.dropWhile (fun l => !l.frame) = F :: M ∧ F.frame = true ∧
      countFrames M + 1 = countFrames L ∧ M.length + 1 ≤ L.length := by
  induction L with
  | nil =>
    rcases hfr with ⟨fr, hmem, _⟩
    cases hmem
  | cons a rest ih =>
    by_cases ha : a.frame
    · refine ⟨a, rest, ?_, ha, ?_, ?_⟩
      · simp [List.dropWhile_cons, ha]
      · simp [countFrames, List.countP_cons, ha]
      · simp
    · rcases hfr with ⟨fr, hmem, hf⟩
      rcases List.mem_cons.mp hmem with rfl | hmem2
      · exact absurd hf ha
      · rcases ih ⟨fr, hmem2, hf⟩ with ⟨F, M, hdrop, hF, hcount, hlen⟩
        refine ⟨F, M, ?_, hF, ?_, ?_⟩
        · simpa [List.dropWhile_cons, ha] using hdrop
        · rw [hcount]
          simp [countFrames, List.countP_cons, ha]
        · simp only [List.length_cons]
          omega

/-- C4: at the call step of a tail-marked `ExprCall`, the evaluator pops
layers until the topmost remaining layer is a frame, pops that frame, and
only then pushes the new call frame; consequently the number of frame
layers on the stack is unchanged and the total stack depth does not grow
across a tail call. -/
theorem tail_call_preserves_frames
    (pool : EnvPool) (heap : List Value) (nlit : Nat) (res : Nat)
    (envRef : Nat) (callee : ExprNode) (argsL : List ExprNode) (frameb : Bool)
    (locs : List Nat) (rest : List Layer) (cenv : Env)
    (varList : List String) (body : ExprNode) (local1 : List Nat)
    (hloc1 : local1 =
      if 2 < argsL.length + 2 ∧ argsL.length + 2 ≤ argsL.length + 2
      then locs ++ [res] else locs)
    (hclos : heap.getD (local1.getD 0 0) .VoidV = .ClosureV cenv varList body)
    (harity : local1.length = varList.length + 1)
    (hfr : ∃ fr ∈ callLayer envRef callee argsL frameb locs :: rest, fr.frame = true) :
    ∃ pool1 s1,
      step pool
        { stack := callLayer envRef callee argsL frameb locs :: rest,
          heap := heap, numLiterals := nlit, resultLoc := res } = .next pool1 s1 ∧
      countFrames s1.stack = countFrames (callLayer envRef callee argsL frameb locs :: rest) ∧
      s1.stack.length ≤ (callLayer envRef callee argsL frameb locs :: rest).length := by
  have h0 : ¬ (argsL.length + 2 = 0) := by omega
  have h1 : ¬ (argsL.length + 2 = 1) := by omega
  have h2 : ¬ (argsL.length + 2 ≤ argsL.length + 1) := by omega
  have harity2 : ¬ (local1.length ≠ varList.length + 1) := by omega
  have hfr2 : ∃ fr ∈ callLayerBumped envRef callee argsL frameb local1 :: rest,
      fr.frame = true := by
    rcases hfr with ⟨fr, hmem, hf⟩
    rcases List.mem_cons.mp hmem with rfl | hmem2
    · exact ⟨callLayerBumped envRef callee argsL frameb local1, List.mem_cons_self _ _, hf⟩
    · exact ⟨fr, List.mem_cons_of_mem _ hmem2, hf⟩
  rcases dropWhile_until_frame _ hfr2 with ⟨F, M, hdrop, hF, hcount, hlen⟩
  have hcount2 : countFrames (callLayerBumped envRef callee argsL frameb local1 :: rest) =
      countFrames (callLayer envRef callee argsL frameb locs :: rest) := by
    simp [callLayer, callLayerBumped, countFrames, List.countP_cons]
  refine ⟨pool ++ [cenv ++ varList.zip (local1.drop 1)],
    { stack := pushedFrame pool.length body ::
        ((callLayerBumped envRef callee argsL frameb local1 :: rest).dropWhile
          (fun l => !l.frame)).tail,
      heap := heap, numLiterals := nlit, resultLoc := res }, ?_, ?_, ?_⟩
  · rw [step.eq_def]
    simp only [callLayer, callLayerBumped, pushedFrame, h0, h1, h2, ← hloc1, hclos, harity2,
      if_false, if_true, ite_false, ite_true, eq_self_iff_true, List.length_cons]
  · rw [hdrop]
    simp only [List.tail_cons]
    rw [← hcount2, ← hcount]
    simp [pushedFrame, countFrames, List.countP_cons]
  · rw [hdrop]
    simp only [List.tail_cons, List.length_cons] at *
    omega

theorem tail_call_preserves_frames_witness :
    ∃ pool1 s1,
      step [[], []] c4State = .next pool1 s1 ∧
      countFrames s1.stack = countFrames c4State.stack ∧
      s1.stack.length ≤ c4State.stack.length := by
  exact tail_call_preserves_frames [[], []] [.ClosureV [] [] (.IntegerNode 0 1), .IntegerV 7]
    2 1 1 (.VariableNode "f") [] false [0] [c4Frame, mainLayer] [] [] (.IntegerNode 0 1) [0]
    rfl rfl rfl ⟨c4Frame, List.mem_cons_of_mem _ (List.mem_cons_self _ _), rfl⟩

theorem getD_set_ne {α : Type} (l : List α) (i j : Nat) (v d : α) (h : i ≠ j) :
    (l.set i v).getD j d = l.getD j d := by
  rw [List.getD_eq_getD_get?, List.getD_eq_getD_get?, List.get?_set_ne v l h]

theorem getD_set_self {α : Type} (l : List α) (i : Nat) (v d : α) (h : i < l.length) :
    (l.set i v).getD i d = v := by
  rw [List.getD_eq_getD_get?, List.get?_set_eq_of_lt v h]
  rfl

theorem mem_of_getD {α : Type} (l : List α) (i : Nat) (d : α) (h : i < l.length) :
    l.getD i d ∈ l := by
  rw [List.getD_eq_getElem l d h]
  exact List.getElem_mem h

theorem mem_of_set {α : Type} (l : List α) (i : Nat) (v x : α) (h : x ∈ l.set i v) :
    x ∈ l ∨ x = v := by
  rcases List.mem_or_eq_of_mem_set h with h1 | h1
  · exact Or.inl h1
  · exact Or.inr h1

theorem lookup_mem (name : String) (env : Env) (l : Nat)
    (h : lookup name env = some l) : ∃ nm, (nm, l) ∈ env := by
  induction env with
  | nil => exact absurd h (by simp [lookup])
  | cons p rest ih =>
    rw [lookup] at h
    rcases hr : lookup name rest with _ | l2
    · rw [hr] at h
      by_cases hp : p.1 = name
      · rw [if_pos hp] at h
        injection h with h2
        refine ⟨p.1, ?_⟩
        rw [← h2]
        exact List.mem_cons_self _ _
      · rw [if_neg hp] at h
        exact absurd h (by simp)
    · rw [hr] at h
      injection h with h2
      rcases ih (by rw [hr, h2]) with ⟨nm, hmem⟩
      exact ⟨nm, List.mem_cons_of_mem _ hmem⟩

theorem lookup_not_mem (name : String) (env : Env) (h : name ∉ env.map Prod.fst) :
    lookup name env = none := by
  induction env with
  | nil => rfl
  | cons p rest ih =>
    simp only [List.map_cons, List.mem_cons, not_or] at h
    have hne : ¬ (p.1 = name) := fun he => h.1 he.symm
    rw [lookup, ih h.2]
    simp [hne]

theorem lookup_append (name : String) (xs ys : Env) :
    lookup name (xs ++ ys) =
      match lookup name ys with
      | some l => some l
      | none => lookup name xs := by
  induction xs with
  | nil =>
    simp only [List.nil_append]
    cases lookup name ys <;> simp [lookup]
  | cons p rest ih =>
    show lookup name (p :: (rest ++ ys)) = _
    rw [lookup, ih]
    rcases hys : lookup name ys with _ | ly <;> rcases hrest : lookup name rest with _ | lr <;>
      simp [lookup, hys, hrest]

theorem lookup_getD_of_nodup (intro : Env) (i : Nat) (hi : i < intro.length)
    (hnd : (intro.map Prod.fst).Nodup) :
    lookup (intro.getD i ("", 0)).1 intro = some (intro.getD i ("", 0)).2 := by
  induction intro generalizing i with
  | nil => simp at hi
  | cons p rest ih =>
    simp only [List.map_cons, List.nodup_cons] at hnd
    cases i with
    | zero =>
      simp only [List.getD_cons_zero]
      rw [lookup, lookup_not_mem p.1 rest hnd.1]
      simp
    | succ j =>
      simp only [List.getD_cons_succ]
      have hj : j < rest.length := by
        simpa using hi
      rw [lookup, ih j hj hnd.2]

theorem step_heap_changes_only_letrec
    (pool : EnvPool) (s : State) (pool1 : EnvPool) (s1 : State) (L : Nat)
    (h : step pool s = .next pool1 s1) (hL : L < s.heap.length)
    (hne : s1.heap.getD L .VoidV ≠ s.heap.getD L .VoidV) :
    ∃ envRef ves body frameb pcv locs rest,
      s.stack = letrecLayer envRef ves body frameb pcv locs :: rest ∧
      1 < pcv ∧ pcv ≤ ves.length + 1 ∧
      lookup (ves.getD (pcv - 2) dummyVE).1 (pool.getD envRef []) = some L := by
  rcases hs : s.stack with _ | ⟨layer, rest⟩
  · rw [step.eq_def, hs] at h
    exact StepResult.noConfusion h
  rcases he : layer.expr with _ | e
  · rw [step.eq_def, hs] at h
    simp only [he] at h
    exact StepResult.noConfusion h
  rw [step.eq_def, hs] at h
  simp only [he] at h
  cases e with
  | IntegerNode val loc =>
    cases h
    exact absurd rfl hne
  | StringNode val loc =>
    cases h
    exact absurd rfl hne
  | VariableNode name =>
    rcases hl : lookup name (layerEnv pool layer) with _ | loc <;> simp only [hl] at h
    · exact StepResult.noConfusion h
    · cases h
      exact absurd rfl hne
  | LambdaNode varList freeVars body =>
    cases h
    exact absurd (List.getD_append _ _ _ _ hL) hne
  | LetrecNode ves body =>
    by_cases hrec : 1 < layer.pc ∧ layer.pc ≤ ves.length + 1
    · simp only [if_pos hrec] at h
      rcases hl : lookup (ves.getD (layer.pc - 2) dummyVE).1 (layerEnv pool layer)
        with _ | loc <;> simp only [hl] at h
      · exact StepResult.noConfusion h
      · have h0 : ¬ (layer.pc = 0) := by omega
        simp only [h0, if_false, ite_false] at h
        by_cases hloc : loc = L
        · refine ⟨layer.envRef, ves, body, layer.frame, layer.pc, layer.localLocs, rest,
            ?_, hrec.1, hrec.2, ?_⟩
          · unfold letrecLayer
            rw [← he]
          · rw [← hloc]
            exact hl
        · exfalso
          by_cases hle : layer.pc ≤ ves.length
          · simp only [if_pos hle] at h
            cases h
            exact hne (getD_set_ne _ _ _ _ _ hloc)
          · simp only [if_neg hle] at h
            by_cases hb : layer.pc = ves.length + 1
            · simp only [if_pos hb] at h
              cases h
              exact hne (getD_set_ne _ _ _ _ _ hloc)
            · simp only [if_neg hb] at h
              cases h
              exact hne (getD_set_ne _ _ _ _ _ hloc)
    · simp only [if_neg hrec] at h
      by_cases h0 : layer.pc = 0
      · simp only [if_pos h0] at h
        cases h
        exact absurd (List.getD_append _ _ _ _ hL) hne
      · simp only [if_neg h0] at h
        by_cases hle : layer.pc ≤ ves.length
        · simp only [if_pos hle] at h
          cases h
          exact absurd rfl hne
        · simp only [if_neg hle] at h
          by_cases hb : layer.pc = ves.length + 1
          · simp only [if_pos hb] at h
            cases h
            exact absurd rfl hne
          · simp only [if_neg hb] at h
            cases h
            exact absurd rfl hne
  | IfNode cond branch1 branch2 =>
    by_cases h0 : layer.pc = 0
    · simp only [if_pos h0] at h
      cases h
      exact absurd rfl hne
    · simp only [if_neg h0] at h
      by_cases h1 : layer.pc = 1
      · simp only [if_pos h1] at h
        rcases hv : s.heap.getD s.resultLoc .VoidV with _ | v | sv | cv <;>
          simp only [hv] at h
        · exact StepResult.noConfusion h
        · by_cases hvz : v ≠ 0
          · simp only [if_pos hvz] at h
            cases h
            exact absurd rfl hne
          · simp only [if_neg hvz] at h
            cases h
            exact absurd rfl hne
        · exact StepResult.noConfusion h
        · exact StepResult.noConfusion h
      · simp only [if_neg h1] at h
        cases h
        exact absurd rfl hne
  | SequenceNode exprList =>
    by_cases hlt : layer.pc < exprList.length
    · simp only [if_pos hlt] at h
      cases h
      exact absurd rfl hne
    · simp only [if_neg hlt] at h
      cases h
      exact absurd rfl hne
  | IntrinsicCallNode intrinsic argList =>
    by_cases hlt : layer.pc < argList.length
    · simp only [if_pos hlt] at h
      cases h
      exact absurd rfl hne
    · simp only [if_neg hlt] at h
      rcases hc : callIntrinsic s.heap intrinsic
        (if 0 < layer.pc ∧ layer.pc ≤ argList.length
         then layer.localLocs ++ [s.resultLoc] else layer.localLocs)
        with m | v <;> simp only [hc] at h
      · exact StepResult.noConfusion h
      · cases h
        exact absurd (List.getD_append _ _ _ _ hL) hne
  | ExprCallNode tailPos callee argList =>
    by_cases h0 : layer.pc = 0
    · simp only [if_pos h0] at h
      cases h
      exact absurd rfl hne
    · simp only [if_neg h0] at h
      by_cases h1 : layer.pc = 1
      · simp only [if_pos h1] at h
        cases h
        exact absurd rfl hne
      · simp only [if_neg h1] at h
        by_cases hle : layer.pc ≤ argList.length + 1
        · simp only [if_pos hle] at h
          cases h
          exact absurd rfl hne
        · simp only [if_neg hle] at h
          by_cases hcall : layer.pc = argList.length + 2
          · simp only [if_pos hcall] at h
            rcases hv : s.heap.getD
                ((if 2 < layer.pc ∧ layer.pc ≤ argList.length + 2
                  then layer.localLocs ++ [s.resultLoc] else layer.localLocs).getD 0 0) .VoidV
              with _ | v | sv | ⟨cenv, vl, bd⟩ <;> simp only [hv] at h
            · exact StepResult.noConfusion h
            · exact StepResult.noConfusion h
            · exact StepResult.noConfusion h
            · by_cases har : (if 2 < layer.pc ∧ layer.pc ≤ argList.length + 2
                  then layer.localLocs ++ [s.resultLoc] else layer.localLocs).length ≠
                  vl.length + 1
              · simp only [if_pos har] at h
                exact StepResult.noConfusion h
              · simp only [if_neg har] at h
                cases h
                exact absurd rfl hne
          · simp only [if_neg hcall] at h
            cases h
            exact absurd rfl hne
  | AtNode varName atExpr =>
    by_cases h0 : layer.pc = 0
    · simp only [if_pos h0] at h
      cases h
      exact absurd rfl hne
    · simp only [if_neg h0] at h
      rcases hv : s.heap.getD s.resultLoc .VoidV with _ | v | sv | ⟨cenv, vl, bd⟩ <;>
        simp only [hv] at h
      · exact StepResult.noConfusion h
      · exact StepResult.noConfusion h
      · exact StepResult.noConfusion h
      · rcases hl : lookup varName cenv with _ | loc <;> simp only [hl] at h
        · exact StepResult.noConfusion h
        · cases h
          exact absurd rfl hne

theorem letrec_record_overwrites_own
    (pool : EnvPool) (heap : List Value) (nlit : Nat) (res : Nat)
    (envRef : Nat) (ves : List (String × ExprNode)) (body : ExprNode) (frameb : Bool)
    (i : Nat) (locs : List Nat) (rest : List Layer) (prefixEnv intro : Env)
    (henv : pool.getD envRef [] = prefixEnv ++ intro)
    (hnames : intro.map Prod.fst = ves.map Prod.fst)
    (hnd : (ves.map Prod.fst).Nodup)
    (hi : i < ves.length) :
    ∃ pool1 s1,
      step pool
        { stack := letrecLayer envRef ves body frameb (i + 2) locs :: rest,
          heap := heap, numLiterals := nlit, resultLoc := res } = .next pool1 s1 ∧
      s1.heap = heap.set (intro.getD i ("", 0)).2 (heap.getD res .VoidV) := by
  have hlen : intro.length = ves.length := by
    simpa using congrArg List.length hnames
  have hndI : (intro.map Prod.fst).Nodup := by
    rw [hnames]
    exact hnd
  have hname_eq : (ves.getD i dummyVE).1 = (intro.getD i ("", 0)).1 := by
    have h1 : (intro.map Prod.fst).getD i "" = (intro.getD i ("", 0)).1 :=
      List.getD_map intro ("", 0) Prod.fst
    have h2 : (ves.map Prod.fst).getD i "" = (ves.getD i dummyVE).1 :=
      List.getD_map ves dummyVE Prod.fst
    rw [← h1, ← h2, hnames]
  have hlook : lookup (ves.getD i dummyVE).1 (prefixEnv ++ intro) =
      some ((intro.getD i ("", 0)).2) := by
    rw [lookup_append, hname_eq, lookup_getD_of_nodup intro i (by omega) hndI]
  have hrec : 1 < i + 2 ∧ i + 2 ≤ ves.length + 1 := ⟨by omega, by omega⟩
  have h0 : ¬ (i + 2 = 0) := by omega
  rw [step.eq_def]
  simp only [letrecLayer, layerEnv, henv, Nat.add_sub_cancel, hrec, if_true, ite_true,
    hlook, h0, if_false, ite_false]
  by_cases hle : i + 2 ≤ ves.length
  · simp only [hle, if_true, ite_true]
    exact ⟨_, _, rfl, rfl⟩
  · simp only [hle, if_false, ite_false]
    by_cases hb : i + 2 = ves.length + 1
    · simp only [hb, if_true, ite_true]
      exact ⟨_, _, rfl, rfl⟩
    · simp only [hb, if_false, ite_false]
      exact ⟨_, _, rfl, rfl⟩

/-- C3: once a Value is stored at a heap Location it never changes for the
rest of the run, with the single exception of the Letrec knot-tying step:
(1) whenever a step changes the value at an existing location `L`, the top
layer is a `LetrecNode` at a recording pc (`1 < pc ≤ N + 1`) and `L` is
exactly the location found by looking up that binding's name in the layer's
environment; (2) at the recording step for binding `i` of a letrec whose
freshly introduced bindings `intro` form the newest segment of the
environment, the step overwrites exactly `intro[i]`'s location — the
location this same letrec introduced — and no other. -/
theorem value_immutability :
    (∀ pool s pool1 s1 L, step pool s = .next pool1 s1 → L < s.heap.length →
      s1.heap.getD L .VoidV ≠ s.heap.getD L .VoidV →
      ∃ envRef ves body frameb pcv locs rest,
        s.stack = letrecLayer envRef ves body frameb pcv locs :: rest ∧
        1 < pcv ∧ pcv ≤ ves.length + 1 ∧
        lookup (ves.getD (pcv - 2) dummyVE).1 (pool.getD envRef []) = some L) ∧
    (∀ pool heap nlit res envRef ves body frameb i locs rest prefixEnv intro,
      pool.getD envRef [] = prefixEnv ++ intro →
      intro.map Prod.fst = ves.map Prod.fst →
      (ves.map Prod.fst).Nodup →
      i < ves.length →
      ∃ pool1 s1,
        step pool
          { stack := letrecLayer envRef ves body frameb (i + 2) locs :: rest,
            heap := heap, numLiterals := nlit, resultLoc := res } = .next pool1 s1 ∧
        s1.heap = heap.set (intro.getD i ("", 0)).2 (heap.getD res .VoidV)) :=
  ⟨step_heap_changes_only_letrec,
   fun pool heap nlit res envRef ves body frameb i locs rest prefixEnv intro =>
     letrec_record_overwrites_own pool heap nlit res envRef ves body frameb i locs rest
       prefixEnv intro⟩

theorem value_immutability_witness :
    ∃ pool1 s1,
      step [[("x", 1)]] c3State = .next pool1 s1 ∧
      s1.heap = c3State.heap.set 1 (c3State.heap.getD 0 .VoidV) := by
  exact value_immutability.2 [[("x", 1)]] [.IntegerV 0, .VoidV] 1 0 0
    [("x", .IntegerNode 0 0)] (.VariableNode "x") false 0 [] [mainLayer] [] [("x", 1)]
    rfl rfl (by decide) (by decide)

/-! ### Renaming commutation lemmas for the GC simulation -/

theorem relocEnv_congr (f g : Nat → Nat) (env : Env)
    (h : ∀ p ∈ env, f p.2 = g p.2) : relocEnv f env = relocEnv g env := by
  unfold relocEnv
  exact List.map_congr_left (fun p hp => by rw [h p hp])

theorem relocEnv_id (env : Env) : relocEnv id env = env := by
  simp [relocEnv]

theorem relocEnv_comp (f g : Nat → Nat) (env : Env) :
    relocEnv f (relocEnv g env) = relocEnv (fun l => f (g l)) env := by
  unfold relocEnv
  rw [List.map_map]
  rfl

theorem mapValue_congr (f g : Nat → Nat) (v : Value)
    (h : ∀ l ∈ valueLocs v, f l = g l) : mapValue f v = mapValue g v := by
  cases v with
  | ClosureV env varList body =>
    show Value.ClosureV (relocEnv f env) _ _ = Value.ClosureV (relocEnv g env) _ _
    rw [relocEnv_congr f g env (fun p hp => h p.2 (List.mem_map_of_mem _ hp))]
  | VoidV => rfl
  | IntegerV v => rfl
  | StringV v => rfl

theorem mapValue_id (v : Value) : mapValue id v = v := by
  cases v with
  | ClosureV env varList body =>
    show Value.ClosureV (relocEnv id env) _ _ = _
    rw [relocEnv_id]
  | VoidV => rfl
  | IntegerV v => rfl
  | StringV v => rfl

theorem valueToString_mapValue (φ : Nat → Nat) (v : Value) :
    valueToString (mapValue φ v) = valueToString v := by
  cases v <;> rfl

theorem lookup_relocEnv (φ : Nat → Nat) (name : String) (env : Env) :
    lookup name (relocEnv φ env) = (lookup name env).map φ := by
  induction env with
  | nil => rfl
  | cons p rest ih =>
    show lookup name ((p.1, φ p.2) :: relocEnv φ rest) = _
    rw [lookup, ih, lookup]
    cases lookup name rest with
    | some l => rfl
    | none =>
      by_cases hp : p.1 = name <;> simp [hp]

theorem captureSearch_relocEnv (φ : Nat → Nat) :
    ∀ (L : Env) (used : List String),
      captureSearch used (relocEnv φ L) = relocEnv φ (captureSearch used L) := by
  intro L
  induction L with
  | nil =>
    intro used
    rfl
  | cons p rest ih =>
    intro used
    show captureSearch used ((p.1, φ p.2) :: relocEnv φ rest) = _
    rw [captureSearch, captureSearch]
    by_cases hemp : used.isEmpty
    · simp [hemp, relocEnv]
    · simp only [hemp, if_false, ite_false]
      by_cases hmem : p.1 ∈ used
      · simp [hmem, ih]
        rfl
      · simp [hmem, ih]

theorem capture_relocEnv (φ : Nat → Nat) (fv : List String) (env : Env) :
    capture fv (relocEnv φ env) = relocEnv φ (capture fv env) := by
  unfold capture relocEnv
  rw [← List.map_reverse]
  show (captureSearch fv (relocEnv φ env.reverse)).reverse = _
  rw [captureSearch_relocEnv φ env.reverse fv]
  unfold relocEnv
  rw [List.map_reverse]

theorem extMap_lt (φ : Nat → Nat) (lb la l : Nat) (h : l < lb) :
    extMap φ lb la l = φ l := if_pos h

theorem extMap_ge (φ : Nat → Nat) (lb la l : Nat) (h : lb ≤ l) :
    extMap φ lb la l = la + (l - lb) := if_neg (Nat.not_lt.mpr h)

theorem intArgs2_rel (φ : Nat → Nat) (heapA heapB : List Value)
    (args : List Nat)
    (h : ∀ a ∈ args, heapA.getD (φ a) .VoidV = mapValue φ (heapB.getD a .VoidV)) :
    intArgs2 heapA (args.map φ) = intArgs2 heapB args := by
  rcases args with _ | ⟨a, _ | ⟨b, _ | ⟨c, r⟩⟩⟩
  · rfl
  · rfl
  · have ha := h a (by simp)
    have hb := h b (by simp)
    show (match heapA.getD (φ a) .VoidV, heapA.getD (φ b) .VoidV with
      | .IntegerV x, .IntegerV y => some (x, y)
      | _, _ => none) = _
    rw [ha, hb]
    rcases hva : heapB.getD a .VoidV with _ | va | sa | ⟨ea, vla, ba⟩ <;>
      rcases hvb : heapB.getD b .VoidV with _ | vb | sb | ⟨eb, vlb, bb⟩ <;>
      (simp only [List.getD_eq_getElem?_getD] at hva hvb
       simp [intArgs2, hva, hvb, mapValue, relocValue])
  · rfl

theorem strArgs2_rel (φ : Nat → Nat) (heapA heapB : List Value)
    (args : List Nat)
    (h : ∀ a ∈ args, heapA.getD (φ a) .VoidV = mapValue φ (heapB.getD a .VoidV)) :
    strArgs2 heapA (args.map φ) = strArgs2 heapB args := by
  rcases args with _ | ⟨a, _ | ⟨b, _ | ⟨c, r⟩⟩⟩
  · rfl
  · rfl
  · have ha := h a (by simp)
    have hb := h b (by simp)
    show (match heapA.getD (φ a) .VoidV, heapA.getD (φ b) .VoidV with
      | .StringV x, .StringV y => some (x, y)
      | _, _ => none) = _
    rw [ha, hb]
    rcases hva : heapB.getD a .VoidV with _ | va | sa | ⟨ea, vla, ba⟩ <;>
      rcases hvb : heapB.getD b .VoidV with _ | vb | sb | ⟨eb, vlb, bb⟩ <;>
      (simp only [List.getD_eq_getElem?_getD] at hva hvb
       simp [strArgs2, hva, hvb, mapValue, relocValue])
  · rfl

theorem intArg1_rel (φ : Nat → Nat) (heapA heapB : List Value)
    (args : List Nat)
    (h : ∀ a ∈ args, heapA.getD (φ a) .VoidV = mapValue φ (heapB.getD a .VoidV)) :
    intArg1 heapA (args.map φ) = intArg1 heapB args := by
  rcases args with _ | ⟨a, _ | ⟨b, r⟩⟩
  · rfl
  · have ha := h a (by simp)
    show (match heapA.getD (φ a) .VoidV with
      | .IntegerV x => some x
      | _ => none) = _
    rw [ha]
    rcases hva : heapB.getD a .VoidV with _ | va | sa | ⟨ea, vla, ba⟩ <;>
      (simp only [List.getD_eq_getElem?_getD] at hva
       simp [intArg1, hva, mapValue, relocValue])
  · rfl

theorem strArg1_rel (φ : Nat → Nat) (heapA heapB : List Value)
    (args : List Nat)
    (h : ∀ a ∈ args, heapA.getD (φ a) .VoidV = mapValue φ (heapB.getD a .VoidV)) :
    strArg1 heapA (args.map φ) = strArg1 heapB args := by
  rcases args with _ | ⟨a, _ | ⟨b, r⟩⟩
  · rfl
  · have ha := h a (by simp)
    show (match heapA.getD (φ a) .VoidV with
      | .StringV x => some x
      | _ => none) = _
    rw [ha]
    rcases hva : heapB.getD a .VoidV with _ | va | sa | ⟨ea, vla, ba⟩ <;>
      (simp only [List.getD_eq_getElem?_getD] at hva
       simp [strArg1, hva, mapValue, relocValue])
  · rfl

theorem strIntIntArgs3_rel (φ : Nat → Nat) (heapA heapB : List Value)
    (args : List Nat)
    (h : ∀ a ∈ args, heapA.getD (φ a) .VoidV = mapValue φ (heapB.getD a .VoidV)) :
    strIntIntArgs3 heapA (args.map φ) = strIntIntArgs3 heapB args := by
  rcases args with _ | ⟨a, _ | ⟨b, _ | ⟨c, _ | ⟨d, r⟩⟩⟩⟩
  · rfl
  · rfl
  · rfl
  · have ha := h a (by simp)
    have hb := h b (by simp)
    have hc := h c (by simp)
    show (match heapA.getD (φ a) .VoidV, heapA.getD (φ b) .VoidV,
        heapA.getD (φ c) .VoidV with
      | .StringV s, .IntegerV l, .IntegerV r => some (s, l, r)
      | _, _, _ => none) = _
    rw [ha, hb, hc]
    rcases hva : heapB.getD a .VoidV with _ | va | sa | ⟨ea, vla, ba⟩ <;>
      rcases hvb : heapB.getD b .VoidV with _ | vb | sb | ⟨eb, vlb, bb⟩ <;>
      rcases hvc : heapB.getD c .VoidV with _ | vc | sc | ⟨ec, vlc, bc⟩ <;>
      (simp only [List.getD_eq_getElem?_getD] at hva hvb hvc
       simp [strIntIntArgs3, hva, hvb, hvc, mapValue, relocValue])
  · rfl

theorem anyArg1_rel (φ : Nat → Nat) (heapA heapB : List Value)
    (args : List Nat)
    (h : ∀ a ∈ args, heapA.getD (φ a) .VoidV = mapValue φ (heapB.getD a .VoidV)) :
    anyArg1 heapA (args.map φ) = (anyArg1 heapB args).map (mapValue φ) := by
  rcases args with _ | ⟨a, _ | ⟨b, r⟩⟩
  · rfl
  · have ha := h a (by simp)
    show some (heapA.getD (φ a) .VoidV) = _
    rw [ha]
    rfl
  · rfl

theorem callIntrinsic_rel (φ : Nat → Nat) (heapA heapB : List Value)
    (name : String) (args : List Nat)
    (h : ∀ a ∈ args, heapA.getD (φ a) .VoidV = mapValue φ (heapB.getD a .VoidV)) :
    callIntrinsic heapA name (args.map φ) = callIntrinsic heapB name args := by
  unfold callIntrinsic
  rw [intArgs2_rel φ heapA heapB args h, strArgs2_rel φ heapA heapB args h,
    intArg1_rel φ heapA heapB args h, strArg1_rel φ heapA heapB args h,
    strIntIntArgs3_rel φ heapA heapB args h, anyArg1_rel φ heapA heapB args h]
  simp only [List.length_map]
  rcases anyArg1 heapB args with _ | v
  · rfl
  · rcases v <;> rfl

/-! ### Invariant bookkeeping lemmas -/

theorem envLocsOK_mono (hl hl' : Nat) (env : Env) (hle : hl ≤ hl')
    (h : envLocsOK hl env) : envLocsOK hl' env :=
  fun p hp => Nat.lt_of_lt_of_le (h p hp) hle

theorem valueOK_mono (hl hl' nlits : Nat) (v : Value) (hle : hl ≤ hl')
    (h : valueOK hl nlits v) : valueOK hl' nlits v := by
  cases v with
  | ClosureV env varList body =>
    exact ⟨envLocsOK_mono hl hl' env hle h.1, h.2⟩
  | VoidV => trivial
  | IntegerV v => trivial
  | StringV v => trivial

theorem layerOK_mono (hl hl' nlits pl pl' : Nat) (l : Layer) (hle : hl ≤ hl')
    (hpl : pl ≤ pl') (h : layerOK hl nlits pl l) : layerOK hl' nlits pl' l :=
  ⟨fun x hx => Nat.lt_of_lt_of_le (h.1 x hx) hle,
   Nat.lt_of_lt_of_le h.2.1 hpl, h.2.2⟩

theorem shareInv_replace_head (a a' : Layer) (rest : List Layer)
    (hfr : a'.frame = a.frame) (hev : a'.envRef = a.envRef)
    (h : shareInv (a :: rest)) : shareInv (a' :: rest) := by
  rcases h with ⟨h1, h2⟩
  refine ⟨?_, h2⟩
  rw [hfr, hev]
  exact h1

theorem frameOf_cons_of_frame (a : Layer) (rest : List Layer) (ha : a.frame = true) :
    frameOf (a :: rest) = some a.envRef := by
  rw [frameOf, if_pos ha]

theorem shareInv_push_child (a : Layer) (rest : List Layer) (c : Layer)
    (_hc : c.frame = false) (hcv : c.envRef = a.envRef)
    (h : shareInv (a :: rest)) : shareInv (c :: a :: rest) := by
  refine ⟨?_, h⟩
  right
  rw [frameOf]
  by_cases ha : a.frame
  · rw [if_pos ha, hcv]
  · rcases h.1 with h1 | h1
    · exact absurd h1 ha
    · rw [if_neg ha, hcv]
      exact h1

theorem shareInv_dropWhile (p : Layer → Bool) :
    ∀ (L : List Layer), shareInv L → shareInv (L.dropWhile p) := by
  intro L
  induction L with
  | nil =>
    intro h
    exact h
  | cons a rest ih =>
    intro h
    rw [List.dropWhile_cons]
    by_cases ha : p a = true
    · rw [if_pos ha]
      exact ih h.2
    · rw [if_neg ha]
      exact h

theorem frameOf_exists (L : List Layer) (r : Nat) (h : frameOf L = some r) :
    ∃ fl ∈ L, fl.frame = true ∧ fl.envRef = r := by
  induction L with
  | nil => exact absurd h (by simp [frameOf])
  | cons a rest ih =>
    rw [frameOf] at h
    by_cases ha : a.frame
    · rw [if_pos ha] at h
      injection h with h2
      exact ⟨a, List.mem_cons_self _ _, ha, h2⟩
    · rw [if_neg ha] at h
      rcases ih h with ⟨fl, hmem, hf, hr⟩
      exact ⟨fl, List.mem_cons_of_mem _ hmem, hf, hr⟩

theorem shareInv_backed (L : List Layer) (h : shareInv L) :
    ∀ l ∈ L, ∃ fl ∈ L, fl.frame = true ∧ fl.envRef = l.envRef := by
  induction L with
  | nil =>
    intro l hl
    cases hl
  | cons a rest ih =>
    intro l hl
    rcases List.mem_cons.mp hl with rfl | hmem
    · rcases h.1 with h1 | h1
      · exact ⟨l, List.mem_cons_self _ _, h1, rfl⟩
      · rcases frameOf_exists rest l.envRef h1 with ⟨fl, hmem2, hf, hr⟩
        exact ⟨fl, List.mem_cons_of_mem _ hmem2, hf, hr⟩
    · rcases ih h.2 l hmem with ⟨fl, hmem2, hf, hr⟩
      exact ⟨fl, List.mem_cons_of_mem _ hmem2, hf, hr⟩

theorem exprLits_mem_VEs (ves : List (String × ExprNode)) (ve : String × ExprNode)
    (hmem : ve ∈ ves) : ∀ x ∈ exprLits ve.2, x ∈ exprLitsVEs ves := by
  induction ves with
  | nil => cases hmem
  | cons q rest ih =>
    intro x hx
    rw [exprLitsVEs]
    rcases List.mem_cons.mp hmem with rfl | hmem2
    · exact List.mem_append_left _ hx
    · exact List.mem_append_right _ (ih hmem2 x hx)

theorem exprLits_mem_list (es : List ExprNode) (e : ExprNode)
    (hmem : e ∈ es) : ∀ x ∈ exprLits e, x ∈ exprLitsList es := by
  induction es with
  | nil => cases hmem
  | cons q rest ih =>
    intro x hx
    rw [exprLitsList]
    rcases List.mem_cons.mp hmem with rfl | hmem2
    · exact List.mem_append_left _ hx
    · exact List.mem_append_right _ (ih hmem2 x hx)

set_option maxHeartbeats 1000000 in
theorem callIntrinsic_ok_valueOK (heap : List Value) (name : String)
    (args : List Nat) (hl nlits : Nat) (v : Value)
    (h : callIntrinsic heap name args = .ok v) : valueOK hl nlits v := by
  unfold callIntrinsic at h
  by_cases hn0 : name = ".void"
  · rw [if_pos hn0] at h
    repeat' split at h
    all_goals (cases h <;> trivial)
  rw [if_neg hn0] at h
  by_cases hn1 : name = ".+"
  · rw [if_pos hn1] at h
    repeat' split at h
    all_goals (cases h <;> trivial)
  rw [if_neg hn1] at h
  by_cases hn2 : name = ".-"
  · rw [if_pos hn2] at h
    repeat' split at h
    all_goals (cases h <;> trivial)
  rw [if_neg hn2] at h
  by_cases hn3 : name = ".*"
  · rw [if_pos hn3] at h
    repeat' split at h
    all_goals (cases h <;> trivial)
  rw [if_neg hn3] at h
  by_cases hn4 : name = "./"
  · rw [if_pos hn4] at h
    repeat' split at h
    all_goals (cases h <;> trivial)
  rw [if_neg hn4] at h
  by_cases hn5 : name = ".%"
  · rw [if_pos hn5] at h
    repeat' split at h
    all_goals (cases h <;> trivial)
  rw [if_neg hn5] at h
  by_cases hn6 : name = ".<"
  · rw [if_pos hn6] at h
    repeat' split at h
    all_goals (cases h <;> trivial)
  rw [if_neg hn6] at h
  by_cases hn7 : name = ".<="
  · rw [if_pos hn7] at h
    repeat' split at h
    all_goals (cases h <;> trivial)
  rw [if_neg hn7] at h
  by_cases hn8 : name = ".>"
  · rw [if_pos hn8] at h
    repeat' split at h
    all_goals (cases h <;> trivial)
  rw [if_neg hn8] at h
  by_cases hn9 : name = ".>="
  · rw [if_pos hn9] at h
    repeat' split at h
    all_goals (cases h <;> trivial)
  rw [if_neg hn9] at h
  by_cases hn10 : name = ".="
  · rw [if_pos hn10] at h
    repeat' split at h
    all_goals (cases h <;> trivial)
  rw [if_neg hn10] at h
  by_cases hn11 : name = "./="
  · rw [if_pos hn11] at h
    repeat' split at h
    all_goals (cases h <;> trivial)
  rw [if_neg hn11] at h
  by_cases hn12 : name = ".and"
  · rw [if_pos hn12] at h
    repeat' split at h
    all_goals (cases h <;> trivial)
  rw [if_neg hn12] at h
  by_cases hn13 : name = ".or"
  · rw [if_pos hn13] at h
    repeat' split at h
    all_goals (cases h <;> trivial)
  rw [if_neg hn13] at h
  by_cases hn14 : name = ".not"
  · rw [if_pos hn14] at h
    repeat' split at h
    all_goals (cases h <;> trivial)
  rw [if_neg hn14] at h
  by_cases hn15 : name = ".s+"
  · rw [if_pos hn15] at h
    repeat' split at h
    all_goals (cases h <;> trivial)
  rw [if_neg hn15] at h
  by_cases hn16 : name = ".s<"
  · rw [if_pos hn16] at h
    repeat' split at h
    all_goals (cases h <;> trivial)
  rw [if_neg hn16] at h
  by_cases hn17 : name = ".s<="
  · rw [if_pos hn17] at h
    repeat' split at h
    all_goals (cases h <;> trivial)
  rw [if_neg hn17] at h
  by_cases hn18 : name = ".s>"
  · rw [if_pos hn18] at h
    repeat' split at h
    all_goals (cases h <;> trivial)
  rw [if_neg hn18] at h
  by_cases hn19 : name = ".s>="
  · rw [if_pos hn19] at h
    repeat' split at h
    all_goals (cases h <;> trivial)
  rw [if_neg hn19] at h
  by_cases hn20 : name = ".s="
  · rw [if_pos hn20] at h
    repeat' split at h
    all_goals (cases h <;> trivial)
  rw [if_neg hn20] at h
  by_cases hn21 : name = ".s/="
  · rw [if_pos hn21] at h
    repeat' split at h
    all_goals (cases h <;> trivial)
  rw [if_neg hn21] at h
  by_cases hn22 : name = ".s||"
  · rw [if_pos hn22] at h
    repeat' split at h
    all_goals (cases h <;> trivial)
  rw [if_neg hn22] at h
  by_cases hn23 : name = ".s[]"
  · rw [if_pos hn23] at h
    repeat' split at h
    all_goals (cases h <;> trivial)
  rw [if_neg hn23] at h
  by_cases hn24 : name = ".quote"
  · rw [if_pos hn24] at h
    repeat' split at h
    all_goals (cases h <;> trivial)
  rw [if_neg hn24] at h
  by_cases hn25 : name = ".unquote"
  · rw [if_pos hn25] at h
    repeat' split at h
    all_goals (cases h <;> trivial)
  rw [if_neg hn25] at h
  by_cases hn26 : name = ".s->i"
  · rw [if_pos hn26] at h
    repeat' split at h
    all_goals (cases h <;> trivial)
  rw [if_neg hn26] at h
  by_cases hn27 : name = ".i->s"
  · rw [if_pos hn27] at h
    repeat' split at h
    all_goals (cases h <;> trivial)
  rw [if_neg hn27] at h
  by_cases hn28 : name = ".type"
  · rw [if_pos hn28] at h
    repeat' split at h
    all_goals (cases h <;> trivial)
  rw [if_neg hn28] at h
  by_cases hn29 : name = ".eval"
  · rw [if_pos hn29] at h
    repeat' split at h
    all_goals (cases h <;> trivial)
  rw [if_neg hn29] at h
  by_cases hn30 : name = ".getchar"
  · rw [if_pos hn30] at h
    repeat' split at h
    all_goals (cases h <;> trivial)
  rw [if_neg hn30] at h
  by_cases hn31 : name = ".getint"
  · rw [if_pos hn31] at h
    repeat' split at h
    all_goals (cases h <;> trivial)
  rw [if_neg hn31] at h
  by_cases hn32 : name = ".putstr"
  · rw [if_pos hn32] at h
    repeat' split at h
    all_goals (cases h <;> trivial)
  rw [if_neg hn32] at h
  by_cases hn33 : name = ".flush"
  · rw [if_pos hn33] at h
    repeat' split at h
    all_goals (cases h <;> trivial)
  rw [if_neg hn33] at h
  exact absurd h (by simp)


theorem frameNodup_of_WF (pool : EnvPool) (s : State) (hwf : WF pool s) :
    frameNodup s.stack := hwf.frameNodup

theorem frameNodup_tail (a : Layer) (rest : List Layer) (h : frameNodup (a :: rest)) :
    frameNodup rest := by
  unfold frameNodup at *
  rw [List.filter_cons] at h
  by_cases ha : a.frame
  · simp only [ha, if_true, ite_true] at h
    exact List.Pairwise.of_cons h
  · simpa [ha] using h

theorem frameNodup_sublist (L M : List Layer) (hsub : List.Sublist M L)
    (h : frameNodup L) : frameNodup M :=
  List.Pairwise.sublist (List.Sublist.filter _ hsub) h

theorem frameNodup_replace_head (a a' : Layer) (rest : List Layer)
    (hfr : a'.frame = a.frame) (hev : a'.envRef = a.envRef)
    (h : frameNodup (a :: rest)) : frameNodup (a' :: rest) := by
  unfold frameNodup at *
  rw [List.filter_cons] at h ⊢
  rw [hfr]
  by_cases ha : a.frame
  · simp only [ha, if_true, ite_true] at h ⊢
    refine List.Pairwise.cons ?_ (List.Pairwise.of_cons h)
    intro b hb
    rw [hev]
    exact List.rel_of_pairwise_cons h hb
  · simp only [ha, if_false, ite_false] at h ⊢
    exact h

theorem frameNodup_cons_nonframe (c : Layer) (rest : List Layer)
    (hc : c.frame = false) (h : frameNodup rest) : frameNodup (c :: rest) := by
  unfold frameNodup at *
  rw [List.filter_cons, hc]
  simpa using h

theorem WF_pop_setRes (pool : EnvPool) (s : State) (layer : Layer) (rest : List Layer)
    (loc : Nat) (hwf : WF pool s) (hs : s.stack = layer :: rest)
    (hloc : loc < s.heap.length) :
    WF pool { s with resultLoc := loc, stack := rest } := by
  refine ⟨hwf.litsLe, hloc, hwf.heapOK, ?_, ?_, ?_, ?_⟩
  · intro l hl
    exact hwf.stackOK l (by rw [hs]; exact List.mem_cons_of_mem _ hl)
  · have := hwf.share
    rw [hs] at this
    exact this.2
  · have := hwf.frameNodup
    rw [hs] at this
    exact frameNodup_tail layer rest this
  · intro l hl
    exact hwf.poolOK l (by rw [hs]; exact List.mem_cons_of_mem _ hl)

theorem WF_alloc_pop (pool : EnvPool) (s : State) (layer : Layer) (rest : List Layer)
    (v : Value) (hwf : WF pool s) (hs : s.stack = layer :: rest)
    (hv : valueOK (s.heap.length + 1) s.numLiterals v) :
    WF pool { s with heap := s.heap ++ [v], resultLoc := s.heap.length, stack := rest } := by
  have hlen : (s.heap ++ [v]).length = s.heap.length + 1 := by simp
  refine ⟨?_, ?_, ?_, ?_, ?_, ?_, ?_⟩
  · rw [hlen]
    exact Nat.le_succ_of_le hwf.litsLe
  · rw [hlen]
    exact Nat.lt_succ_self _
  · intro w hw
    rw [hlen]
    rcases List.mem_append.mp hw with hw1 | hw1
    · exact valueOK_mono _ _ _ _ (Nat.le_succ _) (hwf.heapOK w hw1)
    · rw [List.mem_singleton.mp hw1]
      exact hv
  · intro l hl
    rw [hlen]
    exact layerOK_mono _ _ _ _ _ _ (Nat.le_succ _) (le_refl _)
      (hwf.stackOK l (by rw [hs]; exact List.mem_cons_of_mem _ hl))
  · have := hwf.share
    rw [hs] at this
    exact this.2
  · have := hwf.frameNodup
    rw [hs] at this
    exact frameNodup_tail layer rest this
  · intro l hl
    rw [hlen]
    exact envLocsOK_mono _ _ _ (Nat.le_succ _)
      (hwf.poolOK l (by rw [hs]; exact List.mem_cons_of_mem _ hl))

theorem WF_push_child (pool : EnvPool) (s : State) (layer : Layer) (rest : List Layer)
    (e : ExprNode) (pcv : Nat) (locs : List Nat)
    (hwf : WF pool s) (hs : s.stack = layer :: rest)
    (hlits : ∀ x ∈ exprLits e, x < s.numLiterals)
    (hlocs : ∀ x ∈ locs, x < s.heap.length) :
    WF pool
      { s with stack := childLayer layer.envRef e ::
          { layer with pc := pcv, localLocs := locs } :: rest } := by
  have hlayer := hwf.stackOK layer (by rw [hs]; exact List.mem_cons_self _ _)
  refine ⟨hwf.litsLe, hwf.resOK, hwf.heapOK, ?_, ?_, ?_, ?_⟩
  · intro l hl
    rcases List.mem_cons.mp hl with rfl | hl2
    · refine ⟨by simp [childLayer], hlayer.2.1, ?_⟩
      intro e2 he2 x hx
      have he3 : e = e2 := by injection he2
      rw [← he3] at hx
      exact hlits x hx
    · rcases List.mem_cons.mp hl2 with rfl | hl3
      · exact ⟨hlocs, hlayer.2.1, hlayer.2.2⟩
      · exact hwf.stackOK l (by rw [hs]; exact List.mem_cons_of_mem _ hl3)
  · have hsh := hwf.share
    rw [hs] at hsh
    have hsh2 := shareInv_replace_head layer { layer with pc := pcv, localLocs := locs }
      rest rfl rfl hsh
    exact shareInv_push_child _ rest _ rfl rfl hsh2
  · have hnd := hwf.frameNodup
    rw [hs] at hnd
    exact frameNodup_cons_nonframe _ _ rfl
      (frameNodup_replace_head layer _ rest rfl rfl hnd)
  · intro l hl
    rcases List.mem_cons.mp hl with rfl | hl2
    · exact hwf.poolOK layer (by rw [hs]; exact List.mem_cons_self _ _)
    · rcases List.mem_cons.mp hl2 with rfl | hl3
      · exact hwf.poolOK layer (by rw [hs]; exact List.mem_cons_self _ _)
      · exact hwf.poolOK l (by rw [hs]; exact List.mem_cons_of_mem _ hl3)

theorem getD_ne_default_lt {α : Type} (l : List α) (i : Nat) (d : α)
    (h : l.getD i d ≠ d) : i < l.length := by
  by_contra hge
  exact h (List.getD_eq_default l d (Nat.le_of_not_lt hge))

theorem mem_enum_lt {α : Type} (l : List α) (p : Nat × α) (h : p ∈ l.enum) :
    p.1 < l.length := by
  have := List.fst_lt_add_of_mem_enumFrom (by simpa [List.enum] using h)
  simpa using this

theorem WF_set_heap (pool : EnvPool) (s : State) (loc : Nat) (v : Value)
    (hwf : WF pool s) (hv : valueOK s.heap.length s.numLiterals v) :
    WF pool { s with heap := s.heap.set loc v } := by
  have hlen : (s.heap.set loc v).length = s.heap.length := List.length_set _ _ _
  refine ⟨?_, ?_, ?_, ?_, hwf.share, hwf.frameNodup, ?_⟩
  · rw [hlen]
    exact hwf.litsLe
  · rw [hlen]
    exact hwf.resOK
  · intro w hw
    rw [hlen]
    rcases mem_of_set _ _ _ _ hw with hw1 | rfl
    · exact hwf.heapOK w hw1
    · exact hv
  · intro l hl
    rw [hlen]
    exact hwf.stackOK l hl
  · intro l hl
    rw [hlen]
    exact hwf.poolOK l hl

theorem WF_append_heap (pool : EnvPool) (s : State) (vs : List Value)
    (hwf : WF pool s)
    (hvs : ∀ v ∈ vs, valueOK (s.heap.length + vs.length) s.numLiterals v) :
    WF pool { s with heap := s.heap ++ vs } := by
  have hlen : (s.heap ++ vs).length = s.heap.length + vs.length := List.length_append _ _
  refine ⟨?_, ?_, ?_, ?_, hwf.share, hwf.frameNodup, ?_⟩
  · rw [hlen]
    exact Nat.le_add_right_of_le hwf.litsLe
  · rw [hlen]
    exact Nat.lt_add_right _ hwf.resOK
  · intro w hw
    rw [hlen]
    rcases List.mem_append.mp hw with hw1 | hw1
    · exact valueOK_mono _ _ _ _ (Nat.le_add_right _ _) (hwf.heapOK w hw1)
    · exact hvs w hw1
  · intro l hl
    rw [hlen]
    exact layerOK_mono _ _ _ _ _ _ (Nat.le_add_right _ _) (le_refl _) (hwf.stackOK l hl)
  · intro l hl
    rw [hlen]
    exact envLocsOK_mono _ _ _ (Nat.le_add_right _ _) (hwf.poolOK l hl)

theorem WF_set_pool (pool : EnvPool) (s : State) (r : Nat) (env' : Env)
    (hwf : WF pool s) (henv' : envLocsOK s.heap.length env') :
    WF (pool.set r env') s := by
  have hlen : (pool.set r env').length = pool.length := List.length_set _ _ _
  refine ⟨hwf.litsLe, hwf.resOK, hwf.heapOK, ?_, hwf.share, hwf.frameNodup, ?_⟩
  · intro l hl
    rw [hlen]
    exact hwf.stackOK l hl
  · intro l hl
    by_cases hr : l.envRef = r
    · rw [hr]
      by_cases hrlt : r < pool.length
      · rw [getD_set_self pool r env' [] hrlt]
        exact henv'
      · rw [List.getD_eq_default _ _ (by rw [hlen]; exact Nat.le_of_not_lt hrlt)]
        intro p hp
        cases hp
    · rw [getD_set_ne pool r l.envRef env' [] (fun he => hr he.symm)]
      exact hwf.poolOK l hl

theorem WF_replace_head (pool : EnvPool) (s : State) (layer : Layer) (rest : List Layer)
    (pcv : Nat) (locs : List Nat)
    (hwf : WF pool s) (hs : s.stack = layer :: rest)
    (hlocs : ∀ x ∈ locs, x < s.heap.length) :
    WF pool { s with stack := { layer with pc := pcv, localLocs := locs } :: rest } := by
  have hlayer := hwf.stackOK layer (by rw [hs]; exact List.mem_cons_self _ _)
  refine ⟨hwf.litsLe, hwf.resOK, hwf.heapOK, ?_, ?_, ?_, ?_⟩
  · intro l hl
    rcases List.mem_cons.mp hl with rfl | hl2
    · exact ⟨hlocs, hlayer.2.1, hlayer.2.2⟩
    · exact hwf.stackOK l (by rw [hs]; exact List.mem_cons_of_mem _ hl2)
  · have hsh := hwf.share
    rw [hs] at hsh
    exact shareInv_replace_head layer _ rest rfl rfl hsh
  · have hnd := hwf.frameNodup
    rw [hs] at hnd
    exact frameNodup_replace_head layer _ rest rfl rfl hnd
  · intro l hl
    rcases List.mem_cons.mp hl with rfl | hl2
    · exact hwf.poolOK layer (by rw [hs]; exact List.mem_cons_self _ _)
    · exact hwf.poolOK l (by rw [hs]; exact List.mem_cons_of_mem _ hl2)

theorem shareInv_tail (L : List Layer) (h : shareInv L) : shareInv L.tail := by
  cases L with
  | nil => trivial
  | cons a rest => exact h.2

theorem WF_tco_push (pool : EnvPool) (s : State) (newEnv : Env) (body : ExprNode)
    (tailb : Bool) (hwf : WF pool s)
    (hne : envLocsOK s.heap.length newEnv)
    (hbody : ∀ x ∈ exprLits body, x < s.numLiterals) :
    WF (pool ++ [newEnv])
      { s with stack := { envRef := pool.length, expr := some body, frame := true } ::
          (if tailb = true then (s.stack.dropWhile (fun l => !l.frame)).tail else s.stack) } := by
  have hplen : (pool ++ [newEnv]).length = pool.length + 1 := by simp
  have hSB : ∀ l ∈ (if tailb = true then (s.stack.dropWhile (fun l => !l.frame)).tail
      else s.stack), l ∈ s.stack := by
    split
    · intro l hl
      exact ((List.tail_sublist _).trans (List.dropWhile_sublist _)).subset hl
    · intro l hl
      exact hl
  have hSBsub : List.Sublist (if tailb = true then
      (s.stack.dropWhile (fun l => !l.frame)).tail else s.stack) s.stack := by
    split
    · exact (List.tail_sublist _).trans (List.dropWhile_sublist _)
    · exact List.Sublist.refl _
  refine ⟨hwf.litsLe, hwf.resOK, hwf.heapOK, ?_, ?_, ?_, ?_⟩
  · intro l hl
    rcases List.mem_cons.mp hl with rfl | hl2
    · refine ⟨by simp, ?_, ?_⟩
      · rw [hplen]
        exact Nat.lt_succ_self _
      · intro e2 he2 x hx
        have he3 : body = e2 := by injection he2
        rw [← he3] at hx
        exact hbody x hx
    · rw [hplen]
      exact layerOK_mono _ _ _ _ _ _ (le_refl _) (Nat.le_succ _)
        (hwf.stackOK l (hSB l hl2))
  · refine ⟨Or.inl rfl, ?_⟩
    split
    · exact shareInv_tail _ (shareInv_dropWhile _ _ hwf.share)
    · exact hwf.share
  · show List.Pairwise _ _
    simp only [List.filter_cons, if_true, ite_true]
    refine List.Pairwise.cons ?_ ?_
    · intro b hb
      have hb2 := hSB b (List.mem_of_mem_filter hb)
      have hlt := (hwf.stackOK b hb2).2.1
      show pool.length ≠ b.envRef
      omega
    · exact frameNodup_sublist s.stack _ hSBsub hwf.frameNodup
  · intro l hl
    rcases List.mem_cons.mp hl with rfl | hl2
    · have : (pool ++ [newEnv]).getD pool.length [] = newEnv := by
        rw [List.getD_append_right pool [newEnv] [] pool.length (le_refl _)]
        simp
      rw [this]
      exact hne
    · have hlt := (hwf.stackOK l (hSB l hl2)).2.1
      rw [List.getD_append pool [newEnv] [] l.envRef hlt]
      exact hwf.poolOK l (hSB l hl2)

theorem step_WF (pool : EnvPool) (s : State) (pool1 : EnvPool) (s1 : State)
    (hwf : WF pool s) (h : step pool s = .next pool1 s1) : WF pool1 s1 := by
  rcases hs : s.stack with _ | ⟨layer, rest⟩
  · rw [step.eq_def, hs] at h
    exact StepResult.noConfusion h
  have hlayer := hwf.stackOK layer (by rw [hs]; exact List.mem_cons_self _ _)
  rcases he : layer.expr with _ | e
  · rw [step.eq_def, hs] at h
    simp only [he] at h
    exact StepResult.noConfusion h
  have hlitsE := hlayer.2.2 e he
  rw [step.eq_def, hs] at h
  simp only [he] at h
  cases e with
  | IntegerNode val loc =>
    cases h
    exact WF_pop_setRes pool s layer rest loc hwf hs
      (Nat.lt_of_lt_of_le (hlitsE loc (by simp [exprLits])) hwf.litsLe)
  | StringNode val loc =>
    cases h
    exact WF_pop_setRes pool s layer rest loc hwf hs
      (Nat.lt_of_lt_of_le (hlitsE loc (by simp [exprLits])) hwf.litsLe)
  | VariableNode name =>
    rcases hl : lookup name (layerEnv pool layer) with _ | loc <;> simp only [hl] at h
    · exact StepResult.noConfusion h
    · cases h
      have hloc : loc < s.heap.length := by
        rcases lookup_mem name _ loc hl with ⟨nm, hmem⟩
        exact hwf.poolOK layer (by rw [hs]; exact List.mem_cons_self _ _) (nm, loc) hmem
      exact WF_pop_setRes pool s layer rest loc hwf hs hloc
  | LambdaNode varList fv body =>
    cases h
    refine WF_alloc_pop pool s layer rest _ hwf hs ⟨?_, ?_⟩
    · intro p hp
      have hsubl : List.Sublist (capture fv (layerEnv pool layer)) (layerEnv pool layer) := by
        rw [capture]
        simpa using (captureSearch_sublist (layerEnv pool layer).reverse fv).reverse
      exact Nat.lt_succ_of_lt
        (hwf.poolOK layer (by rw [hs]; exact List.mem_cons_self _ _) p (hsubl.subset hp))
    · intro x hx
      exact hlitsE x (by simpa [exprLits] using hx)
  | LetrecNode ves body =>
    by_cases hrec : 1 < layer.pc ∧ layer.pc ≤ ves.length + 1
    · simp only [if_pos hrec] at h
      rcases hl : lookup (ves.getD (layer.pc - 2) dummyVE).1 (layerEnv pool layer)
        with _ | loc <;> simp only [hl] at h
      · exact StepResult.noConfusion h
      · have h0 : ¬ (layer.pc = 0) := by omega
        simp only [if_neg h0] at h
        have hv : valueOK s.heap.length s.numLiterals (s.heap.getD s.resultLoc .VoidV) :=
          hwf.heapOK _ (mem_of_getD _ _ _ hwf.resOK)
        have hwfset := WF_set_heap pool s loc _ hwf hv
        have hsetlen : (s.heap.set loc (s.heap.getD s.resultLoc .VoidV)).length =
            s.heap.length := List.length_set _ _ _
        by_cases hle : layer.pc ≤ ves.length
        · simp only [if_pos hle] at h
          cases h
          rw [← he]
          refine WF_push_child pool _ layer rest _ (layer.pc + 1) layer.localLocs hwfset hs
            ?_ ?_
          · intro x hx
            refine hlitsE x ?_
            simp only [exprLits]
            refine List.mem_append_left _ ?_
            refine exprLits_mem_VEs ves _ (mem_of_getD ves (layer.pc - 1) dummyVE ?_) x hx
            omega
          · intro x hx
            rw [hsetlen]
            exact hlayer.1 x hx
        · simp only [if_neg hle] at h
          by_cases hb : layer.pc = ves.length + 1
          · simp only [if_pos hb] at h
            cases h
            rw [← he]
            refine WF_push_child pool _ layer rest body (layer.pc + 1) layer.localLocs
              hwfset hs ?_ ?_
            · intro x hx
              refine hlitsE x ?_
              simp only [exprLits]
              exact List.mem_append_right _ hx
            · intro x hx
              rw [hsetlen]
              exact hlayer.1 x hx
          · exact absurd hrec.2 (by omega)
    · simp only [if_neg hrec] at h
      by_cases h0 : layer.pc = 0
      · simp only [if_pos h0] at h
        cases h
        rw [← he]
        have hwfheap := WF_append_heap pool s (List.replicate ves.length .VoidV) hwf
          (by
            intro v hv2
            rw [List.eq_of_mem_replicate hv2]
            trivial)
        have hlen2 : (s.heap ++ List.replicate ves.length Value.VoidV).length =
            s.heap.length + ves.length := by simp
        have henv' : envLocsOK (s.heap ++ List.replicate ves.length Value.VoidV).length
            (layerEnv pool layer ++
              (ves.enum.map fun p => (p.2.1, s.heap.length + p.1) : Env)) := by
          intro p hp
          rw [hlen2]
          rcases List.mem_append.mp hp with h2 | h2
          · exact Nat.lt_add_right _
              (hwf.poolOK layer (by rw [hs]; exact List.mem_cons_self _ _) p h2)
          · rcases List.mem_map.mp h2 with ⟨q, hq, hq2⟩
            have := mem_enum_lt ves q hq
            rw [← hq2]
            simpa using this
        have hwfpool := WF_set_pool pool _ layer.envRef _ hwfheap henv'
        refine WF_replace_head _ _ layer rest 1 layer.localLocs hwfpool hs ?_
        intro x hx
        rw [hlen2]
        exact Nat.lt_add_right _ (hlayer.1 x hx)
      · simp only [if_neg h0] at h
        by_cases hle : layer.pc ≤ ves.length
        · simp only [if_pos hle] at h
          cases h
          rw [← he]
          refine WF_push_child pool s layer rest _ (layer.pc + 1) layer.localLocs hwf hs
            ?_ hlayer.1
          intro x hx
          refine hlitsE x ?_
          simp only [exprLits]
          refine List.mem_append_left _ ?_
          have hpclt : layer.pc - 1 < ves.length := by omega
          exact exprLits_mem_VEs ves _ (mem_of_getD ves (layer.pc - 1) dummyVE hpclt) x hx
        · simp only [if_neg hle] at h
          by_cases hb : layer.pc = ves.length + 1
          · simp only [if_pos hb] at h
            cases h
            rw [← he]
            refine WF_push_child pool s layer rest body (layer.pc + 1) layer.localLocs hwf hs
              ?_ hlayer.1
            intro x hx
            simp only [exprLits] at hlitsE ⊢
            exact hlitsE x (List.mem_append_right _ hx)
          · simp only [if_neg hb] at h
            cases h
            have henv' : envLocsOK s.heap.length
                ((layerEnv pool layer).take ((layerEnv pool layer).length - ves.length)) := by
              intro p hp
              exact hwf.poolOK layer (by rw [hs]; exact List.mem_cons_self _ _) p
                (List.take_subset _ _ hp)
            have hwfpool := WF_set_pool pool s layer.envRef _ hwf henv'
            exact WF_pop_setRes _ s layer rest s.resultLoc hwfpool hs hwf.resOK
  | IfNode cond branch1 branch2 =>
    by_cases h0 : layer.pc = 0
    · simp only [if_pos h0] at h
      cases h
      rw [← he]
      refine WF_push_child pool s layer rest cond 1 layer.localLocs hwf hs ?_ hlayer.1
      intro x hx
      refine hlitsE x ?_
      simp only [exprLits]
      exact List.mem_append_left _ (List.mem_append_left _ hx)
    · simp only [if_neg h0] at h
      by_cases h1 : layer.pc = 1
      · simp only [if_pos h1] at h
        rcases hv : s.heap.getD s.resultLoc .VoidV with _ | v | sv | ⟨cenv, cvl, cb⟩ <;>
          simp only [hv] at h
        · exact StepResult.noConfusion h
        · by_cases hvz : v ≠ 0
          · simp only [if_pos hvz] at h
            cases h
            rw [← he]
            refine WF_push_child pool s layer rest branch1 2 layer.localLocs hwf hs ?_
              hlayer.1
            intro x hx
            refine hlitsE x ?_
            simp only [exprLits]
            exact List.mem_append_left _ (List.mem_append_right _ hx)
          · simp only [if_neg hvz] at h
            cases h
            rw [← he]
            refine WF_push_child pool s layer rest branch2 2 layer.localLocs hwf hs ?_
              hlayer.1
            intro x hx
            refine hlitsE x ?_
            simp only [exprLits]
            exact List.mem_append_right _ hx
        · exact StepResult.noConfusion h
        · exact StepResult.noConfusion h
      · simp only [if_neg h1] at h
        cases h
        exact WF_pop_setRes pool s layer rest s.resultLoc hwf hs hwf.resOK
  | SequenceNode es =>
    by_cases hlt : layer.pc < es.length
    · simp only [if_pos hlt] at h
      cases h
      rw [← he]
      refine WF_push_child pool s layer rest _ (layer.pc + 1) layer.localLocs hwf hs ?_
        hlayer.1
      intro x hx
      refine hlitsE x ?_
      simp only [exprLits]
      exact exprLits_mem_list es _ (mem_of_getD es layer.pc default hlt) x hx
    · simp only [if_neg hlt] at h
      cases h
      exact WF_pop_setRes pool s layer rest s.resultLoc hwf hs hwf.resOK
  | IntrinsicCallNode intr argsL =>
    have hl1 : ∀ x ∈ (if 0 < layer.pc ∧ layer.pc ≤ argsL.length
        then layer.localLocs ++ [s.resultLoc] else layer.localLocs), x < s.heap.length := by
      split
      · intro x hx
        rcases List.mem_append.mp hx with h2 | h2
        · exact hlayer.1 x h2
        · rw [List.mem_singleton.mp h2]
          exact hwf.resOK
      · exact hlayer.1
    by_cases hlt : layer.pc < argsL.length
    · simp only [if_pos hlt] at h
      cases h
      rw [← he]
      refine WF_push_child pool s layer rest _ (layer.pc + 1) _ hwf hs ?_ hl1
      intro x hx
      refine hlitsE x ?_
      simp only [exprLits]
      exact exprLits_mem_list argsL _ (mem_of_getD argsL layer.pc default hlt) x hx
    · simp only [if_neg hlt] at h
      rcases hc : callIntrinsic s.heap intr
        (if 0 < layer.pc ∧ layer.pc ≤ argsL.length
         then layer.localLocs ++ [s.resultLoc] else layer.localLocs)
        with m | v <;> simp only [hc] at h
      · exact StepResult.noConfusion h
      · cases h
        exact WF_alloc_pop pool s layer rest v hwf hs
          (callIntrinsic_ok_valueOK _ _ _ _ _ _ hc)
  | ExprCallNode tailPos callee argsL =>
    have hl1 : ∀ x ∈ (if 2 < layer.pc ∧ layer.pc ≤ argsL.length + 2
        then layer.localLocs ++ [s.resultLoc] else layer.localLocs), x < s.heap.length := by
      split
      · intro x hx
        rcases List.mem_append.mp hx with h2 | h2
        · exact hlayer.1 x h2
        · rw [List.mem_singleton.mp h2]
          exact hwf.resOK
      · exact hlayer.1
    by_cases h0 : layer.pc = 0
    · simp only [if_pos h0] at h
      cases h
      rw [← he]
      refine WF_push_child pool s layer rest callee 1 layer.localLocs hwf hs ?_ hlayer.1
      intro x hx
      refine hlitsE x ?_
      simp only [exprLits]
      exact List.mem_append_left _ hx
    · simp only [if_neg h0] at h
      by_cases h1 : layer.pc = 1
      · simp only [if_pos h1] at h
        cases h
        rw [← he]
        refine WF_replace_head pool s layer rest 2 _ hwf hs ?_
        intro x hx
        rcases List.mem_append.mp hx with h2 | h2
        · exact hlayer.1 x h2
        · rw [List.mem_singleton.mp h2]
          exact hwf.resOK
      · simp only [if_neg h1] at h
        by_cases hle : layer.pc ≤ argsL.length + 1
        · simp only [if_pos hle] at h
          cases h
          rw [← he]
          refine WF_push_child pool s layer rest _ (layer.pc + 1) _ hwf hs ?_ hl1
          intro x hx
          refine hlitsE x ?_
          simp only [exprLits]
          have hplt : layer.pc - 2 < argsL.length := by omega
          exact List.mem_append_right _
            (exprLits_mem_list argsL _ (mem_of_getD argsL (layer.pc - 2) default hplt) x hx)
        · simp only [if_neg hle] at h
          by_cases hcall : layer.pc = argsL.length + 2
          · simp only [if_pos hcall] at h
            rcases hv : s.heap.getD
                ((if 2 < layer.pc ∧ layer.pc ≤ argsL.length + 2
                  then layer.localLocs ++ [s.resultLoc] else layer.localLocs).getD 0 0) .VoidV
              with _ | v | sv | ⟨cenv, cvl, cb⟩ <;> simp only [hv] at h
            · exact StepResult.noConfusion h
            · exact StepResult.noConfusion h
            · exact StepResult.noConfusion h
            · by_cases har : (if 2 < layer.pc ∧ layer.pc ≤ argsL.length + 2
                  then layer.localLocs ++ [s.resultLoc] else layer.localLocs).length ≠
                  cvl.length + 1
              · simp only [if_pos har] at h
                exact StepResult.noConfusion h
              · simp only [if_neg har] at h
                cases h
                rw [← he]
                have hexprLoc : (if 2 < layer.pc ∧ layer.pc ≤ argsL.length + 2
                    then layer.localLocs ++ [s.resultLoc] else layer.localLocs).getD 0 0 <
                    s.heap.length := by
                  refine getD_ne_default_lt s.heap _ Value.VoidV ?_
                  rw [hv]
                  intro hcc
                  exact Value.noConfusion hcc
                have hclosOK := hwf.heapOK _
                  (mem_of_getD s.heap
                    ((if 2 < layer.pc ∧ layer.pc ≤ argsL.length + 2
                      then layer.localLocs ++ [s.resultLoc] else layer.localLocs).getD 0 0)
                    .VoidV hexprLoc)
                rw [hv] at hclosOK
                have hnewEnv : envLocsOK s.heap.length
                    (cenv ++ cvl.zip ((if 2 < layer.pc ∧ layer.pc ≤ argsL.length + 2
                      then layer.localLocs ++ [s.resultLoc] else layer.localLocs).drop 1)) := by
                  rintro ⟨pa, pb⟩ hp
                  rcases List.mem_append.mp hp with h2 | h2
                  · exact hclosOK.1 _ h2
                  · have hpb := (List.of_mem_zip h2).2
                    exact hl1 pb (List.drop_subset _ _ hpb)
                have hwfSelf := WF_replace_head pool s layer rest (layer.pc + 1) _ hwf hs hl1
                exact WF_tco_push pool _ _ cb tailPos hwfSelf hnewEnv
                  (fun x hx => hclosOK.2 x hx)
          · simp only [if_neg hcall] at h
            cases h
            exact WF_pop_setRes pool s layer rest s.resultLoc hwf hs hwf.resOK
  | AtNode varName atExpr =>
    by_cases h0 : layer.pc = 0
    · simp only [if_pos h0] at h
      cases h
      rw [← he]
      refine WF_push_child pool s layer rest atExpr 1 layer.localLocs hwf hs ?_ hlayer.1
      intro x hx
      exact hlitsE x (by simpa [exprLits] using hx)
    · simp only [if_neg h0] at h
      rcases hv : s.heap.getD s.resultLoc .VoidV with _ | v | sv | ⟨cenv, cvl, cb⟩ <;>
        simp only [hv] at h
      · exact StepResult.noConfusion h
      · exact StepResult.noConfusion h
      · exact StepResult.noConfusion h
      · rcases hl : lookup varName cenv with _ | loc <;> simp only [hl] at h
        · exact StepResult.noConfusion h
        · cases h
          have hclosOK := hwf.heapOK _ (mem_of_getD s.heap _ .VoidV hwf.resOK)
          rw [hv] at hclosOK
          rcases lookup_mem varName cenv loc hl with ⟨nm, hmem⟩
          exact WF_pop_setRes pool s layer rest loc hwf hs (hclosOK.1 (nm, loc) hmem)

/-! ### Simulation-relation transport lemmas -/

theorem layerMap_expr (φ : Nat → Nat) (l : Layer) :
    (layerMap φ l).expr = l.expr := rfl

theorem layerMap_envRef (φ : Nat → Nat) (l : Layer) :
    (layerMap φ l).envRef = l.envRef := rfl

theorem layerMap_frame (φ : Nat → Nat) (l : Layer) :
    (layerMap φ l).frame = l.frame := rfl

theorem layerMap_pc (φ : Nat → Nat) (l : Layer) :
    (layerMap φ l).pc = l.pc := rfl

theorem layerMap_localLocs (φ : Nat → Nat) (l : Layer) :
    (layerMap φ l).localLocs = l.localLocs.map φ := rfl

theorem childLayer_pc (r : Nat) (e : ExprNode) : (childLayer r e).pc = 0 := rfl

theorem layerMap_congr (f g : Nat → Nat) (l : Layer)
    (h : ∀ x ∈ l.localLocs, f x = g x) : layerMap f l = layerMap g l := by
  unfold layerMap
  rw [List.map_congr_left h]

theorem stackMap_congr (f g : Nat → Nat) (L : List Layer)
    (h : ∀ l ∈ L, ∀ x ∈ l.localLocs, f x = g x) :
    L.map (layerMap f) = L.map (layerMap g) :=
  List.map_congr_left (fun l hl => layerMap_congr f g l (h l hl))

theorem relocEnv_ext (φ : Nat → Nat) (lb la : Nat) (env : Env)
    (h : ∀ p ∈ env, p.2 < lb) :
    relocEnv (extMap φ lb la) env = relocEnv φ env :=
  relocEnv_congr _ _ env (fun p hp => extMap_lt φ lb la p.2 (h p hp))

theorem valueLocs_lt_of_valueOK (hl nlits : Nat) (v : Value) (h : valueOK hl nlits v) :
    ∀ x ∈ valueLocs v, x < hl := by
  cases v with
  | ClosureV env varList body =>
    intro x hx
    rcases List.mem_map.mp hx with ⟨p, hp, rfl⟩
    exact h.1 p hp
  | VoidV => intro x hx; exact absurd hx (List.not_mem_nil x)
  | IntegerV n => intro x hx; exact absurd hx (List.not_mem_nil x)
  | StringV str => intro x hx; exact absurd hx (List.not_mem_nil x)

theorem capture_sublist (fv : List String) (env : Env) :
    List.Sublist (capture fv env) env := by
  rw [capture]
  simpa using (captureSearch_sublist env.reverse fv).reverse

theorem dropWhile_layerMap (φ : Nat → Nat) (L : List Layer) :
    (L.map (layerMap φ)).dropWhile (fun l => !l.frame) =
      (L.dropWhile (fun l => !l.frame)).map (layerMap φ) := by
  induction L with
  | nil => rfl
  | cons a t ih =>
    by_cases hf : a.frame
    · simp [List.dropWhile_cons, layerMap_frame, hf]
    · simp [List.dropWhile_cons, layerMap_frame, hf, ih]

theorem tail_map_layer (φ : Nat → Nat) (L : List Layer) :
    (L.map (layerMap φ)).tail = L.tail.map (layerMap φ) := by
  cases L <;> rfl

theorem poolRel_of_refs (φ : Nat → Nat) (pA pB : EnvPool)
    (stB LB : List Layer)
    (hold : ∀ l ∈ stB, pA.getD l.envRef [] = relocEnv φ (pB.getD l.envRef []))
    (hrefs : ∀ l ∈ LB, ∃ l0 ∈ stB, l.envRef = l0.envRef) :
    ∀ l ∈ LB, pA.getD l.envRef [] = relocEnv φ (pB.getD l.envRef []) := by
  intro l hl
  rcases hrefs l hl with ⟨l0, hl0, hq⟩
  rw [hq]
  exact hold l0 hl0

theorem extMap_inj (φ : Nat → Nat) (lb la k : Nat)
    (hinj : ∀ l1 < lb, ∀ l2 < lb, φ l1 = φ l2 → l1 = l2)
    (hbound : ∀ l < lb, φ l < la) :
    ∀ l1 < lb + k, ∀ l2 < lb + k, extMap φ lb la l1 = extMap φ lb la l2 → l1 = l2 := by
  intro l1 h1 l2 h2 hq
  by_cases ha : l1 < lb <;> by_cases hb : l2 < lb
  · rw [extMap_lt φ lb la l1 ha, extMap_lt φ lb la l2 hb] at hq
    exact hinj l1 ha l2 hb hq
  · rw [extMap_lt φ lb la l1 ha, extMap_ge φ lb la l2 (Nat.not_lt.mp hb)] at hq
    have := hbound l1 ha
    omega
  · rw [extMap_ge φ lb la l1 (Nat.not_lt.mp ha), extMap_lt φ lb la l2 hb] at hq
    have := hbound l2 hb
    omega
  · rw [extMap_ge φ lb la l1 (Nat.not_lt.mp ha),
      extMap_ge φ lb la l2 (Nat.not_lt.mp hb)] at hq
    omega

theorem getD_map_voidv (φ : Nat → Nat) (vs : List Value) (i : Nat)
    (h : i < vs.length) :
    (vs.map (mapValue φ)).getD i .VoidV = mapValue φ (vs.getD i .VoidV) := by
  rw [List.getD_eq_getElem?_getD, List.getD_eq_getElem?_getD, List.getElem?_map]
  rcases hv : vs[i]? with _ | v
  · rw [List.getElem?_eq_none_iff] at hv
    omega
  · rfl

theorem maps_append (φ : Nat → Nat) (heapA heapB vs : List Value)
    (hmaps : ∀ l < heapB.length, φ l < heapA.length ∧
      heapA.getD (φ l) .VoidV = mapValue φ (heapB.getD l .VoidV))
    (hheapOK : ∀ v ∈ heapB, ∀ x ∈ valueLocs v, x < heapB.length)
    (hvs : ∀ v ∈ vs, ∀ x ∈ valueLocs v, x < heapB.length) :
    ∀ l < (heapB ++ vs).length,
      extMap φ heapB.length heapA.length l < (heapA ++ vs.map (mapValue φ)).length ∧
      (heapA ++ vs.map (mapValue φ)).getD (extMap φ heapB.length heapA.length l) .VoidV =
        mapValue (extMap φ heapB.length heapA.length) ((heapB ++ vs).getD l .VoidV) := by
  intro l hl
  rw [List.length_append] at hl
  by_cases hlt : l < heapB.length
  · rw [extMap_lt φ _ _ l hlt]
    obtain ⟨h1, h2⟩ := hmaps l hlt
    refine ⟨by rw [List.length_append]; omega, ?_⟩
    rw [List.getD_append _ _ _ _ h1, List.getD_append _ _ _ _ hlt, h2]
    refine (mapValue_congr _ _ _ ?_).symm
    intro x hx
    exact extMap_lt φ _ _ x (hheapOK _ (mem_of_getD heapB l .VoidV hlt) x hx)
  · have hge := Nat.not_lt.mp hlt
    rw [extMap_ge φ _ _ l hge]
    have hi : l - heapB.length < vs.length := by omega
    refine ⟨by rw [List.length_append, List.length_map]; omega, ?_⟩
    rw [List.getD_append_right _ _ _ _
        (by omega : heapA.length ≤ heapA.length + (l - heapB.length)),
      List.getD_append_right _ _ _ _ hge, Nat.add_sub_cancel_left,
      getD_map_voidv φ vs _ hi]
    refine (mapValue_congr _ _ _ ?_).symm
    intro x hx
    exact extMap_lt φ _ _ x (hvs _ (mem_of_getD vs _ .VoidV hi) x hx)

theorem res_value_rel (φ : Nat → Nat) (pA : EnvPool) (sA : State)
    (pB : EnvPool) (sB : State) (hrel : Rel φ pA sA pB sB)
    (hres : sB.resultLoc < sB.heap.length) :
    sA.heap.getD sA.resultLoc .VoidV = mapValue φ (sB.heap.getD sB.resultLoc .VoidV) := by
  rw [hrel.res]
  exact (hrel.maps sB.resultLoc hres).2

/-! ### The callee-recorded invariant is preserved by `step` -/

theorem calleeRecorded_pc01 (l : Layer) (h : l.pc ≤ 1) : calleeRecorded l := by
  intro tp c args _ h2
  omega

theorem calleeRecorded_nonCall (l : Layer) (e : ExprNode) (hexpr : l.expr = some e)
    (hne : ∀ tp c args, e ≠ .ExprCallNode tp c args) : calleeRecorded l := by
  intro tp c args h2 _
  rw [hexpr] at h2
  have hq : e = .ExprCallNode tp c args := by injection h2
  exact absurd hq (hne tp c args)

theorem calleeRecorded_nonempty (l : Layer) (h : l.localLocs ≠ []) : calleeRecorded l :=
  fun _ _ _ _ _ => h

theorem stackGood_subset (L M : List Layer) (hsub : ∀ l ∈ L, l ∈ M)
    (h : stackGood M) : stackGood L :=
  fun l hl => h l (hsub l hl)

theorem step_good (pool : EnvPool) (s : State) (pool1 : EnvPool) (s1 : State)
    (h : step pool s = .next pool1 s1) (hg : stackGood s.stack) : stackGood s1.stack := by
  rcases hs : s.stack with _ | ⟨layer, rest⟩
  · rw [step.eq_def, hs] at h
    exact StepResult.noConfusion h
  have hgl : calleeRecorded layer := by
    rw [hs] at hg
    exact hg layer (List.mem_cons_self _ _)
  have hgrest : stackGood rest := by
    rw [hs] at hg
    exact fun l hl => hg l (List.mem_cons_of_mem _ hl)
  rcases he : layer.expr with _ | e
  · rw [step.eq_def, hs] at h
    simp only [he] at h
    exact StepResult.noConfusion h
  rw [step.eq_def, hs] at h
  simp only [he] at h
  cases e with
  | IntegerNode val loc =>
    cases h
    exact hgrest
  | StringNode val loc =>
    cases h
    exact hgrest
  | VariableNode name =>
    rcases hl : lookup name (layerEnv pool layer) with _ | loc <;> simp only [hl] at h
    · exact StepResult.noConfusion h
    · cases h
      exact hgrest
  | LambdaNode varList fv body =>
    cases h
    exact hgrest
  | LetrecNode ves body =>
    by_cases hrec : 1 < layer.pc ∧ layer.pc ≤ ves.length + 1
    · simp only [if_pos hrec] at h
      rcases hl : lookup (ves.getD (layer.pc - 2) dummyVE).1 (layerEnv pool layer)
        with _ | loc <;> simp only [hl] at h
      · exact StepResult.noConfusion h
      · have h0 : ¬ (layer.pc = 0) := by omega
        simp only [if_neg h0] at h
        by_cases hle : layer.pc ≤ ves.length
        · simp only [if_pos hle] at h
          cases h
          intro l hl2
          rcases List.mem_cons.mp hl2 with rfl | hl3
          · exact calleeRecorded_pc01 _ (Nat.zero_le 1)
          rcases List.mem_cons.mp hl3 with rfl | hl4
          · exact calleeRecorded_nonCall _ _ rfl (fun _ _ _ h => ExprNode.noConfusion h)
          · exact hgrest l hl4
        · simp only [if_neg hle] at h
          by_cases hb : layer.pc = ves.length + 1
          · simp only [if_pos hb] at h
            cases h
            intro l hl2
            rcases List.mem_cons.mp hl2 with rfl | hl3
            · exact calleeRecorded_pc01 _ (Nat.zero_le 1)
            rcases List.mem_cons.mp hl3 with rfl | hl4
            · exact calleeRecorded_nonCall _ _ rfl (fun _ _ _ h => ExprNode.noConfusion h)
            · exact hgrest l hl4
          · exact absurd hrec.2 (by omega)
    · simp only [if_neg hrec] at h
      by_cases h0 : layer.pc = 0
      · simp only [if_pos h0] at h
        cases h
        intro l hl2
        rcases List.mem_cons.mp hl2 with rfl | hl3
        · exact calleeRecorded_pc01 _ (le_refl 1)
        · exact hgrest l hl3
      · simp only [if_neg h0] at h
        by_cases hle : layer.pc ≤ ves.length
        · simp only [if_pos hle] at h
          cases h
          intro l hl2
          rcases List.mem_cons.mp hl2 with rfl | hl3
          · exact calleeRecorded_pc01 _ (Nat.zero_le 1)
          rcases List.mem_cons.mp hl3 with rfl | hl4
          · exact calleeRecorded_nonCall _ _ rfl (fun _ _ _ h => ExprNode.noConfusion h)
          · exact hgrest l hl4
        · simp only [if_neg hle] at h
          by_cases hb : layer.pc = ves.length + 1
          · simp only [if_pos hb] at h
            cases h
            intro l hl2
            rcases List.mem_cons.mp hl2 with rfl | hl3
            · exact calleeRecorded_pc01 _ (Nat.zero_le 1)
            rcases List.mem_cons.mp hl3 with rfl | hl4
            · exact calleeRecorded_nonCall _ _ rfl (fun _ _ _ h => ExprNode.noConfusion h)
            · exact hgrest l hl4
          · simp only [if_neg hb] at h
            cases h
            exact hgrest
  | IfNode cond branch1 branch2 =>
    by_cases h0 : layer.pc = 0
    · simp only [if_pos h0] at h
      cases h
      intro l hl2
      rcases List.mem_cons.mp hl2 with rfl | hl3
      · exact calleeRecorded_pc01 _ (Nat.zero_le 1)
      rcases List.mem_cons.mp hl3 with rfl | hl4
      · exact calleeRecorded_pc01 _ (le_refl 1)
      · exact hgrest l hl4
    · simp only [if_neg h0] at h
      by_cases h1 : layer.pc = 1
      · simp only [if_pos h1] at h
        rcases hv : s.heap.getD s.resultLoc .VoidV with _ | v | sv | ⟨cenv, cvl, cb⟩ <;>
          simp only [hv] at h
        · exact StepResult.noConfusion h
        · cases h
          intro l hl2
          rcases List.mem_cons.mp hl2 with rfl | hl3
          · exact calleeRecorded_pc01 _ (Nat.zero_le 1)
          rcases List.mem_cons.mp hl3 with rfl | hl4
          · exact calleeRecorded_nonCall _ _ rfl (fun _ _ _ h => ExprNode.noConfusion h)
          · exact hgrest l hl4
        · exact StepResult.noConfusion h
        · exact StepResult.noConfusion h
      · simp only [if_neg h1] at h
        cases h
        exact hgrest
  | SequenceNode exprList =>
    by_cases hlt : layer.pc < exprList.length
    · simp only [if_pos hlt] at h
      cases h
      intro l hl2
      rcases List.mem_cons.mp hl2 with rfl | hl3
      · exact calleeRecorded_pc01 _ (Nat.zero_le 1)
      rcases List.mem_cons.mp hl3 with rfl | hl4
      · exact calleeRecorded_nonCall _ _ rfl (fun _ _ _ h => ExprNode.noConfusion h)
      · exact hgrest l hl4
    · simp only [if_neg hlt] at h
      cases h
      exact hgrest
  | IntrinsicCallNode intrinsic argList =>
    by_cases hlt : layer.pc < argList.length
    · simp only [if_pos hlt] at h
      cases h
      intro l hl2
      rcases List.mem_cons.mp hl2 with rfl | hl3
      · exact calleeRecorded_pc01 _ (Nat.zero_le 1)
      rcases List.mem_cons.mp hl3 with rfl | hl4
      · exact calleeRecorded_nonCall _ _ rfl (fun _ _ _ h => ExprNode.noConfusion h)
      · exact hgrest l hl4
    · simp only [if_neg hlt] at h
      rcases hc : callIntrinsic s.heap intrinsic
          (if 0 < layer.pc ∧ layer.pc ≤ argList.length
            then layer.localLocs ++ [s.resultLoc] else layer.localLocs)
        with m | v <;> simp only [hc] at h
      · exact StepResult.noConfusion h
      · cases h
        exact hgrest
  | ExprCallNode tailPos callee argsL =>
    by_cases h0 : layer.pc = 0
    · simp only [if_pos h0] at h
      cases h
      intro l hl2
      rcases List.mem_cons.mp hl2 with rfl | hl3
      · exact calleeRecorded_pc01 _ (Nat.zero_le 1)
      rcases List.mem_cons.mp hl3 with rfl | hl4
      · exact calleeRecorded_pc01 _ (le_refl 1)
      · exact hgrest l hl4
    · simp only [if_neg h0] at h
      by_cases h1 : layer.pc = 1
      · simp only [if_pos h1] at h
        cases h
        intro l hl2
        rcases List.mem_cons.mp hl2 with rfl | hl3
        · exact calleeRecorded_nonempty _ (by simp)
        · exact hgrest l hl3
      · simp only [if_neg h1] at h
        have hloc1 : (if 2 < layer.pc ∧ layer.pc ≤ argsL.length + 2
            then layer.localLocs ++ [s.resultLoc] else layer.localLocs) ≠ [] ∨
            layer.pc ≤ 1 := by
          by_cases hc : 2 < layer.pc ∧ layer.pc ≤ argsL.length + 2
          · rw [if_pos hc]
            left
            simp
          · rw [if_neg hc]
            by_cases hp2 : 2 ≤ layer.pc
            · exact Or.inl (hgl tailPos callee argsL he hp2)
            · exact Or.inr (by omega)
        by_cases hle : layer.pc ≤ argsL.length + 1
        · simp only [if_pos hle] at h
          cases h
          intro l hl2
          rcases List.mem_cons.mp hl2 with rfl | hl3
          · exact calleeRecorded_pc01 _ (Nat.zero_le 1)
          rcases List.mem_cons.mp hl3 with rfl | hl4
          · refine calleeRecorded_nonempty _ ?_
            rcases hloc1 with hne | hp
            · exact hne
            · omega
          · exact hgrest l hl4
        · simp only [if_neg hle] at h
          by_cases hcall : layer.pc = argsL.length + 2
          · simp only [if_pos hcall] at h
            rcases hv : s.heap.getD
                ((if 2 < layer.pc ∧ layer.pc ≤ argsL.length + 2
                  then layer.localLocs ++ [s.resultLoc] else layer.localLocs).getD 0 0) .VoidV
              with _ | v | sv | ⟨cenv, cvl, cb⟩ <;> simp only [hv] at h
            · exact StepResult.noConfusion h
            · exact StepResult.noConfusion h
            · exact StepResult.noConfusion h
            · by_cases har : (if 2 < layer.pc ∧ layer.pc ≤ argsL.length + 2
                  then layer.localLocs ++ [s.resultLoc] else layer.localLocs).length ≠
                  cvl.length + 1
              · simp only [if_pos har] at h
                exact StepResult.noConfusion h
              · simp only [if_neg har] at h
                by_cases htp : tailPos = true
                · rw [if_pos htp] at h
                  cases h
                  intro l hl2
                  rcases List.mem_cons.mp hl2 with rfl | hl3
                  · exact calleeRecorded_pc01 _ (Nat.zero_le 1)
                  · have hl4 :=
                      ((List.tail_sublist _).trans (List.dropWhile_sublist _)).subset hl3
                    rcases List.mem_cons.mp hl4 with rfl | hl5
                    · refine calleeRecorded_nonempty _ ?_
                      rcases hloc1 with hne | hp
                      · exact hne
                      · omega
                    · exact hgrest l hl5
                · rw [if_neg htp] at h
                  cases h
                  intro l hl2
                  rcases List.mem_cons.mp hl2 with rfl | hl3
                  · exact calleeRecorded_pc01 _ (Nat.zero_le 1)
                  rcases List.mem_cons.mp hl3 with rfl | hl4
                  · refine calleeRecorded_nonempty _ ?_
                    rcases hloc1 with hne | hp
                    · exact hne
                    · omega
                  · exact hgrest l hl4
          · simp only [if_neg hcall] at h
            cases h
            exact hgrest
  | AtNode varName atExpr =>
    by_cases h0 : layer.pc = 0
    · simp only [if_pos h0] at h
      cases h
      intro l hl2
      rcases List.mem_cons.mp hl2 with rfl | hl3
      · exact calleeRecorded_pc01 _ (Nat.zero_le 1)
      rcases List.mem_cons.mp hl3 with rfl | hl4
      · exact calleeRecorded_pc01 _ (le_refl 1)
      · exact hgrest l hl4
    · simp only [if_neg h0] at h
      rcases hv : s.heap.getD s.resultLoc .VoidV with _ | v | sv | ⟨cenv, cvl, cb⟩ <;>
        simp only [hv] at h
      · exact StepResult.noConfusion h
      · exact StepResult.noConfusion h
      · exact StepResult.noConfusion h
      · rcases hl : lookup varName cenv with _ | loc <;> simp only [hl] at h
        · exact StepResult.noConfusion h
        · cases h
          exact hgrest

/-- Every value an intrinsic call returns is location-free (`Void`, `Integer`
or `String`, never a closure), so any location renaming fixes it. -/
theorem callIntrinsic_ok_mapValue (heap : List Value) (name : String)
    (args : List Nat) (v : Value) (ψ : Nat → Nat)
    (h : callIntrinsic heap name args = .ok v) : mapValue ψ v = v := by
  unfold callIntrinsic at h
  by_cases hn0 : name = ".void"
  · rw [if_pos hn0] at h
    repeat' split at h
    all_goals (cases h <;> rfl)
  rw [if_neg hn0] at h
  by_cases hn1 : name = ".+"
  · rw [if_pos hn1] at h
    repeat' split at h
    all_goals (cases h <;> rfl)
  rw [if_neg hn1] at h
  by_cases hn2 : name = ".-"
  · rw [if_pos hn2] at h
    repeat' split at h
    all_goals (cases h <;> rfl)
  rw [if_neg hn2] at h
  by_cases hn3 : name = ".*"
  · rw [if_pos hn3] at h
    repeat' split at h
    all_goals (cases h <;> rfl)
  rw [if_neg hn3] at h
  by_cases hn4 : name = "./"
  · rw [if_pos hn4] at h
    repeat' split at h
    all_goals (cases h <;> rfl)
  rw [if_neg hn4] at h
  by_cases hn5 : name = ".%"
  · rw [if_pos hn5] at h
    repeat' split at h
    all_goals (cases h <;> rfl)
  rw [if_neg hn5] at h
  by_cases hn6 : name = ".<"
  · rw [if_pos hn6] at h
    repeat' split at h
    all_goals (cases h <;> rfl)
  rw [if_neg hn6] at h
  by_cases hn7 : name = ".<="
  · rw [if_pos hn7] at h
    repeat' split at h
    all_goals (cases h <;> rfl)
  rw [if_neg hn7] at h
  by_cases hn8 : name = ".>"
  · rw [if_pos hn8] at h
    repeat' split at h
    all_goals (cases h <;> rfl)
  rw [if_neg hn8] at h
  by_cases hn9 : name = ".>="
  · rw [if_pos hn9] at h
    repeat' split at h
    all_goals (cases h <;> rfl)
  rw [if_neg hn9] at h
  by_cases hn10 : name = ".="
  · rw [if_pos hn10] at h
    repeat' split at h
    all_goals (cases h <;> rfl)
  rw [if_neg hn10] at h
  by_cases hn11 : name = "./="
  · rw [if_pos hn11] at h
    repeat' split at h
    all_goals (cases h <;> rfl)
  rw [if_neg hn11] at h
  by_cases hn12 : name = ".and"
  · rw [if_pos hn12] at h
    repeat' split at h
    all_goals (cases h <;> rfl)
  rw [if_neg hn12] at h
  by_cases hn13 : name = ".or"
  · rw [if_pos hn13] at h
    repeat' split at h
    all_goals (cases h <;> rfl)
  rw [if_neg hn13] at h
  by_cases hn14 : name = ".not"
  · rw [if_pos hn14] at h
    repeat' split at h
    all_goals (cases h <;> rfl)
  rw [if_neg hn14] at h
  by_cases hn15 : name = ".s+"
  · rw [if_pos hn15] at h
    repeat' split at h
    all_goals (cases h <;> rfl)
  rw [if_neg hn15] at h
  by_cases hn16 : name = ".s<"
  · rw [if_pos hn16] at h
    repeat' split at h
    all_goals (cases h <;> rfl)
  rw [if_neg hn16] at h
  by_cases hn17 : name = ".s<="
  · rw [if_pos hn17] at h
    repeat' split at h
    all_goals (cases h <;> rfl)
  rw [if_neg hn17] at h
  by_cases hn18 : name = ".s>"
  · rw [if_pos hn18] at h
    repeat' split at h
    all_goals (cases h <;> rfl)
  rw [if_neg hn18] at h
  by_cases hn19 : name = ".s>="
  · rw [if_pos hn19] at h
    repeat' split at h
    all_goals (cases h <;> rfl)
  rw [if_neg hn19] at h
  by_cases hn20 : name = ".s="
  · rw [if_pos hn20] at h
    repeat' split at h
    all_goals (cases h <;> rfl)
  rw [if_neg hn20] at h
  by_cases hn21 : name = ".s/="
  · rw [if_pos hn21] at h
    repeat' split at h
    all_goals (cases h <;> rfl)
  rw [if_neg hn21] at h
  by_cases hn22 : name = ".s||"
  · rw [if_pos hn22] at h
    repeat' split at h
    all_goals (cases h <;> rfl)
  rw [if_neg hn22] at h
  by_cases hn23 : name = ".s[]"
  · rw [if_pos hn23] at h
    repeat' split at h
    all_goals (cases h <;> rfl)
  rw [if_neg hn23] at h
  by_cases hn24 : name = ".quote"
  · rw [if_pos hn24] at h
    repeat' split at h
    all_goals (cases h <;> rfl)
  rw [if_neg hn24] at h
  by_cases hn25 : name = ".unquote"
  · rw [if_pos hn25] at h
    repeat' split at h
    all_goals (cases h <;> rfl)
  rw [if_neg hn25] at h
  by_cases hn26 : name = ".s->i"
  · rw [if_pos hn26] at h
    repeat' split at h
    all_goals (cases h <;> rfl)
  rw [if_neg hn26] at h
  by_cases hn27 : name = ".i->s"
  · rw [if_pos hn27] at h
    repeat' split at h
    all_goals (cases h <;> rfl)
  rw [if_neg hn27] at h
  by_cases hn28 : name = ".type"
  · rw [if_pos hn28] at h
    repeat' split at h
    all_goals (cases h <;> rfl)
  rw [if_neg hn28] at h
  by_cases hn29 : name = ".eval"
  · rw [if_pos hn29] at h
    repeat' split at h
    all_goals (cases h <;> rfl)
  rw [if_neg hn29] at h
  by_cases hn30 : name = ".getchar"
  · rw [if_pos hn30] at h
    repeat' split at h
    all_goals (cases h <;> rfl)
  rw [if_neg hn30] at h
  by_cases hn31 : name = ".getint"
  · rw [if_pos hn31] at h
    repeat' split at h
    all_goals (cases h <;> rfl)
  rw [if_neg hn31] at h
  by_cases hn32 : name = ".putstr"
  · rw [if_pos hn32] at h
    repeat' split at h
    all_goals (cases h <;> rfl)
  rw [if_neg hn32] at h
  by_cases hn33 : name = ".flush"
  · rw [if_pos hn33] at h
    repeat' split at h
    all_goals (cases h <;> rfl)
  rw [if_neg hn33] at h
  exact absurd h (by simp)


/-! ### `Rel` transport helpers: one per shape of successor state -/

theorem Rel_restack (φ : Nat → Nat) (pA : EnvPool) (sA : State) (pB : EnvPool)
    (sB : State) (hrel : Rel φ pA sA pB sB) (LB : List Layer)
    (hrefs : ∀ l ∈ LB, ∃ l0 ∈ sB.stack, l.envRef = l0.envRef) :
    Rel φ pA { sA with stack := LB.map (layerMap φ) } pB { sB with stack := LB } :=
  ⟨hrel.inj, hrel.maps, hrel.litsEq, hrel.litsFix, hrel.res, rfl, hrel.poolLen,
    poolRel_of_refs φ pA pB sB.stack LB hrel.poolRel hrefs⟩

theorem Rel_pop_res (φ : Nat → Nat) (pA : EnvPool) (sA : State) (pB : EnvPool)
    (sB : State) (hrel : Rel φ pA sA pB sB) (LB : List Layer) (rB : Nat)
    (hrefs : ∀ l ∈ LB, ∃ l0 ∈ sB.stack, l.envRef = l0.envRef) :
    Rel φ pA { sA with resultLoc := φ rB, stack := LB.map (layerMap φ) }
        pB { sB with resultLoc := rB, stack := LB } :=
  ⟨hrel.inj, hrel.maps, hrel.litsEq, hrel.litsFix, rfl, rfl, hrel.poolLen,
    poolRel_of_refs φ pA pB sB.stack LB hrel.poolRel hrefs⟩

theorem Rel_set_restack (φ : Nat → Nat) (pA : EnvPool) (sA : State) (pB : EnvPool)
    (sB : State) (hrel : Rel φ pA sA pB sB) (loc : Nat) (w : Value)
    (hloc : loc < sB.heap.length) (LB : List Layer)
    (hrefs : ∀ l ∈ LB, ∃ l0 ∈ sB.stack, l.envRef = l0.envRef) :
    Rel φ pA
      { sA with
        heap := sA.heap.set (φ loc) (mapValue φ w)
        stack := LB.map (layerMap φ) }
      pB { sB with heap := sB.heap.set loc w, stack := LB } := by
  refine ⟨?_, ?_, hrel.litsEq, hrel.litsFix, hrel.res, rfl, hrel.poolLen,
    poolRel_of_refs φ pA pB sB.stack LB hrel.poolRel hrefs⟩
  · intro l1 h1 l2 h2
    simp only [List.length_set] at h1 h2
    exact hrel.inj l1 h1 l2 h2
  · intro l hl
    simp only [List.length_set] at hl
    refine ⟨by simp only [List.length_set]; exact (hrel.maps l hl).1, ?_⟩
    by_cases hll : l = loc
    · subst hll
      show (sA.heap.set (φ l) (mapValue φ w)).getD (φ l) .VoidV =
        mapValue φ ((sB.heap.set l w).getD l .VoidV)
      rw [getD_set_self _ _ _ _ ((hrel.maps l hl).1), getD_set_self _ _ _ _ hl]
    · have hne : φ loc ≠ φ l := fun hq => hll (hrel.inj l hl loc hloc hq.symm)
      show (sA.heap.set (φ loc) (mapValue φ w)).getD (φ l) .VoidV =
        mapValue φ ((sB.heap.set loc w).getD l .VoidV)
      rw [getD_set_ne _ _ _ _ _ hne, getD_set_ne _ _ _ _ _ (fun hq => hll hq.symm)]
      exact (hrel.maps l hl).2

theorem Rel_alloc_pop (φ : Nat → Nat) (pA : EnvPool) (sA : State) (pB : EnvPool)
    (sB : State) (hrel : Rel φ pA sA pB sB) (v : Value) (LB : List Layer)
    (hheapOK : ∀ w ∈ sB.heap, ∀ x ∈ valueLocs w, x < sB.heap.length)
    (hlits : sB.numLiterals ≤ sB.heap.length)
    (hv : ∀ x ∈ valueLocs v, x < sB.heap.length)
    (hpool : ∀ l ∈ sB.stack, ∀ p ∈ pB.getD l.envRef [], p.2 < sB.heap.length)
    (hrefs : ∀ l ∈ LB, ∃ l0 ∈ sB.stack, l.envRef = l0.envRef)
    (hLB : ∀ l ∈ LB, ∀ x ∈ l.localLocs, x < sB.heap.length) :
    Rel (extMap φ sB.heap.length sA.heap.length) pA
      { sA with
        heap := sA.heap ++ [mapValue φ v]
        resultLoc := sA.heap.length
        stack := LB.map (layerMap φ) }
      pB
      { sB with
        heap := sB.heap ++ [v]
        resultLoc := sB.heap.length
        stack := LB } := by
  have hmapsA := maps_append φ sA.heap sB.heap [v] hrel.maps hheapOK
    (by
      intro w hw
      rw [List.mem_singleton.mp hw]
      exact hv)
  refine ⟨?_, ?_, hrel.litsEq, ?_, ?_, ?_, hrel.poolLen, ?_⟩
  · intro l1 h1 l2 h2
    refine extMap_inj φ sB.heap.length sA.heap.length 1 hrel.inj
      (fun l hl => (hrel.maps l hl).1) l1 ?_ l2 ?_
    · simpa using h1
    · simpa using h2
  · intro l hl
    exact hmapsA l hl
  · intro l hl
    rw [extMap_lt φ _ _ l (Nat.lt_of_lt_of_le hl hlits)]
    exact hrel.litsFix l hl
  · show sA.heap.length = extMap φ sB.heap.length sA.heap.length sB.heap.length
    rw [extMap_ge φ _ _ _ (le_refl _), Nat.sub_self, Nat.add_zero]
  · show LB.map (layerMap φ) =
      LB.map (layerMap (extMap φ sB.heap.length sA.heap.length))
    exact (stackMap_congr _ φ LB
      (fun l hl x hx => extMap_lt φ _ _ x (hLB l hl x hx))).symm
  · intro l hl
    rcases hrefs l hl with ⟨l0, hl0, hq⟩
    show pA.getD l.envRef [] =
      relocEnv (extMap φ sB.heap.length sA.heap.length) (pB.getD l.envRef [])
    rw [hq, hrel.poolRel l0 hl0, relocEnv_ext φ _ _ _ (hpool l0 hl0)]

theorem Rel_tco_push (φ : Nat → Nat) (pA : EnvPool) (sA : State) (pB : EnvPool)
    (sB : State) (hrel : Rel φ pA sA pB sB)
    (hstk : ∀ l ∈ sB.stack, l.envRef < pB.length)
    (newEnvB : Env) (body : ExprNode) (tailb : Bool) :
    Rel φ (pA ++ [relocEnv φ newEnvB])
      { sA with stack := { envRef := pA.length, expr := some body, frame := true } ::
          (if tailb = true then (sA.stack.dropWhile (fun l => !l.frame)).tail
            else sA.stack) }
      (pB ++ [newEnvB])
      { sB with stack := { envRef := pB.length, expr := some body, frame := true } ::
          (if tailb = true then (sB.stack.dropWhile (fun l => !l.frame)).tail
            else sB.stack) } := by
  refine ⟨hrel.inj, hrel.maps, hrel.litsEq, hrel.litsFix, hrel.res, ?_, ?_, ?_⟩
  · show _ = List.map (layerMap φ) _
    simp only [List.map_cons]
    rw [hrel.poolLen, hrel.stackEq]
    by_cases htb : tailb = true
    · rw [if_pos htb, if_pos htb, dropWhile_layerMap, tail_map_layer]
      rfl
    · rw [if_neg htb, if_neg htb]
      rfl
  · simp [hrel.poolLen]
  · intro l hl
    rcases List.mem_cons.mp hl with rfl | hl2
    · show (pA ++ [relocEnv φ newEnvB]).getD pB.length [] =
        relocEnv φ ((pB ++ [newEnvB]).getD pB.length [])
      have hB : (pB ++ [newEnvB]).getD pB.length [] = newEnvB := by
        rw [List.getD_append_right _ _ _ _ (le_refl _), Nat.sub_self]
        rfl
      have hA : (pA ++ [relocEnv φ newEnvB]).getD pB.length [] = relocEnv φ newEnvB := by
        rw [← hrel.poolLen, List.getD_append_right _ _ _ _ (le_refl _), Nat.sub_self]
        rfl
      rw [hA, hB]
    · have hmem : l ∈ sB.stack := by
        revert hl2
        split
        · intro hx
          exact ((List.tail_sublist _).trans (List.dropWhile_sublist _)).subset hx
        · intro hx
          exact hx
      have hbound := hstk l hmem
      rw [List.getD_append _ _ _ _ (by rw [hrel.poolLen]; exact hbound),
        List.getD_append _ _ _ _ hbound]
      exact hrel.poolRel l hmem


theorem relocEnv_append (ρ : Nat → Nat) (x y : Env) :
    relocEnv ρ (x ++ y) = relocEnv ρ x ++ relocEnv ρ y :=
  List.map_append _ _ _

theorem relocEnv_take (ρ : Nat → Nat) (env : Env) (k : Nat) :
    relocEnv ρ (env.take k) = (relocEnv ρ env).take k := by
  simp [relocEnv, List.map_take]

theorem relocEnv_length (ρ : Nat → Nat) (env : Env) :
    (relocEnv ρ env).length = env.length :=
  List.length_map _ _

theorem step_rel (φ : Nat → Nat) (pA : EnvPool) (sA : State) (pB : EnvPool)
    (sB : State) (hwf : WF pB sB) (hgood : stackGood sB.stack)
    (hrel : Rel φ pA sA pB sB) (R : StepResult) (hR : step pB sB = R) :
    stepSim pA sA R := by
  rcases hs : sB.stack with _ | ⟨layer, rest⟩
  · rw [step.eq_def, hs] at hR
    cases hR
    show step pA sA = .fail "empty stack"
    rw [step.eq_def, hrel.stackEq, hs]
    rfl
  have hmem : layer ∈ sB.stack := by
    rw [hs]
    exact List.mem_cons_self _ _
  have hlayer := hwf.stackOK layer hmem
  have henvA' : layerEnv pA (layerMap φ layer) = relocEnv φ (layerEnv pB layer) := by
    simp only [layerEnv, layerMap_envRef]
    exact hrel.poolRel layer hmem
  have hstkA : sA.stack = layerMap φ layer :: List.map (layerMap φ) rest := by
    rw [hrel.stackEq, hs, List.map_cons]
  have hrefsRest : ∀ l ∈ rest, ∃ l0 ∈ sB.stack, l.envRef = l0.envRef := fun l hl =>
    ⟨l, by rw [hs]; exact List.mem_cons_of_mem _ hl, rfl⟩
  have hrestOK : ∀ l ∈ rest, ∀ x ∈ l.localLocs, x < sB.heap.length := fun l hl =>
    (hwf.stackOK l (by rw [hs]; exact List.mem_cons_of_mem _ hl)).1
  have hheapB : ∀ w ∈ sB.heap, ∀ x ∈ valueLocs w, x < sB.heap.length := fun w hw =>
    valueLocs_lt_of_valueOK _ _ w (hwf.heapOK w hw)
  rcases he : layer.expr with _ | e
  · rw [step.eq_def, hs] at hR
    simp only [he] at hR
    cases hR
    show step pA sA = .halt
    rw [step.eq_def, hstkA]
    simp only [layerMap_expr, he]
  have hlitsE := hlayer.2.2 e he
  rw [step.eq_def, hs] at hR
  simp only [he] at hR
  cases e with
  | IntegerNode val loc =>
    cases hR
    simp only [stepSim]
    refine ⟨φ, ?_⟩
    rw [step.eq_def, hstkA]
    simp only [layerMap_expr, he]
    have hfix : φ loc = loc :=
      hrel.litsFix loc (hlitsE loc (by simp [exprLits]))
    show Rel _ _ _ _ _
    have h2 := Rel_pop_res φ pA sA pB sB hrel rest loc hrefsRest
    rw [hfix] at h2
    exact h2
  | StringNode val loc =>
    cases hR
    simp only [stepSim]
    refine ⟨φ, ?_⟩
    rw [step.eq_def, hstkA]
    simp only [layerMap_expr, he]
    have hfix : φ loc = loc :=
      hrel.litsFix loc (hlitsE loc (by simp [exprLits]))
    show Rel _ _ _ _ _
    have h2 := Rel_pop_res φ pA sA pB sB hrel rest loc hrefsRest
    rw [hfix] at h2
    exact h2
  | VariableNode name =>
    rcases hl : lookup name (layerEnv pB layer) with _ | loc <;> simp only [hl] at hR
    · cases hR
      show step pA sA = _
      rw [step.eq_def, hstkA]
      simp only [layerMap_expr, he]
      rw [henvA', lookup_relocEnv, hl]
      rfl
    · cases hR
      simp only [stepSim]
      refine ⟨φ, ?_⟩
      rw [step.eq_def, hstkA]
      simp only [layerMap_expr, he]
      rw [henvA', lookup_relocEnv, hl]
      show Rel _ _ _ _ _
      exact Rel_pop_res φ pA sA pB sB hrel rest loc hrefsRest
  | LambdaNode varList fv body =>
    cases hR
    simp only [stepSim]
    refine ⟨extMap φ sB.heap.length sA.heap.length, ?_⟩
    rw [step.eq_def, hstkA]
    simp only [layerMap_expr, he]
    have hcap : capture fv (layerEnv pA (layerMap φ layer)) =
        relocEnv φ (capture fv (layerEnv pB layer)) := by
      rw [henvA', capture_relocEnv]
    have hcapLoc : ∀ x ∈ valueLocs (Value.ClosureV (capture fv (layerEnv pB layer))
        varList body), x < sB.heap.length := by
      intro x hx
      rcases List.mem_map.mp hx with ⟨p, hp, rfl⟩
      exact hwf.poolOK layer hmem p ((capture_sublist fv _).subset hp)
    rw [hcap]
    show Rel _ _ _ _ _
    exact Rel_alloc_pop φ pA sA pB sB hrel _ rest hheapB hwf.litsLe hcapLoc
      (fun l hl => hwf.poolOK l hl) hrefsRest hrestOK
  | LetrecNode ves body =>
    by_cases hrec : 1 < layer.pc ∧ layer.pc ≤ ves.length + 1
    · simp only [if_pos hrec] at hR
      rcases hl : lookup (ves.getD (layer.pc - 2) dummyVE).1 (layerEnv pB layer)
        with _ | loc <;> simp only [hl] at hR
      · cases hR
        show step pA sA = _
        rw [step.eq_def, hstkA]
        simp only [layerMap_expr, he, layerMap_pc, layerMap_envRef, layerMap_localLocs]
        simp only [if_pos hrec]
        rw [henvA', lookup_relocEnv, hl]
        rfl
      · have hlocB : loc < sB.heap.length := by
          rcases lookup_mem _ _ _ hl with ⟨nm, hmm2⟩
          exact hwf.poolOK layer hmem (nm, loc) hmm2
        have h0 : ¬ (layer.pc = 0) := by omega
        simp only [if_neg h0] at hR
        by_cases hle : layer.pc ≤ ves.length
        · simp only [if_pos hle] at hR
          cases hR
          simp only [stepSim]
          refine ⟨φ, ?_⟩
          rw [step.eq_def, hstkA]
          simp only [layerMap_expr, he, layerMap_pc, layerMap_envRef, layerMap_localLocs]
          simp only [if_pos hrec]
          rw [henvA', lookup_relocEnv, hl]
          simp only [Option.map_some']
          simp only [if_neg h0, if_pos hle]
          rw [res_value_rel φ pA sA pB sB hrel hwf.resOK]
          rw [← he]
          show Rel _ _ _ _ _
          refine Rel_set_restack φ pA sA pB sB hrel loc _ hlocB (childLayer layer.envRef (ves.getD (layer.pc - 1) dummyVE).2 :: { layer with pc := layer.pc + 1 } :: rest) ?_
          intro l hl2
          rcases List.mem_cons.mp hl2 with rfl | hl3
          · exact ⟨layer, hmem, rfl⟩
          rcases List.mem_cons.mp hl3 with rfl | hl4
          · exact ⟨layer, hmem, rfl⟩
          · exact ⟨l, by rw [hs]; exact List.mem_cons_of_mem _ hl4, rfl⟩
        · simp only [if_neg hle] at hR
          by_cases hb : layer.pc = ves.length + 1
          · simp only [if_pos hb] at hR
            cases hR
            simp only [stepSim]
            refine ⟨φ, ?_⟩
            rw [step.eq_def, hstkA]
            simp only [layerMap_expr, he, layerMap_pc, layerMap_envRef, layerMap_localLocs]
            simp only [if_pos hrec]
            rw [henvA', lookup_relocEnv, hl]
            simp only [Option.map_some']
            simp only [if_neg h0, if_neg hle, if_pos hb]
            rw [res_value_rel φ pA sA pB sB hrel hwf.resOK]
            rw [← he]
            show Rel _ _ _ _ _
            refine Rel_set_restack φ pA sA pB sB hrel loc _ hlocB (childLayer layer.envRef body :: { layer with pc := layer.pc + 1 } :: rest) ?_
            intro l hl2
            rcases List.mem_cons.mp hl2 with rfl | hl3
            · exact ⟨layer, hmem, rfl⟩
            rcases List.mem_cons.mp hl3 with rfl | hl4
            · exact ⟨layer, hmem, rfl⟩
            · exact ⟨l, by rw [hs]; exact List.mem_cons_of_mem _ hl4, rfl⟩
          · exact absurd hrec.2 (by omega)
    · simp only [if_neg hrec] at hR
      by_cases h0 : layer.pc = 0
      · simp only [if_pos h0] at hR
        cases hR
        simp only [stepSim]
        refine ⟨extMap φ sB.heap.length sA.heap.length, ?_⟩
        rw [step.eq_def, hstkA]
        simp only [layerMap_expr, he, layerMap_pc, layerMap_envRef, layerMap_localLocs]
        simp only [if_neg hrec, if_pos h0]
        rw [← he]
        have hphi : ∀ i : Nat, extMap φ sB.heap.length sA.heap.length (sB.heap.length + i) =
            sA.heap.length + i := by
          intro i
          rw [extMap_ge φ _ _ _ (Nat.le_add_right _ _), Nat.add_sub_cancel_left]
        have hmapsR := maps_append φ sA.heap sB.heap (List.replicate ves.length .VoidV)
          hrel.maps hheapB
          (by
            intro w hw x hx
            rw [List.eq_of_mem_replicate hw] at hx
            exact absurd hx (List.not_mem_nil x))
        rw [List.map_replicate] at hmapsR
        show Rel _ _ _ _ _
        refine ⟨?_, ?_, hrel.litsEq, ?_, ?_, ?_, ?_, ?_⟩
        · intro l1 h1 l2 h2
          simp only [List.length_append, List.length_replicate] at h1 h2
          exact extMap_inj φ sB.heap.length sA.heap.length ves.length hrel.inj
            (fun l hl => (hrel.maps l hl).1) l1 h1 l2 h2
        · intro l hl
          exact hmapsR l hl
        · intro l hl
          rw [extMap_lt φ _ _ l (Nat.lt_of_lt_of_le hl hwf.litsLe)]
          exact hrel.litsFix l hl
        · show sA.resultLoc = extMap φ sB.heap.length sA.heap.length sB.resultLoc
          rw [extMap_lt φ _ _ _ hwf.resOK]
          exact hrel.res
        · show List.map (layerMap φ) ({ layer with pc := 1 } :: rest) =
            List.map (layerMap (extMap φ sB.heap.length sA.heap.length))
              ({ layer with pc := 1 } :: rest)
          refine (stackMap_congr _ φ _ ?_).symm
          intro l hl2
          rcases List.mem_cons.mp hl2 with rfl | hl3
          · intro x hx
            exact extMap_lt φ _ _ x (hlayer.1 x hx)
          · intro x hx
            exact extMap_lt φ _ _ x (hrestOK l hl3 x hx)
        · simp only [List.length_set]
          exact hrel.poolLen
        · intro l hl2
          have hrB : layer.envRef < pB.length := hlayer.2.1
          have hrA : layer.envRef < pA.length := by
            rw [hrel.poolLen]
            exact hrB
          by_cases hq : l.envRef = layer.envRef
          · rw [hq]
            rw [getD_set_self _ _ _ _ hrA, getD_set_self _ _ _ _ hrB]
            rw [henvA', relocEnv_append]
            congr 1
            · exact (relocEnv_ext φ _ _ _ (hwf.poolOK layer hmem)).symm
            · simp only [relocEnv, List.map_map]
              refine List.map_congr_left ?_
              intro p hp
              show (p.2.1, sA.heap.length + p.1) =
                (p.2.1, extMap φ sB.heap.length sA.heap.length (sB.heap.length + p.1))
              rw [hphi p.1]
          · rcases List.mem_cons.mp hl2 with rfl | hl3
            · exact absurd rfl hq
            · have hmem3 : l ∈ sB.stack := by
                rw [hs]
                exact List.mem_cons_of_mem _ hl3
              rw [getD_set_ne _ _ _ _ _ (fun hx => hq hx.symm),
                getD_set_ne _ _ _ _ _ (fun hx => hq hx.symm)]
              rw [hrel.poolRel l hmem3]
              exact (relocEnv_ext φ _ _ _ (hwf.poolOK l hmem3)).symm
      · simp only [if_neg h0] at hR
        by_cases hle : layer.pc ≤ ves.length
        · simp only [if_pos hle] at hR
          cases hR
          simp only [stepSim]
          refine ⟨φ, ?_⟩
          rw [step.eq_def, hstkA]
          simp only [layerMap_expr, he, layerMap_pc, layerMap_envRef, layerMap_localLocs]
          simp only [if_neg hrec, if_neg h0, if_pos hle]
          rw [← he]
          show Rel _ _ _ _ _
          refine Rel_restack φ pA sA pB sB hrel (childLayer layer.envRef (ves.getD (layer.pc - 1) dummyVE).2 :: { layer with pc := layer.pc + 1 } :: rest) ?_
          intro l hl2
          rcases List.mem_cons.mp hl2 with rfl | hl3
          · exact ⟨layer, hmem, rfl⟩
          rcases List.mem_cons.mp hl3 with rfl | hl4
          · exact ⟨layer, hmem, rfl⟩
          · exact ⟨l, by rw [hs]; exact List.mem_cons_of_mem _ hl4, rfl⟩
        · simp only [if_neg hle] at hR
          by_cases hb : layer.pc = ves.length + 1
          · simp only [if_pos hb] at hR
            cases hR
            simp only [stepSim]
            refine ⟨φ, ?_⟩
            rw [step.eq_def, hstkA]
            simp only [layerMap_expr, he, layerMap_pc, layerMap_envRef, layerMap_localLocs]
            simp only [if_neg hrec, if_neg h0, if_neg hle, if_pos hb]
            rw [← he]
            show Rel _ _ _ _ _
            refine Rel_restack φ pA sA pB sB hrel (childLayer layer.envRef body :: { layer with pc := layer.pc + 1 } :: rest) ?_
            intro l hl2
            rcases List.mem_cons.mp hl2 with rfl | hl3
            · exact ⟨layer, hmem, rfl⟩
            rcases List.mem_cons.mp hl3 with rfl | hl4
            · exact ⟨layer, hmem, rfl⟩
            · exact ⟨l, by rw [hs]; exact List.mem_cons_of_mem _ hl4, rfl⟩
          · simp only [if_neg hb] at hR
            cases hR
            simp only [stepSim]
            refine ⟨φ, ?_⟩
            rw [step.eq_def, hstkA]
            simp only [layerMap_expr, he, layerMap_pc, layerMap_envRef, layerMap_localLocs]
            simp only [if_neg hrec, if_neg h0, if_neg hle, if_neg hb]
            show Rel _ _ _ _ _
            refine ⟨hrel.inj, hrel.maps, hrel.litsEq, hrel.litsFix, hrel.res, rfl, ?_, ?_⟩
            · simp only [List.length_set]
              exact hrel.poolLen
            · intro l hl2
              have hmem3 : l ∈ sB.stack := by
                rw [hs]
                exact List.mem_cons_of_mem _ hl2
              by_cases hq : l.envRef = layer.envRef
              · rw [hq]
                rw [getD_set_self _ _ _ _ (by rw [hrel.poolLen]; exact hlayer.2.1),
                  getD_set_self _ _ _ _ hlayer.2.1]
                rw [henvA', relocEnv_take, relocEnv_length]
              · rw [getD_set_ne _ _ _ _ _ (fun hx => hq hx.symm),
                  getD_set_ne _ _ _ _ _ (fun hx => hq hx.symm)]
                exact hrel.poolRel l hmem3
  | IfNode cond branch1 branch2 =>
    by_cases h0 : layer.pc = 0
    · simp only [if_pos h0] at hR
      cases hR
      simp only [stepSim]
      refine ⟨φ, ?_⟩
      rw [step.eq_def, hstkA]
      simp only [layerMap_expr, he, layerMap_pc, layerMap_envRef, layerMap_localLocs]
      simp only [if_pos h0]
      rw [← he]
      show Rel _ _ _ _ _
      refine Rel_restack φ pA sA pB sB hrel (childLayer layer.envRef cond :: { layer with pc := 1 } :: rest) ?_
      intro l hl2
      rcases List.mem_cons.mp hl2 with rfl | hl3
      · exact ⟨layer, hmem, rfl⟩
      rcases List.mem_cons.mp hl3 with rfl | hl4
      · exact ⟨layer, hmem, rfl⟩
      · exact ⟨l, by rw [hs]; exact List.mem_cons_of_mem _ hl4, rfl⟩
    · simp only [if_neg h0] at hR
      by_cases h1 : layer.pc = 1
      · simp only [if_pos h1] at hR
        have hvA := res_value_rel φ pA sA pB sB hrel hwf.resOK
        rcases hv : sB.heap.getD sB.resultLoc .VoidV with _ | v | sv | ⟨cenv, cvl, cb⟩ <;>
          simp only [hv] at hR
        · cases hR
          show step pA sA = _
          rw [step.eq_def, hstkA]
          simp only [layerMap_expr, he, layerMap_pc]
          simp only [if_neg h0, if_pos h1]
          rw [hvA, hv]
          rfl
        · cases hR
          simp only [stepSim]
          refine ⟨φ, ?_⟩
          rw [step.eq_def, hstkA]
          simp only [layerMap_expr, he, layerMap_pc, layerMap_envRef, layerMap_localLocs]
          simp only [if_neg h0, if_pos h1]
          rw [hvA, hv]
          rw [← he]
          show Rel _ _ _ _ _
          refine Rel_restack φ pA sA pB sB hrel (childLayer layer.envRef (if v ≠ 0 then branch1 else branch2) :: { layer with pc := 2 } :: rest) ?_
          intro l hl2
          rcases List.mem_cons.mp hl2 with rfl | hl3
          · exact ⟨layer, hmem, rfl⟩
          rcases List.mem_cons.mp hl3 with rfl | hl4
          · exact ⟨layer, hmem, rfl⟩
          · exact ⟨l, by rw [hs]; exact List.mem_cons_of_mem _ hl4, rfl⟩
        · cases hR
          show step pA sA = _
          rw [step.eq_def, hstkA]
          simp only [layerMap_expr, he, layerMap_pc]
          simp only [if_neg h0, if_pos h1]
          rw [hvA, hv]
          rfl
        · cases hR
          show step pA sA = _
          rw [step.eq_def, hstkA]
          simp only [layerMap_expr, he, layerMap_pc]
          simp only [if_neg h0, if_pos h1]
          rw [hvA, hv]
          rfl
      · simp only [if_neg h1] at hR
        cases hR
        simp only [stepSim]
        refine ⟨φ, ?_⟩
        rw [step.eq_def, hstkA]
        simp only [layerMap_expr, he, layerMap_pc]
        simp only [if_neg h0, if_neg h1]
        show Rel _ _ _ _ _
        exact Rel_restack φ pA sA pB sB hrel rest hrefsRest
  | SequenceNode exprList =>
    by_cases hlt : layer.pc < exprList.length
    · simp only [if_pos hlt] at hR
      cases hR
      simp only [stepSim]
      refine ⟨φ, ?_⟩
      rw [step.eq_def, hstkA]
      simp only [layerMap_expr, he, layerMap_pc, layerMap_envRef, layerMap_localLocs]
      simp only [if_pos hlt]
      rw [← he]
      show Rel _ _ _ _ _
      refine Rel_restack φ pA sA pB sB hrel (childLayer layer.envRef (exprList.getD layer.pc default) :: { layer with pc := layer.pc + 1 } :: rest) ?_
      intro l hl2
      rcases List.mem_cons.mp hl2 with rfl | hl3
      · exact ⟨layer, hmem, rfl⟩
      rcases List.mem_cons.mp hl3 with rfl | hl4
      · exact ⟨layer, hmem, rfl⟩
      · exact ⟨l, by rw [hs]; exact List.mem_cons_of_mem _ hl4, rfl⟩
    · simp only [if_neg hlt] at hR
      cases hR
      simp only [stepSim]
      refine ⟨φ, ?_⟩
      rw [step.eq_def, hstkA]
      simp only [layerMap_expr, he, layerMap_pc]
      simp only [if_neg hlt]
      show Rel _ _ _ _ _
      exact Rel_restack φ pA sA pB sB hrel rest hrefsRest
  | IntrinsicCallNode intrinsic argList =>
    have hl1A : (if 0 < layer.pc ∧ layer.pc ≤ argList.length
        then List.map φ layer.localLocs ++ [sA.resultLoc] else List.map φ layer.localLocs) =
        List.map φ (if 0 < layer.pc ∧ layer.pc ≤ argList.length
          then layer.localLocs ++ [sB.resultLoc] else layer.localLocs) := by
      by_cases hc : 0 < layer.pc ∧ layer.pc ≤ argList.length
      · rw [if_pos hc, if_pos hc, List.map_append, hrel.res]
        rfl
      · rw [if_neg hc, if_neg hc]
    have hlocB : ∀ x ∈ (if 0 < layer.pc ∧ layer.pc ≤ argList.length
        then layer.localLocs ++ [sB.resultLoc] else layer.localLocs),
        x < sB.heap.length := by
      by_cases hc : 0 < layer.pc ∧ layer.pc ≤ argList.length
      · rw [if_pos hc]
        intro x hx
        rcases List.mem_append.mp hx with h2 | h2
        · exact hlayer.1 x h2
        · rw [List.mem_singleton.mp h2]
          exact hwf.resOK
      · rw [if_neg hc]
        exact hlayer.1
    by_cases hlt : layer.pc < argList.length
    · simp only [if_pos hlt] at hR
      cases hR
      simp only [stepSim]
      refine ⟨φ, ?_⟩
      rw [step.eq_def, hstkA]
      simp only [layerMap_expr, he, layerMap_pc, layerMap_envRef, layerMap_localLocs]
      simp only [if_pos hlt]
      rw [hl1A, ← he]
      show Rel _ _ _ _ _
      refine Rel_restack φ pA sA pB sB hrel (childLayer layer.envRef (argList.getD layer.pc default) :: { layer with pc := layer.pc + 1, localLocs := if 0 < layer.pc ∧ layer.pc ≤ argList.length then layer.localLocs ++ [sB.resultLoc] else layer.localLocs } :: rest) ?_
      intro l hl2
      rcases List.mem_cons.mp hl2 with rfl | hl3
      · exact ⟨layer, hmem, rfl⟩
      rcases List.mem_cons.mp hl3 with rfl | hl4
      · exact ⟨layer, hmem, rfl⟩
      · exact ⟨l, by rw [hs]; exact List.mem_cons_of_mem _ hl4, rfl⟩
    · simp only [if_neg hlt] at hR
      have hcallA : callIntrinsic sA.heap intrinsic
          (List.map φ (if 0 < layer.pc ∧ layer.pc ≤ argList.length
            then layer.localLocs ++ [sB.resultLoc] else layer.localLocs)) =
          callIntrinsic sB.heap intrinsic
            (if 0 < layer.pc ∧ layer.pc ≤ argList.length
              then layer.localLocs ++ [sB.resultLoc] else layer.localLocs) :=
        callIntrinsic_rel φ sA.heap sB.heap intrinsic _
          (fun a ha => (hrel.maps a (hlocB a ha)).2)
      rcases hc : callIntrinsic sB.heap intrinsic
          (if 0 < layer.pc ∧ layer.pc ≤ argList.length
            then layer.localLocs ++ [sB.resultLoc] else layer.localLocs)
        with m | v <;> simp only [hc] at hR
      · cases hR
        show step pA sA = _
        rw [step.eq_def, hstkA]
        simp only [layerMap_expr, he, layerMap_pc, layerMap_envRef, layerMap_localLocs]
        simp only [if_neg hlt]
        rw [hl1A, hcallA, hc]
      · cases hR
        simp only [stepSim]
        have hmv : mapValue φ v = v := callIntrinsic_ok_mapValue sB.heap intrinsic _ v φ hc
        have hvOK : ∀ x ∈ valueLocs v, x < sB.heap.length :=
          valueLocs_lt_of_valueOK sB.heap.length sB.numLiterals v
            (callIntrinsic_ok_valueOK sB.heap intrinsic _ sB.heap.length sB.numLiterals v hc)
        refine ⟨extMap φ sB.heap.length sA.heap.length, ?_⟩
        rw [step.eq_def, hstkA]
        simp only [layerMap_expr, he, layerMap_pc, layerMap_envRef, layerMap_localLocs]
        simp only [if_neg hlt]
        rw [hl1A, hcallA, hc]
        show Rel _ _ _ _ _
        nth_rewrite 1 [← hmv]
        exact Rel_alloc_pop φ pA sA pB sB hrel v rest hheapB hwf.litsLe hvOK
          (fun l hl => hwf.poolOK l hl) hrefsRest hrestOK
  | ExprCallNode tailPos callee argsL =>
    have hl1A : (if 2 < layer.pc ∧ layer.pc ≤ argsL.length + 2
        then List.map φ layer.localLocs ++ [sA.resultLoc] else List.map φ layer.localLocs) =
        List.map φ (if 2 < layer.pc ∧ layer.pc ≤ argsL.length + 2
          then layer.localLocs ++ [sB.resultLoc] else layer.localLocs) := by
      by_cases hc : 2 < layer.pc ∧ layer.pc ≤ argsL.length + 2
      · rw [if_pos hc, if_pos hc, List.map_append, hrel.res]
        rfl
      · rw [if_neg hc, if_neg hc]
    have hlocB : ∀ x ∈ (if 2 < layer.pc ∧ layer.pc ≤ argsL.length + 2
        then layer.localLocs ++ [sB.resultLoc] else layer.localLocs),
        x < sB.heap.length := by
      by_cases hc : 2 < layer.pc ∧ layer.pc ≤ argsL.length + 2
      · rw [if_pos hc]
        intro x hx
        rcases List.mem_append.mp hx with h2 | h2
        · exact hlayer.1 x h2
        · rw [List.mem_singleton.mp h2]
          exact hwf.resOK
      · rw [if_neg hc]
        exact hlayer.1
    by_cases h0 : layer.pc = 0
    · simp only [if_pos h0] at hR
      cases hR
      simp only [stepSim]
      refine ⟨φ, ?_⟩
      rw [step.eq_def, hstkA]
      simp only [layerMap_expr, he, layerMap_pc, layerMap_envRef, layerMap_localLocs]
      simp only [if_pos h0]
      rw [← he]
      show Rel _ _ _ _ _
      refine Rel_restack φ pA sA pB sB hrel (childLayer layer.envRef callee :: { layer with pc := 1 } :: rest) ?_
      intro l hl2
      rcases List.mem_cons.mp hl2 with rfl | hl3
      · exact ⟨layer, hmem, rfl⟩
      rcases List.mem_cons.mp hl3 with rfl | hl4
      · exact ⟨layer, hmem, rfl⟩
      · exact ⟨l, by rw [hs]; exact List.mem_cons_of_mem _ hl4, rfl⟩
    · simp only [if_neg h0] at hR
      by_cases h1 : layer.pc = 1
      · simp only [if_pos h1] at hR
        cases hR
        simp only [stepSim]
        refine ⟨φ, ?_⟩
        rw [step.eq_def, hstkA]
        simp only [layerMap_expr, he, layerMap_pc, layerMap_envRef, layerMap_localLocs]
        simp only [if_neg h0, if_pos h1]
        have hsnoc : List.map φ layer.localLocs ++ [sA.resultLoc] =
            List.map φ (layer.localLocs ++ [sB.resultLoc]) := by
          rw [List.map_append, hrel.res]
          rfl
        rw [hsnoc, ← he]
        show Rel _ _ _ _ _
        refine Rel_restack φ pA sA pB sB hrel ({ layer with pc := 2, localLocs := layer.localLocs ++ [sB.resultLoc] } :: rest) ?_
        intro l hl2
        rcases List.mem_cons.mp hl2 with rfl | hl3
        · exact ⟨layer, hmem, rfl⟩
        · exact ⟨l, by rw [hs]; exact List.mem_cons_of_mem _ hl3, rfl⟩
      · simp only [if_neg h1] at hR
        by_cases hle : layer.pc ≤ argsL.length + 1
        · simp only [if_pos hle] at hR
          cases hR
          simp only [stepSim]
          refine ⟨φ, ?_⟩
          rw [step.eq_def, hstkA]
          simp only [layerMap_expr, he, layerMap_pc, layerMap_envRef, layerMap_localLocs]
          simp only [if_neg h0, if_neg h1, if_pos hle]
          rw [hl1A, ← he]
          show Rel _ _ _ _ _
          refine Rel_restack φ pA sA pB sB hrel (childLayer layer.envRef (argsL.getD (layer.pc - 2) default) :: { layer with pc := layer.pc + 1, localLocs := if 2 < layer.pc ∧ layer.pc ≤ argsL.length + 2 then layer.localLocs ++ [sB.resultLoc] else layer.localLocs } :: rest) ?_
          intro l hl2
          rcases List.mem_cons.mp hl2 with rfl | hl3
          · exact ⟨layer, hmem, rfl⟩
          rcases List.mem_cons.mp hl3 with rfl | hl4
          · exact ⟨layer, hmem, rfl⟩
          · exact ⟨l, by rw [hs]; exact List.mem_cons_of_mem _ hl4, rfl⟩
        · simp only [if_neg hle] at hR
          by_cases hcall : layer.pc = argsL.length + 2
          · simp only [if_pos hcall] at hR
            have hne1 : (if 2 < layer.pc ∧ layer.pc ≤ argsL.length + 2
                then layer.localLocs ++ [sB.resultLoc] else layer.localLocs) ≠ [] := by
              by_cases hc2 : 2 < layer.pc ∧ layer.pc ≤ argsL.length + 2
              · rw [if_pos hc2]
                simp
              · rw [if_neg hc2]
                exact hgood layer hmem tailPos callee argsL he (by omega)
            rcases hx : (if 2 < layer.pc ∧ layer.pc ≤ argsL.length + 2
                then layer.localLocs ++ [sB.resultLoc] else layer.localLocs)
              with _ | ⟨c0, crest⟩
            · exact absurd hx hne1
            rw [hx] at hR
            have hc0 : c0 < sB.heap.length :=
              hlocB c0 (by rw [hx]; exact List.mem_cons_self _ _)
            simp only [List.getD_cons_zero] at hR
            rcases hv : sB.heap.getD c0 .VoidV with _ | v | sv | ⟨cenv, cvl, cb⟩ <;>
              simp only [hv] at hR
            · cases hR
              show step pA sA = _
              rw [step.eq_def, hstkA]
              simp only [layerMap_expr, he, layerMap_pc, layerMap_envRef, layerMap_localLocs]
              simp only [if_neg h0, if_neg h1, if_neg hle, if_pos hcall]
              rw [hl1A, hx]
              simp only [List.map_cons, List.getD_cons_zero]
              rw [(hrel.maps c0 hc0).2, hv]
              rfl
            · cases hR
              show step pA sA = _
              rw [step.eq_def, hstkA]
              simp only [layerMap_expr, he, layerMap_pc, layerMap_envRef, layerMap_localLocs]
              simp only [if_neg h0, if_neg h1, if_neg hle, if_pos hcall]
              rw [hl1A, hx]
              simp only [List.map_cons, List.getD_cons_zero]
              rw [(hrel.maps c0 hc0).2, hv]
              rfl
            · cases hR
              show step pA sA = _
              rw [step.eq_def, hstkA]
              simp only [layerMap_expr, he, layerMap_pc, layerMap_envRef, layerMap_localLocs]
              simp only [if_neg h0, if_neg h1, if_neg hle, if_pos hcall]
              rw [hl1A, hx]
              simp only [List.map_cons, List.getD_cons_zero]
              rw [(hrel.maps c0 hc0).2, hv]
              rfl
            · by_cases har : (c0 :: crest).length ≠ cvl.length + 1
              · simp only [if_pos har] at hR
                cases hR
                show step pA sA = _
                rw [step.eq_def, hstkA]
                simp only [layerMap_expr, he, layerMap_pc, layerMap_envRef, layerMap_localLocs]
                simp only [if_neg h0, if_neg h1, if_neg hle, if_pos hcall]
                rw [hl1A, hx]
                simp only [List.map_cons, List.getD_cons_zero]
                rw [(hrel.maps c0 hc0).2, hv]
                simp only [mapValue, relocValue]
                simp only [List.length_cons, List.length_map]
                simp only [List.length_cons] at har
                simp only [if_pos har]
              · simp only [if_neg har] at hR
                simp only [List.drop_succ_cons, List.drop_zero] at hR
                cases hR
                simp only [stepSim]
                refine ⟨φ, ?_⟩
                rw [step.eq_def, hstkA]
                simp only [layerMap_expr, he, layerMap_pc, layerMap_envRef,
                  layerMap_localLocs]
                simp only [if_neg h0, if_neg h1, if_neg hle, if_pos hcall]
                rw [hl1A, hx]
                simp only [List.map_cons, List.getD_cons_zero]
                rw [(hrel.maps c0 hc0).2, hv]
                simp only [mapValue, relocValue]
                simp only [List.length_cons, List.length_map]
                simp only [List.length_cons] at har
                simp only [if_neg har]
                simp only [List.drop_succ_cons, List.drop_zero]
                have hzip : cvl.zip (List.map φ crest) = relocEnv φ (cvl.zip crest) := by
                  rw [List.zip_map_right]
                  exact List.map_congr_left (fun p hp => rfl)
                rw [hzip]
                rw [show relocEnv φ cenv ++ relocEnv φ (cvl.zip crest) =
                  relocEnv φ (cenv ++ cvl.zip crest) from (relocEnv_append φ _ _).symm]
                rw [← he]
                show Rel _ _ _ _ _
                exact Rel_tco_push φ pA _ pB _
                  (Rel_restack φ pA sA pB sB hrel ({ layer with pc := layer.pc + 1, localLocs := c0 :: crest } :: rest) (by
                    intro l hl2
                    rcases List.mem_cons.mp hl2 with rfl | hl3
                    · exact ⟨layer, hmem, rfl⟩
                    · exact ⟨l, by rw [hs]; exact List.mem_cons_of_mem _ hl3, rfl⟩))
                  (by
                    intro l hl2
                    rcases List.mem_cons.mp hl2 with rfl | hl3
                    · exact hlayer.2.1
                    · exact (hwf.stackOK l
                        (by rw [hs]; exact List.mem_cons_of_mem _ hl3)).2.1)
                  (cenv ++ cvl.zip crest) cb tailPos
          · simp only [if_neg hcall] at hR
            cases hR
            simp only [stepSim]
            refine ⟨φ, ?_⟩
            rw [step.eq_def, hstkA]
            simp only [layerMap_expr, he, layerMap_pc]
            simp only [if_neg h0, if_neg h1, if_neg hle, if_neg hcall]
            show Rel _ _ _ _ _
            exact Rel_restack φ pA sA pB sB hrel rest hrefsRest
  | AtNode varName atExpr =>
    by_cases h0 : layer.pc = 0
    · simp only [if_pos h0] at hR
      cases hR
      simp only [stepSim]
      refine ⟨φ, ?_⟩
      rw [step.eq_def, hstkA]
      simp only [layerMap_expr, he, layerMap_pc, layerMap_envRef, layerMap_localLocs]
      simp only [if_pos h0]
      rw [← he]
      show Rel _ _ _ _ _
      refine Rel_restack φ pA sA pB sB hrel (childLayer layer.envRef atExpr :: { layer with pc := 1 } :: rest) ?_
      intro l hl2
      rcases List.mem_cons.mp hl2 with rfl | hl3
      · exact ⟨layer, hmem, rfl⟩
      rcases List.mem_cons.mp hl3 with rfl | hl4
      · exact ⟨layer, hmem, rfl⟩
      · exact ⟨l, by rw [hs]; exact List.mem_cons_of_mem _ hl4, rfl⟩
    · simp only [if_neg h0] at hR
      have hvA := res_value_rel φ pA sA pB sB hrel hwf.resOK
      rcases hv : sB.heap.getD sB.resultLoc .VoidV with _ | v | sv | ⟨cenv, cvl, cb⟩ <;>
        simp only [hv] at hR
      · cases hR
        show step pA sA = _
        rw [step.eq_def, hstkA]
        simp only [layerMap_expr, he, layerMap_pc]
        simp only [if_neg h0]
        rw [hvA, hv]
        rfl
      · cases hR
        show step pA sA = _
        rw [step.eq_def, hstkA]
        simp only [layerMap_expr, he, layerMap_pc]
        simp only [if_neg h0]
        rw [hvA, hv]
        rfl
      · cases hR
        show step pA sA = _
        rw [step.eq_def, hstkA]
        simp only [layerMap_expr, he, layerMap_pc]
        simp only [if_neg h0]
        rw [hvA, hv]
        rfl
      · rcases hl : lookup varName cenv with _ | loc <;> simp only [hl] at hR
        · cases hR
          show step pA sA = _
          rw [step.eq_def, hstkA]
          simp only [layerMap_expr, he, layerMap_pc]
          simp only [if_neg h0]
          rw [hvA, hv]
          simp only [mapValue, relocValue]
          rw [lookup_relocEnv, hl]
          rfl
        · cases hR
          simp only [stepSim]
          refine ⟨φ, ?_⟩
          rw [step.eq_def, hstkA]
          simp only [layerMap_expr, he, layerMap_pc]
          simp only [if_neg h0]
          rw [hvA, hv]
          simp only [mapValue, relocValue]
          rw [lookup_relocEnv, hl]
          show Rel _ _ _ _ _
          exact Rel_pop_res φ pA sA pB sB hrel rest loc hrefsRest


/-! ### Segment-structure lemmas -/

theorem activeVes_cons_none (r : Nat) (l : Layer) (L : List Layer)
    (h : activeLetrec r l = none) : activeVes r (l :: L) = activeVes r L := by
  simp [activeVes, h]

theorem activeVes_cons_some (r : Nat) (l : Layer) (L : List Layer)
    (ves : List (String × ExprNode)) (h : activeLetrec r l = some ves) :
    activeVes r (l :: L) = ves :: activeVes r L := by
  simp [activeVes, h]

theorem activeVes_cons_congr (r : Nat) (l l' : Layer) (L : List Layer)
    (h : activeLetrec r l' = activeLetrec r l) :
    activeVes r (l' :: L) = activeVes r (l :: L) := by
  simp only [activeVes, h]

theorem activeVes_append (r : Nat) (X Y : List Layer) :
    activeVes r (X ++ Y) = activeVes r X ++ activeVes r Y := by
  induction X with
  | nil => rfl
  | cons a t ih =>
    show activeVes r (a :: (t ++ Y)) = _
    rcases ha : activeLetrec r a with _ | ves
    · rw [activeVes_cons_none r a _ ha, activeVes_cons_none r a _ ha, ih]
    · rw [activeVes_cons_some r a _ ves ha, activeVes_cons_some r a _ ves ha, ih]
      rfl

theorem activeVes_all_none (r : Nat) (X : List Layer)
    (h : ∀ l ∈ X, activeLetrec r l = none) : activeVes r X = [] := by
  induction X with
  | nil => rfl
  | cons a t ih =>
    rw [activeVes_cons_none r a t (h a (List.mem_cons_self _ _))]
    exact ih (fun l hl => h l (List.mem_cons_of_mem _ hl))

theorem mem_activeVes (r : Nat) (L : List Layer) (l : Layer)
    (ves : List (String × ExprNode)) (hl : l ∈ L)
    (ha : activeLetrec r l = some ves) : ves ∈ activeVes r L := by
  induction L with
  | nil => cases hl
  | cons a t ih =>
    rcases List.mem_cons.mp hl with rfl | hl2
    · rw [activeVes_cons_some r l t ves ha]
      exact List.mem_cons_self _ _
    · rcases hb : activeLetrec r a with _ | ves2
      · rw [activeVes_cons_none r a t hb]
        exact ih hl2
      · rw [activeVes_cons_some r a t ves2 hb]
        exact List.mem_cons_of_mem _ (ih hl2)

theorem activeLetrec_nonLetrec (r : Nat) (l : Layer)
    (h : ∀ ves body, l.expr ≠ some (.LetrecNode ves body)) :
    activeLetrec r l = none := by
  rw [activeLetrec]
  by_cases hr : l.envRef = r
  · rw [if_pos hr]
    rcases he : l.expr with _ | e
    · rfl
    · cases e with
      | LetrecNode ves body => exact absurd he (h ves body)
      | IntegerNode a b => rfl
      | StringNode a b => rfl
      | VariableNode a => rfl
      | LambdaNode a b c => rfl
      | IfNode a b c => rfl
      | SequenceNode a => rfl
      | IntrinsicCallNode a b => rfl
      | ExprCallNode a b c => rfl
      | AtNode a b => rfl
  · rw [if_neg hr]

theorem activeLetrec_pc0 (r : Nat) (l : Layer) (h : l.pc = 0) :
    activeLetrec r l = none := by
  rw [activeLetrec]
  by_cases hr : l.envRef = r
  · rw [if_pos hr]
    rcases he : l.expr with _ | e
    · rfl
    · cases e <;> simp [h]
  · rw [if_neg hr]

theorem lookup_isSome_of_mem (name : String) (env : Env)
    (h : name ∈ env.map Prod.fst) : ∃ loc, lookup name env = some loc := by
  induction env with
  | nil => simp at h
  | cons p rest ih =>
    rw [lookup]
    rcases hr : lookup name rest with _ | l
    · simp only [List.map_cons, List.mem_cons] at h
      rcases h with h1 | h2
      · exact ⟨p.2, by rw [if_pos h1.symm]⟩
      · rcases ih h2 with ⟨loc, hloc⟩
        rw [hloc] at hr
        cases hr
    · exact ⟨l, rfl⟩

theorem envSeg_lookup_high (nl : Nat) (lv : List (List (String × ExprNode))) :
    ∀ (env : Env), envSeg nl env lv →
      ∀ ves ∈ lv, ∀ name ∈ ves.map Prod.fst,
        ∀ loc, lookup name env = some loc → nl ≤ loc := by
  induction lv with
  | nil =>
    intro env _ ves hmem
    cases hmem
  | cons v rest ih =>
    intro env hseg ves hmem name hname loc hl
    rcases hseg with ⟨pre, seg, rfl, hsf, hpre⟩
    rw [lookup_append] at hl
    rcases hq : lookup name seg with _ | l2
    · rw [hq] at hl
      rcases List.mem_cons.mp hmem with rfl | hmem2
      · rcases lookup_isSome_of_mem name seg (by rw [hsf.1]; exact hname) with ⟨l3, hl3⟩
        rw [hl3] at hq
        cases hq
      · exact ih pre hpre ves hmem2 name hname loc hl
    · rw [hq] at hl
      injection hl with hh
      rcases lookup_mem name seg l2 hq with ⟨nm, hmm3⟩
      rw [← hh]
      exact hsf.2 (nm, l2) hmm3

theorem window_lookup_high (nl : Nat) (pool : EnvPool) (L : List Layer)
    (hsegs : stackSegs nl pool L) (layer : Layer) (hl : layer ∈ L)
    (ves : List (String × ExprNode)) (body : ExprNode)
    (he : layer.expr = some (.LetrecNode ves body)) (hpc : 1 ≤ layer.pc)
    (i : Nat) (hi : i < ves.length) (loc : Nat)
    (hlk : lookup (ves.getD i dummyVE).1 (pool.getD layer.envRef []) = some loc) :
    nl ≤ loc := by
  have hact : activeLetrec layer.envRef layer = some ves := by
    rw [activeLetrec, if_pos rfl, he]
    simp [hpc]
  have hmv := mem_activeVes layer.envRef L layer ves hl hact
  have hname : (ves.getD i dummyVE).1 ∈ ves.map Prod.fst :=
    List.mem_map_of_mem _ (mem_of_getD ves i dummyVE hi)
  exact envSeg_lookup_high nl _ _ (hsegs layer hl) ves hmv _ hname loc hlk

theorem segFor_binds (nl base : Nat) (ves : List (String × ExprNode))
    (hbase : nl ≤ base) :
    segFor nl ves (ves.enum.map fun p => (p.2.1, base + p.1)) := by
  constructor
  · rw [List.map_map]
    have h2 : (Prod.fst ∘ fun p : Nat × (String × ExprNode) => (p.2.1, base + p.1)) =
        (Prod.fst ∘ Prod.snd) := rfl
    rw [h2, ← List.map_map, List.enum_map_snd]
  · intro p hp
    rcases List.mem_map.mp hp with ⟨q, hq, rfl⟩
    exact Nat.le_trans hbase (Nat.le_add_right _ _)

theorem segFor_length (nl : Nat) (ves : List (String × ExprNode)) (seg : Env)
    (h : segFor nl ves seg) : seg.length = ves.length := by
  have := congrArg List.length h.1
  simpa using this

theorem segFor_relocEnv (nl : Nat) (ves : List (String × ExprNode)) (seg : Env)
    (ρ : Nat → Nat) (h : segFor nl ves seg) (hρ : ∀ j, nl ≤ j → nl ≤ ρ j) :
    segFor nl ves (relocEnv ρ seg) := by
  constructor
  · have h2 : (Prod.fst ∘ fun p : String × Nat => (p.1, ρ p.2)) = Prod.fst := rfl
    rw [relocEnv, List.map_map, h2]
    exact h.1
  · intro p hp
    rcases List.mem_map.mp hp with ⟨q, hq, rfl⟩
    exact hρ q.2 (h.2 q hq)

theorem envSeg_relocEnv (nl : Nat) (lv : List (List (String × ExprNode))) :
    ∀ (env : Env) (ρ : Nat → Nat), envSeg nl env lv → (∀ j, nl ≤ j → nl ≤ ρ j) →
      envSeg nl (relocEnv ρ env) lv := by
  induction lv with
  | nil =>
    intro env ρ _ _
    trivial
  | cons v rest ih =>
    intro env ρ hseg hρ
    rcases hseg with ⟨pre, seg, rfl, hsf, hpre⟩
    exact ⟨relocEnv ρ pre, relocEnv ρ seg, relocEnv_append ρ pre seg,
      segFor_relocEnv nl v seg ρ hsf hρ, ih pre ρ hpre hρ⟩

theorem envSeg_take (nl : Nat) (env : Env) (ves : List (String × ExprNode))
    (lv : List (List (String × ExprNode))) (h : envSeg nl env (ves :: lv)) :
    envSeg nl (env.take (env.length - ves.length)) lv := by
  rcases h with ⟨pre, seg, rfl, hsf, hpre⟩
  have hlen : seg.length = ves.length := segFor_length nl ves seg hsf
  have hq : (pre ++ seg).length - ves.length = pre.length := by
    rw [List.length_append, hlen]
    omega
  rw [hq, List.take_left]
  exact hpre


theorem activeLetrec_ne (r : Nat) (l : Layer) (h : l.envRef ≠ r) :
    activeLetrec r l = none := by
  rw [activeLetrec, if_neg h]

theorem activeLetrec_none_of_expr (r : Nat) (l : Layer) (e : ExprNode)
    (he : l.expr = some e) (hne : ∀ ves body, e ≠ .LetrecNode ves body) :
    activeLetrec r l = none := by
  refine activeLetrec_nonLetrec r l ?_
  intro ves body hq
  rw [he] at hq
  injection hq with hq2
  exact hne ves body hq2

theorem activeLetrec_congr2 (r : Nat) (l l' : Layer) (href : l'.envRef = l.envRef)
    (hexpr : l'.expr = l.expr)
    (hpc : ∀ ves body, l.expr = some (.LetrecNode ves body) → (1 ≤ l'.pc ↔ 1 ≤ l.pc)) :
    activeLetrec r l' = activeLetrec r l := by
  rw [activeLetrec, activeLetrec, href, hexpr]
  by_cases hr : l.envRef = r
  · rw [if_pos hr, if_pos hr]
    rcases hq : l.expr with _ | e
    · rfl
    · cases e with
      | LetrecNode ves body =>
        have hiff := hpc ves body hq
        show (if 1 ≤ l'.pc then some ves else none)
          = (if 1 ≤ l.pc then some ves else none)
        by_cases h1 : 1 ≤ l.pc
        · rw [if_pos h1, if_pos (hiff.mpr h1)]
        · rw [if_neg h1, if_neg (fun hx => h1 (hiff.mp hx))]
      | IntegerNode a b => rfl
      | StringNode a b => rfl
      | VariableNode a => rfl
      | LambdaNode a b c => rfl
      | IfNode a b c => rfl
      | SequenceNode a => rfl
      | IntrinsicCallNode a b => rfl
      | ExprCallNode a b c => rfl
      | AtNode a b => rfl
  · rw [if_neg hr, if_neg hr]

theorem stackSegs_tail (nl : Nat) (pool : EnvPool) (a : Layer) (L : List Layer)
    (ha : ∀ r, activeLetrec r a = none)
    (h : stackSegs nl pool (a :: L)) : stackSegs nl pool L := by
  intro l hl
  have h2 := h l (List.mem_cons_of_mem _ hl)
  rwa [activeVes_cons_none _ _ _ (ha l.envRef)] at h2

theorem stackSegs_replace (nl : Nat) (pool : EnvPool) (a a' : Layer) (L : List Layer)
    (href : a'.envRef = a.envRef)
    (hsame : ∀ r, activeLetrec r a' = activeLetrec r a)
    (h : stackSegs nl pool (a :: L)) : stackSegs nl pool (a' :: L) := by
  intro l hl
  rcases List.mem_cons.mp hl with rfl | hl2
  · have h2 := h a (List.mem_cons_self _ _)
    rw [activeVes_cons_congr _ a l L (hsame l.envRef), href]
    exact h2
  · have h2 := h l (List.mem_cons_of_mem _ hl2)
    rwa [activeVes_cons_congr _ a a' L (hsame l.envRef)]

theorem stackSegs_push (nl : Nat) (pool : EnvPool) (c : Layer) (L : List Layer)
    (hc : ∀ r, activeLetrec r c = none)
    (hcEnv : envSeg nl (pool.getD c.envRef []) (activeVes c.envRef L))
    (h : stackSegs nl pool L) : stackSegs nl pool (c :: L) := by
  intro l hl
  rcases List.mem_cons.mp hl with rfl | hl2
  · rwa [activeVes_cons_none _ _ _ (hc l.envRef)]
  · rw [activeVes_cons_none _ _ _ (hc l.envRef)]
    exact h l hl2

theorem stackSegs_pool_append (nl : Nat) (pool : EnvPool) (E : Env) (L : List Layer)
    (hlt : ∀ l ∈ L, l.envRef < pool.length)
    (h : stackSegs nl pool L) : stackSegs nl (pool ++ [E]) L := by
  intro l hl
  rw [List.getD_append _ _ _ _ (hlt l hl)]
  exact h l hl

theorem dropWhile_head_false {p : Layer → Bool} :
    ∀ (L : List Layer) (F : Layer) (surv : List Layer),
      L.dropWhile p = F :: surv → p F = false := by
  intro L
  induction L with
  | nil =>
    intro F surv hd
    cases hd
  | cons a t ih =>
    intro F surv hd
    rw [List.dropWhile_cons] at hd
    by_cases ha : p a = true
    · rw [if_pos ha] at hd
      exact ih F surv hd
    · rw [if_neg ha] at hd
      injection hd with h1 _
      rw [← h1]
      exact Bool.eq_false_iff.mpr ha

theorem frameOf_eq_head_dropWhile :
    ∀ (t : List Layer) (F : Layer) (surv : List Layer),
      t.dropWhile (fun l => !l.frame) = F :: surv → frameOf t = some F.envRef := by
  intro t
  induction t with
  | nil =>
    intro F surv hd
    cases hd
  | cons a t2 ih =>
    intro F surv hd
    rw [List.dropWhile_cons] at hd
    by_cases ha : a.frame
    · rw [if_neg (by simp [ha])] at hd
      injection hd with h1 _
      rw [frameOf, if_pos ha, h1]
    · rw [if_pos (by simp [ha])] at hd
      rw [frameOf, if_neg ha]
      exact ih F surv hd

theorem prefix_refs :
    ∀ (L : List Layer), shareInv L →
      ∀ (F : Layer) (surv : List Layer), L.dropWhile (fun l => !l.frame) = F :: surv →
        ∀ l ∈ L.takeWhile (fun l => !l.frame), l.envRef = F.envRef := by
  intro L
  induction L with
  | nil =>
    intro _ F surv hd
    cases hd
  | cons a t ih =>
    intro hsh F surv hd l hl
    rw [List.dropWhile_cons] at hd
    rw [List.takeWhile_cons] at hl
    by_cases ha : a.frame
    · rw [if_neg (by simp [ha])] at hl
      cases hl
    · rw [if_pos (by simp [ha])] at hd
      rw [if_pos (by simp [ha])] at hl
      rcases List.mem_cons.mp hl with rfl | hl2
      · rcases hsh.1 with h1 | h1
        · exact absurd h1 ha
        · rw [frameOf_eq_head_dropWhile t F surv hd] at h1
          injection h1 with h2
          exact h2.symm
      · exact ih hsh.2 F surv hd l hl2

theorem stackSegs_tco (nl : Nat) (pool : EnvPool) (L : List Layer)
    (hsh : shareInv L) (hnd : frameNodup L) (h : stackSegs nl pool L) :
    stackSegs nl pool ((L.dropWhile (fun l => !l.frame)).tail) := by
  rcases hd : L.dropWhile (fun l => !l.frame) with _ | ⟨F, surv⟩
  · intro l hl
    rw [hd] at hl
    cases hl
  · have hLdec : L = L.takeWhile (fun l => !l.frame) ++ F :: surv := by
      rw [← hd, List.takeWhile_append_dropWhile]
    have hFfr : F.frame = true := by
      have := dropWhile_head_false L F surv hd
      simpa using this
    have htw : ∀ l ∈ L.takeWhile (fun l => !l.frame), l.frame = false := by
      intro l hl
      have := List.mem_takeWhile_imp hl
      simpa using this
    have hshSurv : shareInv surv := by
      have h2 := shareInv_dropWhile (fun l => !l.frame) L hsh
      rw [hd] at h2
      exact h2.2
    have hprefixRef := prefix_refs L hsh F surv hd
    have hsurvRef : ∀ l ∈ surv, l.envRef ≠ F.envRef := by
      intro l hl
      rcases shareInv_backed surv hshSurv l hl with ⟨fl, hflm, hfr, hfe⟩
      have hne : F.envRef ≠ fl.envRef := by
        have hnd2 := hnd
        rw [hLdec] at hnd2
        unfold frameNodup at hnd2
        have hft : (L.takeWhile (fun l => !l.frame)).filter (fun l => l.frame) = [] := by
          refine List.filter_eq_nil.mpr ?_
          intro x hx
          rw [htw x hx]
          simp
        rw [List.filter_append, hft, List.nil_append, List.filter_cons,
          if_pos (by simp [hFfr])] at hnd2
        exact (List.pairwise_cons.mp hnd2).1 fl
          (List.mem_filter.mpr ⟨hflm, by simp [hfr]⟩)
      rw [← hfe]
      exact fun hx => hne hx.symm
    intro l hl
    rw [hd] at hl
    rw [hd]
    have hre := hsurvRef l hl
    have h2 := h l (by
      rw [hLdec]
      exact List.mem_append_right _ (List.mem_cons_of_mem _ hl))
    have hAeq : activeVes l.envRef L = activeVes l.envRef surv := by
      rw [hLdec, activeVes_append]
      rw [activeVes_all_none _ _ (fun x hx =>
        activeLetrec_ne _ x (by
          rw [hprefixRef x hx]
          exact fun hy => hre hy.symm))]
      rw [List.nil_append,
        activeVes_cons_none _ _ _ (activeLetrec_ne _ F (fun hy => hre hy.symm))]
    rw [hAeq] at h2
    exact h2


theorem litsFlat_of_same (s s1 : State) (hh : s1.heap = s.heap)
    (hn : s1.numLiterals = s.numLiterals) (hf : litsFlat s) : litsFlat s1 := by
  intro i hi
  rw [hh]
  exact hf i (hn ▸ hi)

theorem litsFlat_of_append (s : State) (vs : List Value)
    (hle : s.numLiterals ≤ s.heap.length) (hf : litsFlat s) :
    ∀ i < s.numLiterals, valueLocs ((s.heap ++ vs).getD i .VoidV) = [] := by
  intro i hi
  rw [List.getD_append _ _ _ _ (Nat.lt_of_lt_of_le hi hle)]
  exact hf i hi

theorem litsFlat_of_set (s : State) (loc : Nat) (v : Value)
    (hloc : s.numLiterals ≤ loc) (hf : litsFlat s) :
    ∀ i < s.numLiterals, valueLocs ((s.heap.set loc v).getD i .VoidV) = [] := by
  intro i hi
  rw [getD_set_ne _ _ _ _ _ (by omega)]
  exact hf i hi

theorem step_litsFlat (pool : EnvPool) (s : State) (pool1 : EnvPool) (s1 : State)
    (hwf : WF pool s) (hsegs : stackSegs s.numLiterals pool s.stack)
    (hflat : litsFlat s) (h : step pool s = .next pool1 s1) : litsFlat s1 := by
  rcases hs : s.stack with _ | ⟨layer, rest⟩
  · rw [step.eq_def, hs] at h
    exact StepResult.noConfusion h
  rcases he : layer.expr with _ | e
  · rw [step.eq_def, hs] at h
    simp only [he] at h
    exact StepResult.noConfusion h
  rw [step.eq_def, hs] at h
  simp only [he] at h
  cases e with
  | IntegerNode val loc =>
    cases h
    exact litsFlat_of_same s _ rfl rfl hflat
  | StringNode val loc =>
    cases h
    exact litsFlat_of_same s _ rfl rfl hflat
  | VariableNode name =>
    rcases hl : lookup name (layerEnv pool layer) with _ | loc <;> simp only [hl] at h
    · exact StepResult.noConfusion h
    · cases h
      exact litsFlat_of_same s _ rfl rfl hflat
  | LambdaNode varList fv body =>
    cases h
    exact litsFlat_of_append s _ hwf.litsLe hflat
  | LetrecNode ves body =>
    by_cases hrec : 1 < layer.pc ∧ layer.pc ≤ ves.length + 1
    · simp only [if_pos hrec] at h
      rcases hl : lookup (ves.getD (layer.pc - 2) dummyVE).1 (layerEnv pool layer)
        with _ | loc <;> simp only [hl] at h
      · exact StepResult.noConfusion h
      · have h0 : ¬ (layer.pc = 0) := by omega
        simp only [if_neg h0] at h
        have hloc : s.numLiterals ≤ loc := by
          rw [hs] at hsegs
          exact window_lookup_high s.numLiterals pool (layer :: rest) hsegs layer
            (List.mem_cons_self _ _) ves body he (by omega) (layer.pc - 2)
            (by omega) loc hl
        by_cases hle : layer.pc ≤ ves.length
        · simp only [if_pos hle] at h
          cases h
          exact litsFlat_of_set s loc _ hloc hflat
        · simp only [if_neg hle] at h
          by_cases hb : layer.pc = ves.length + 1
          · simp only [if_pos hb] at h
            cases h
            exact litsFlat_of_set s loc _ hloc hflat
          · exact absurd hrec.2 (by omega)
    · simp only [if_neg hrec] at h
      by_cases h0 : layer.pc = 0
      · simp only [if_pos h0] at h
        cases h
        exact litsFlat_of_append s _ hwf.litsLe hflat
      · simp only [if_neg h0] at h
        by_cases hle : layer.pc ≤ ves.length
        · simp only [if_pos hle] at h
          cases h
          exact litsFlat_of_same s _ rfl rfl hflat
        · simp only [if_neg hle] at h
          by_cases hb : layer.pc = ves.length + 1
          · simp only [if_pos hb] at h
            cases h
            exact litsFlat_of_same s _ rfl rfl hflat
          · simp only [if_neg hb] at h
            cases h
            exact litsFlat_of_same s _ rfl rfl hflat
  | IfNode cond branch1 branch2 =>
    by_cases h0 : layer.pc = 0
    · simp only [if_pos h0] at h
      cases h
      exact litsFlat_of_same s _ rfl rfl hflat
    · simp only [if_neg h0] at h
      by_cases h1 : layer.pc = 1
      · simp only [if_pos h1] at h
        rcases hv : s.heap.getD s.resultLoc .VoidV with _ | v | sv | ⟨cenv, cvl, cb⟩ <;>
          simp only [hv] at h
        · exact StepResult.noConfusion h
        · cases h
          exact litsFlat_of_same s _ rfl rfl hflat
        · exact StepResult.noConfusion h
        · exact StepResult.noConfusion h
      · simp only [if_neg h1] at h
        cases h
        exact litsFlat_of_same s _ rfl rfl hflat
  | SequenceNode exprList =>
    by_cases hlt : layer.pc < exprList.length
    · simp only [if_pos hlt] at h
      cases h
      exact litsFlat_of_same s _ rfl rfl hflat
    · simp only [if_neg hlt] at h
      cases h
      exact litsFlat_of_same s _ rfl rfl hflat
  | IntrinsicCallNode intrinsic argList =>
    by_cases hlt : layer.pc < argList.length
    · simp only [if_pos hlt] at h
      cases h
      exact litsFlat_of_same s _ rfl rfl hflat
    · simp only [if_neg hlt] at h
      rcases hc : callIntrinsic s.heap intrinsic
          (if 0 < layer.pc ∧ layer.pc ≤ argList.length
            then layer.localLocs ++ [s.resultLoc] else layer.localLocs)
        with m | v <;> simp only [hc] at h
      · exact StepResult.noConfusion h
      · cases h
        exact litsFlat_of_append s _ hwf.litsLe hflat
  | ExprCallNode tailPos callee argsL =>
    by_cases h0 : layer.pc = 0
    · simp only [if_pos h0] at h
      cases h
      exact litsFlat_of_same s _ rfl rfl hflat
    · simp only [if_neg h0] at h
      by_cases h1 : layer.pc = 1
      · simp only [if_pos h1] at h
        cases h
        exact litsFlat_of_same s _ rfl rfl hflat
      · simp only [if_neg h1] at h
        by_cases hle : layer.pc ≤ argsL.length + 1
        · simp only [if_pos hle] at h
          cases h
          exact litsFlat_of_same s _ rfl rfl hflat
        · simp only [if_neg hle] at h
          by_cases hcall : layer.pc = argsL.length + 2
          · simp only [if_pos hcall] at h
            rcases hv : s.heap.getD
                ((if 2 < layer.pc ∧ layer.pc ≤ argsL.length + 2
                  then layer.localLocs ++ [s.resultLoc] else layer.localLocs).getD 0 0) .VoidV
              with _ | v | sv | ⟨cenv, cvl, cb⟩ <;> simp only [hv] at h
            · exact StepResult.noConfusion h
            · exact StepResult.noConfusion h
            · exact StepResult.noConfusion h
            · by_cases har : (if 2 < layer.pc ∧ layer.pc ≤ argsL.length + 2
                  then layer.localLocs ++ [s.resultLoc] else layer.localLocs).length ≠
                  cvl.length + 1
              · simp only [if_pos har] at h
                exact StepResult.noConfusion h
              · simp only [if_neg har] at h
                by_cases htp : tailPos = true
                · rw [if_pos htp] at h
                  cases h
                  exact litsFlat_of_same s _ rfl rfl hflat
                · rw [if_neg htp] at h
                  cases h
                  exact litsFlat_of_same s _ rfl rfl hflat
          · simp only [if_neg hcall] at h
            cases h
            exact litsFlat_of_same s _ rfl rfl hflat
  | AtNode varName atExpr =>
    by_cases h0 : layer.pc = 0
    · simp only [if_pos h0] at h
      cases h
      exact litsFlat_of_same s _ rfl rfl hflat
    · simp only [if_neg h0] at h
      rcases hv : s.heap.getD s.resultLoc .VoidV with _ | v | sv | ⟨cenv, cvl, cb⟩ <;>
        simp only [hv] at h
      · exact StepResult.noConfusion h
      · exact StepResult.noConfusion h
      · exact StepResult.noConfusion h
      · rcases hl : lookup varName cenv with _ | loc <;> simp only [hl] at h
        · exact StepResult.noConfusion h
        · cases h
          exact litsFlat_of_same s _ rfl rfl hflat


theorem stackSegs_push_replace (nl : Nat) (pool : EnvPool) (a a' c : Layer)
    (L : List Layer)
    (href : a'.envRef = a.envRef) (hcref : c.envRef = a.envRef) (hcpc : c.pc = 0)
    (hsame : ∀ r, activeLetrec r a' = activeLetrec r a)
    (h : stackSegs nl pool (a :: L)) : stackSegs nl pool (c :: a' :: L) := by
  have h2 := stackSegs_replace nl pool a a' L href hsame h
  refine stackSegs_push nl pool c (a' :: L) (fun r => activeLetrec_pc0 r c hcpc) ?_ h2
  have h3 := h2 a' (List.mem_cons_self _ _)
  rw [hcref, ← href]
  exact h3

theorem stackSegs_newframe (nl : Nat) (pool : EnvPool) (E : Env) (c : Layer)
    (L : List Layer)
    (hcref : c.envRef = pool.length) (hcpc : c.pc = 0)
    (hlt : ∀ l ∈ L, l.envRef < pool.length)
    (h : stackSegs nl pool L) : stackSegs nl (pool ++ [E]) (c :: L) := by
  have h2 := stackSegs_pool_append nl pool E L hlt h
  refine stackSegs_push nl (pool ++ [E]) c L (fun r => activeLetrec_pc0 r c hcpc) ?_ h2
  rw [activeVes_all_none _ _ (fun l2 hl2 => activeLetrec_ne _ l2 (by
    have hx := hlt l2 hl2
    rw [hcref]
    omega))]
  trivial

theorem stackSegs_letrec_alloc (nl : Nat) (pool : EnvPool) (a a' : Layer)
    (L : List Layer) (ves : List (String × ExprNode)) (binds : Env)
    (hrlt : a.envRef < pool.length)
    (href : a'.envRef = a.envRef)
    (hact0 : ∀ r, activeLetrec r a = none)
    (hact1 : ∀ r, activeLetrec r a' = if a.envRef = r then some ves else none)
    (hbind : segFor nl ves binds)
    (h : stackSegs nl pool (a :: L)) :
    stackSegs nl (pool.set a.envRef (pool.getD a.envRef [] ++ binds)) (a' :: L) := by
  intro l hl
  rcases List.mem_cons.mp hl with rfl | hl2
  · rw [activeVes_cons_some _ _ _ _ (by rw [hact1 l.envRef, if_pos href.symm])]
    rw [href, getD_set_self _ _ _ _ hrlt]
    have h2 := h a (List.mem_cons_self _ _)
    rw [activeVes_cons_none _ _ _ (hact0 a.envRef)] at h2
    exact ⟨pool.getD a.envRef [], binds, rfl, hbind, h2⟩
  · have h2 := h l (List.mem_cons_of_mem _ hl2)
    rw [activeVes_cons_none _ _ _ (hact0 l.envRef)] at h2
    by_cases hq : l.envRef = a.envRef
    · rw [activeVes_cons_some _ _ _ _ (by rw [hact1 l.envRef, if_pos hq.symm])]
      rw [hq, getD_set_self _ _ _ _ hrlt]
      rw [hq] at h2
      exact ⟨pool.getD a.envRef [], binds, rfl, hbind, h2⟩
    · rw [activeVes_cons_none _ _ _ (by rw [hact1 l.envRef, if_neg (fun hx => hq hx.symm)])]
      rw [getD_set_ne _ _ _ _ _ (fun hx => hq hx.symm)]
      exact h2

theorem stackSegs_letrec_pop (nl : Nat) (pool : EnvPool) (a : Layer) (L : List Layer)
    (ves : List (String × ExprNode))
    (hrlt : a.envRef < pool.length)
    (hact : activeLetrec a.envRef a = some ves)
    (hactr : ∀ r, r ≠ a.envRef → activeLetrec r a = none)
    (h : stackSegs nl pool (a :: L)) :
    stackSegs nl
      (pool.set a.envRef
        ((pool.getD a.envRef []).take ((pool.getD a.envRef []).length - ves.length)))
      L := by
  intro l hl
  have h2 := h l (List.mem_cons_of_mem _ hl)
  by_cases hq : l.envRef = a.envRef
  · rw [hq] at h2 ⊢
    rw [activeVes_cons_some _ _ _ _ hact] at h2
    rw [getD_set_self _ _ _ _ hrlt]
    exact envSeg_take nl _ ves _ h2
  · rw [activeVes_cons_none _ _ _ (hactr l.envRef hq)] at h2
    rw [getD_set_ne _ _ _ _ _ (fun hx => hq hx.symm)]
    exact h2

theorem step_segs (pool : EnvPool) (s : State) (pool1 : EnvPool) (s1 : State)
    (hwf : WF pool s) (hsegs : stackSegs s.numLiterals pool s.stack)
    (h : step pool s = .next pool1 s1) : stackSegs s1.numLiterals pool1 s1.stack := by
  rcases hs : s.stack with _ | ⟨layer, rest⟩
  · rw [step.eq_def, hs] at h
    exact StepResult.noConfusion h
  rw [hs] at hsegs
  have hlayer := hwf.stackOK layer (by rw [hs]; exact List.mem_cons_self _ _)
  rcases he : layer.expr with _ | e
  · rw [step.eq_def, hs] at h
    simp only [he] at h
    exact StepResult.noConfusion h
  rw [step.eq_def, hs] at h
  simp only [he] at h
  cases e with
  | IntegerNode val loc =>
    cases h
    exact stackSegs_tail s.numLiterals pool layer rest
      (fun r => activeLetrec_none_of_expr r layer _ he
        (fun _ _ hq => ExprNode.noConfusion hq)) hsegs
  | StringNode val loc =>
    cases h
    exact stackSegs_tail s.numLiterals pool layer rest
      (fun r => activeLetrec_none_of_expr r layer _ he
        (fun _ _ hq => ExprNode.noConfusion hq)) hsegs
  | VariableNode name =>
    rcases hl : lookup name (layerEnv pool layer) with _ | loc <;> simp only [hl] at h
    · exact StepResult.noConfusion h
    · cases h
      exact stackSegs_tail s.numLiterals pool layer rest
        (fun r => activeLetrec_none_of_expr r layer _ he
          (fun _ _ hq => ExprNode.noConfusion hq)) hsegs
  | LambdaNode varList fv body =>
    cases h
    exact stackSegs_tail s.numLiterals pool layer rest
      (fun r => activeLetrec_none_of_expr r layer _ he
        (fun _ _ hq => ExprNode.noConfusion hq)) hsegs
  | LetrecNode ves body =>
    by_cases hrec : 1 < layer.pc ∧ layer.pc ≤ ves.length + 1
    · simp only [if_pos hrec] at h
      rcases hl : lookup (ves.getD (layer.pc - 2) dummyVE).1 (layerEnv pool layer)
        with _ | loc <;> simp only [hl] at h
      · exact StepResult.noConfusion h
      · have h0 : ¬ (layer.pc = 0) := by omega
        simp only [if_neg h0] at h
        by_cases hle : layer.pc ≤ ves.length
        · simp only [if_pos hle] at h
          cases h
          refine stackSegs_push_replace s.numLiterals pool layer _ _ rest rfl rfl rfl ?_ hsegs
          intro r
          refine activeLetrec_congr2 r layer _ rfl he.symm ?_
          intro ves2 body2 hq
          show 1 ≤ layer.pc + 1 ↔ 1 ≤ layer.pc
          omega
        · simp only [if_neg hle] at h
          by_cases hb : layer.pc = ves.length + 1
          · simp only [if_pos hb] at h
            cases h
            refine stackSegs_push_replace s.numLiterals pool layer _ _ rest rfl rfl rfl ?_ hsegs
            intro r
            refine activeLetrec_congr2 r layer _ rfl he.symm ?_
            intro ves2 body2 hq
            show 1 ≤ layer.pc + 1 ↔ 1 ≤ layer.pc
            omega
          · exact absurd hrec.2 (by omega)
    · simp only [if_neg hrec] at h
      by_cases h0 : layer.pc = 0
      · simp only [if_pos h0] at h
        cases h
        refine stackSegs_letrec_alloc s.numLiterals pool layer _ rest ves _
          hlayer.2.1 rfl (fun r => activeLetrec_pc0 r layer h0) ?_ ?_ hsegs
        · intro r
          rw [activeLetrec]
          by_cases hr : layer.envRef = r
          · rw [if_pos hr, if_pos hr]
            simp [he]
          · rw [if_neg hr, if_neg hr]
        · exact segFor_binds s.numLiterals s.heap.length ves hwf.litsLe
      · simp only [if_neg h0] at h
        by_cases hle : layer.pc ≤ ves.length
        · simp only [if_pos hle] at h
          cases h
          refine stackSegs_push_replace s.numLiterals pool layer _ _ rest rfl rfl rfl ?_ hsegs
          intro r
          refine activeLetrec_congr2 r layer _ rfl he.symm ?_
          intro ves2 body2 hq
          show 1 ≤ layer.pc + 1 ↔ 1 ≤ layer.pc
          omega
        · simp only [if_neg hle] at h
          by_cases hb : layer.pc = ves.length + 1
          · simp only [if_pos hb] at h
            cases h
            refine stackSegs_push_replace s.numLiterals pool layer _ _ rest rfl rfl rfl ?_ hsegs
            intro r
            refine activeLetrec_congr2 r layer _ rfl he.symm ?_
            intro ves2 body2 hq
            show 1 ≤ layer.pc + 1 ↔ 1 ≤ layer.pc
            omega
          · simp only [if_neg hb] at h
            cases h
            refine stackSegs_letrec_pop s.numLiterals pool layer rest ves
              hlayer.2.1 ?_ ?_ hsegs
            · rw [activeLetrec, if_pos rfl]
              simp only [he]
              rw [if_pos (show 1 ≤ layer.pc by omega)]
            · intro r hr
              exact activeLetrec_ne r layer (fun hx => hr hx.symm)
  | IfNode cond branch1 branch2 =>
    by_cases h0 : layer.pc = 0
    · simp only [if_pos h0] at h
      cases h
      refine stackSegs_push_replace s.numLiterals pool layer _ _ rest rfl rfl rfl ?_ hsegs
      intro r
      refine activeLetrec_congr2 r layer _ rfl he.symm ?_
      intro ves2 body2 hq
      rw [he] at hq
      injection hq with hq2
      exact ExprNode.noConfusion hq2
    · simp only [if_neg h0] at h
      by_cases h1 : layer.pc = 1
      · simp only [if_pos h1] at h
        rcases hv : s.heap.getD s.resultLoc .VoidV with _ | v | sv | ⟨cenv, cvl, cb⟩ <;>
          simp only [hv] at h
        · exact StepResult.noConfusion h
        · cases h
          refine stackSegs_push_replace s.numLiterals pool layer _ _ rest rfl rfl rfl ?_ hsegs
          intro r
          refine activeLetrec_congr2 r layer _ rfl he.symm ?_
          intro ves2 body2 hq
          rw [he] at hq
          injection hq with hq2
          exact ExprNode.noConfusion hq2
        · exact StepResult.noConfusion h
        · exact StepResult.noConfusion h
      · simp only [if_neg h1] at h
        cases h
        exact stackSegs_tail s.numLiterals pool layer rest
          (fun r => activeLetrec_none_of_expr r layer _ he
            (fun _ _ hq => ExprNode.noConfusion hq)) hsegs
  | SequenceNode exprList =>
    by_cases hlt : layer.pc < exprList.length
    · simp only [if_pos hlt] at h
      cases h
      refine stackSegs_push_replace s.numLiterals pool layer _ _ rest rfl rfl rfl ?_ hsegs
      intro r
      refine activeLetrec_congr2 r layer _ rfl he.symm ?_
      intro ves2 body2 hq
      rw [he] at hq
      injection hq with hq2
      exact ExprNode.noConfusion hq2
    · simp only [if_neg hlt] at h
      cases h
      exact stackSegs_tail s.numLiterals pool layer rest
        (fun r => activeLetrec_none_of_expr r layer _ he
          (fun _ _ hq => ExprNode.noConfusion hq)) hsegs
  | IntrinsicCallNode intrinsic argList =>
    by_cases hlt : layer.pc < argList.length
    · simp only [if_pos hlt] at h
      cases h
      refine stackSegs_push_replace s.numLiterals pool layer _ _ rest rfl rfl rfl ?_ hsegs
      intro r
      refine activeLetrec_congr2 r layer _ rfl he.symm ?_
      intro ves2 body2 hq
      rw [he] at hq
      injection hq with hq2
      exact ExprNode.noConfusion hq2
    · simp only [if_neg hlt] at h
      rcases hc : callIntrinsic s.heap intrinsic
          (if 0 < layer.pc ∧ layer.pc ≤ argList.length
            then layer.localLocs ++ [s.resultLoc] else layer.localLocs)
        with m | v <;> simp only [hc] at h
      · exact StepResult.noConfusion h
      · cases h
        exact stackSegs_tail s.numLiterals pool layer rest
          (fun r => activeLetrec_none_of_expr r layer _ he
            (fun _ _ hq => ExprNode.noConfusion hq)) hsegs
  | ExprCallNode tailPos callee argsL =>
    have hshS : shareInv (layer :: rest) := by
      have h2 := hwf.share
      rwa [hs] at h2
    have hndS : frameNodup (layer :: rest) := by
      have h2 := hwf.frameNodup
      rw [hs] at h2
      exact h2
    by_cases h0 : layer.pc = 0
    · simp only [if_pos h0] at h
      cases h
      refine stackSegs_push_replace s.numLiterals pool layer _ _ rest rfl rfl rfl ?_ hsegs
      intro r
      refine activeLetrec_congr2 r layer _ rfl he.symm ?_
      intro ves2 body2 hq
      rw [he] at hq
      injection hq with hq2
      exact ExprNode.noConfusion hq2
    · simp only [if_neg h0] at h
      by_cases h1 : layer.pc = 1
      · simp only [if_pos h1] at h
        cases h
        refine stackSegs_replace s.numLiterals pool layer _ rest rfl ?_ hsegs
        intro r
        refine activeLetrec_congr2 r layer _ rfl he.symm ?_
        intro ves2 body2 hq
        rw [he] at hq
        injection hq with hq2
        exact ExprNode.noConfusion hq2
      · simp only [if_neg h1] at h
        by_cases hle : layer.pc ≤ argsL.length + 1
        · simp only [if_pos hle] at h
          cases h
          refine stackSegs_push_replace s.numLiterals pool layer _ _ rest rfl rfl rfl ?_ hsegs
          intro r
          refine activeLetrec_congr2 r layer _ rfl he.symm ?_
          intro ves2 body2 hq
          rw [he] at hq
          injection hq with hq2
          exact ExprNode.noConfusion hq2
        · simp only [if_neg hle] at h
          by_cases hcall : layer.pc = argsL.length + 2
          · simp only [if_pos hcall] at h
            rcases hv : s.heap.getD
                ((if 2 < layer.pc ∧ layer.pc ≤ argsL.length + 2
                  then layer.localLocs ++ [s.resultLoc] else layer.localLocs).getD 0 0) .VoidV
              with _ | v | sv | ⟨cenv, cvl, cb⟩ <;> simp only [hv] at h
            · exact StepResult.noConfusion h
            · exact StepResult.noConfusion h
            · exact StepResult.noConfusion h
            · by_cases har : (if 2 < layer.pc ∧ layer.pc ≤ argsL.length + 2
                  then layer.localLocs ++ [s.resultLoc] else layer.localLocs).length ≠
                  cvl.length + 1
              · simp only [if_pos har] at h
                exact StepResult.noConfusion h
              · simp only [if_neg har] at h
                by_cases htp : tailPos = true
                · rw [if_pos htp] at h
                  cases h
                  refine stackSegs_newframe s.numLiterals pool _ _ _ rfl rfl ?_
                    (stackSegs_tco s.numLiterals pool _
                      (shareInv_replace_head layer _ rest rfl rfl hshS)
                      (frameNodup_replace_head layer _ rest rfl rfl hndS)
                      (stackSegs_replace s.numLiterals pool layer _ rest rfl ?_ hsegs))
                  · intro l hl
                    have hl4 :=
                      ((List.tail_sublist _).trans (List.dropWhile_sublist _)).subset hl
                    rcases List.mem_cons.mp hl4 with rfl | hl5
                    · exact hlayer.2.1
                    · exact (hwf.stackOK l
                        (by rw [hs]; exact List.mem_cons_of_mem _ hl5)).2.1
                  · intro r
                    refine activeLetrec_congr2 r layer _ rfl he.symm ?_
                    intro ves2 body2 hq
                    rw [he] at hq
                    injection hq with hq2
                    exact ExprNode.noConfusion hq2
                · rw [if_neg htp] at h
                  cases h
                  refine stackSegs_newframe s.numLiterals pool _ _ _ rfl rfl ?_
                    (stackSegs_replace s.numLiterals pool layer _ rest rfl ?_ hsegs)
                  · intro l hl
                    rcases List.mem_cons.mp hl with rfl | hl5
                    · exact hlayer.2.1
                    · exact (hwf.stackOK l
                        (by rw [hs]; exact List.mem_cons_of_mem _ hl5)).2.1
                  · intro r
                    refine activeLetrec_congr2 r layer _ rfl he.symm ?_
                    intro ves2 body2 hq
                    rw [he] at hq
                    injection hq with hq2
                    exact ExprNode.noConfusion hq2
          · simp only [if_neg hcall] at h
            cases h
            exact stackSegs_tail s.numLiterals pool layer rest
              (fun r => activeLetrec_none_of_expr r layer _ he
                (fun _ _ hq => ExprNode.noConfusion hq)) hsegs
  | AtNode varName atExpr =>
    by_cases h0 : layer.pc = 0
    · simp only [if_pos h0] at h
      cases h
      refine stackSegs_push_replace s.numLiterals pool layer _ _ rest rfl rfl rfl ?_ hsegs
      intro r
      refine activeLetrec_congr2 r layer _ rfl he.symm ?_
      intro ves2 body2 hq
      rw [he] at hq
      injection hq with hq2
      exact ExprNode.noConfusion hq2
    · simp only [if_neg h0] at h
      rcases hv : s.heap.getD s.resultLoc .VoidV with _ | v | sv | ⟨cenv, cvl, cb⟩ <;>
        simp only [hv] at h
      · exact StepResult.noConfusion h
      · exact StepResult.noConfusion h
      · exact StepResult.noConfusion h
      · rcases hl : lookup varName cenv with _ | loc <;> simp only [hl] at h
        · exact StepResult.noConfusion h
        · cases h
          exact stackSegs_tail s.numLiterals pool layer rest
            (fun r => activeLetrec_none_of_expr r layer _ he
              (fun _ _ hq => ExprNode.noConfusion hq)) hsegs


theorem mem_markExpand (heap : List Value) (v : List Nat) (x : Nat) :
    x ∈ markExpand heap v ↔
      ∃ l ∈ v, x = l ∨ x ∈ valueLocs (heap.getD l .VoidV) := by
  rw [markExpand, List.mem_dedup, List.mem_flatMap]
  constructor
  · rintro ⟨l, hl, hx⟩
    rcases List.mem_cons.mp hx with rfl | hx2
    · exact ⟨x, hl, Or.inl rfl⟩
    · exact ⟨l, hl, Or.inr hx2⟩
  · rintro ⟨l, hl, rfl | hx2⟩
    · exact ⟨x, hl, List.mem_cons_self _ _⟩
    · exact ⟨l, hl, List.mem_cons_of_mem _ hx2⟩

theorem subset_markExpand (heap : List Value) (v : List Nat) :
    ∀ x ∈ v, x ∈ markExpand heap v := by
  intro x hx
  exact (mem_markExpand heap v x).mpr ⟨x, hx, Or.inl rfl⟩

theorem markExpand_congr (heap : List Value) (v w : List Nat)
    (hvw : ∀ x ∈ v, x ∈ w) : ∀ x ∈ markExpand heap v, x ∈ markExpand heap w := by
  intro x hx
  rcases (mem_markExpand heap v x).mp hx with ⟨l, hl, hor⟩
  exact (mem_markExpand heap w x).mpr ⟨l, hvw l hl, hor⟩

theorem iterate_subset_succ (heap : List Value) (v : List Nat) (k : Nat) :
    ∀ x ∈ (markExpand heap)^[k] v, x ∈ (markExpand heap)^[k + 1] v := by
  rw [Function.iterate_succ_apply']
  exact subset_markExpand heap _

theorem iterate_subset_le (heap : List Value) (v : List Nat) (j : Nat) :
    ∀ (k : Nat), j ≤ k →
      ∀ x ∈ (markExpand heap)^[j] v, x ∈ (markExpand heap)^[k] v := by
  intro k
  induction k with
  | zero =>
    intro hjk x hx
    have : j = 0 := by omega
    subst this
    exact hx
  | succ k ih =>
    intro hjk x hx
    by_cases hj : j = k + 1
    · subst hj
      exact hx
    · exact iterate_subset_succ heap v k x (ih (by omega) x hx)

theorem iterate_stable (heap : List Value) (v : List Nat) (k : Nat)
    (hfix : ∀ x ∈ (markExpand heap)^[k + 1] v, x ∈ (markExpand heap)^[k] v) :
    ∀ m, ∀ x ∈ (markExpand heap)^[k + m] v, x ∈ (markExpand heap)^[k] v := by
  intro m
  induction m with
  | zero => exact fun x hx => hx
  | succ m ih =>
    intro x hx
    rw [show k + (m + 1) = (k + m) + 1 by omega] at hx
    rw [Function.iterate_succ_apply'] at hx
    have h3 := markExpand_congr heap _ _ ih x hx
    have h4 : x ∈ (markExpand heap)^[k + 1] v := by
      rw [Function.iterate_succ_apply']
      exact h3
    exact hfix x h4

theorem iterate_bounded (heap : List Value) (v : List Nat)
    (hv : ∀ x ∈ v, x < heap.length)
    (hheap : ∀ l : Nat, ∀ x ∈ valueLocs (heap.getD l .VoidV), x < heap.length) :
    ∀ k, ∀ x ∈ (markExpand heap)^[k] v, x < heap.length := by
  intro k
  induction k with
  | zero => exact hv
  | succ k ih =>
    intro x hx
    rw [Function.iterate_succ_apply'] at hx
    rcases (mem_markExpand heap _ x).mp hx with ⟨l, hl, rfl | hx2⟩
    · exact ih _ hl
    · exact hheap l x hx2

theorem fix_exists (heap : List Value) (v : List Nat)
    (hv : ∀ x ∈ v, x < heap.length)
    (hheap : ∀ l : Nat, ∀ x ∈ valueLocs (heap.getD l .VoidV), x < heap.length) :
    ∃ k ≤ heap.length,
      ∀ x ∈ (markExpand heap)^[k + 1] v, x ∈ (markExpand heap)^[k] v := by
  by_contra hcon
  push_neg at hcon
  have hcard : ∀ k, k ≤ heap.length + 1 →
      k ≤ ((markExpand heap)^[k] v).toFinset.card := by
    intro k
    induction k with
    | zero => exact fun _ => Nat.zero_le _
    | succ k ih =>
      intro hk
      rcases hcon k (by omega) with ⟨x, hx1, hx2⟩
      have hss : ((markExpand heap)^[k] v).toFinset ⊂
          ((markExpand heap)^[k + 1] v).toFinset := by
        rw [Finset.ssubset_def]
        constructor
        · intro y hy
          exact List.mem_toFinset.mpr
            (iterate_subset_succ heap v k y (List.mem_toFinset.mp hy))
        · intro hsub
          exact hx2 (List.mem_toFinset.mp (hsub (List.mem_toFinset.mpr hx1)))
      have h3 := Finset.card_lt_card hss
      have h4 := ih (by omega)
      omega
  have h5 := hcard (heap.length + 1) (le_refl _)
  have h6 : ((markExpand heap)^[heap.length + 1] v).toFinset ⊆
      Finset.range heap.length := by
    intro y hy
    exact Finset.mem_range.mpr
      (iterate_bounded heap v hv hheap _ y (List.mem_toFinset.mp hy))
  have h7 := Finset.card_le_card h6
  rw [Finset.card_range] at h7
  omega

theorem markRoots_lt (pool : EnvPool) (s : State) (hwf : WF pool s) :
    ∀ x ∈ markRoots pool s, x < s.heap.length := by
  intro x hx
  rw [markRoots, List.mem_append] at hx
  rcases hx with hx | hx
  · rw [List.mem_flatMap] at hx
    rcases hx with ⟨layer, hlayer, hx2⟩
    rw [List.mem_append] at hx2
    rcases hx2 with hx3 | hx3
    · by_cases hf : layer.frame
      · rw [if_pos hf] at hx3
        rcases List.mem_map.mp hx3 with ⟨p, hp, rfl⟩
        exact hwf.poolOK layer hlayer p hp
      · rw [if_neg hf] at hx3
        cases hx3
    · exact (hwf.stackOK layer hlayer).1 x hx3
  · rw [List.mem_singleton] at hx
    exact hx ▸ hwf.resOK

theorem valueLocs_bound (pool : EnvPool) (s : State) (hwf : WF pool s) :
    ∀ l : Nat, ∀ x ∈ valueLocs (s.heap.getD l .VoidV), x < s.heap.length := by
  intro l x hx
  by_cases hl : l < s.heap.length
  · exact valueLocs_lt_of_valueOK s.heap.length s.numLiterals _
      (hwf.heapOK _ (mem_of_getD s.heap l .VoidV hl)) x hx
  · rw [List.getD_eq_default s.heap .VoidV (Nat.le_of_not_lt hl)] at hx
    cases hx

theorem markRoots_subset_mark (pool : EnvPool) (s : State) :
    ∀ x ∈ markRoots pool s, x ∈ mark pool s := by
  intro x hx
  rw [mark]
  exact iterate_subset_le s.heap (markRoots pool s) 0 _ (Nat.zero_le _) x hx

theorem mark_closed (pool : EnvPool) (s : State) (hwf : WF pool s) :
    ∀ l ∈ mark pool s, ∀ x ∈ valueLocs (s.heap.getD l .VoidV), x ∈ mark pool s := by
  have hv := markRoots_lt pool s hwf
  have hh := valueLocs_bound pool s hwf
  rcases fix_exists s.heap (markRoots pool s) hv hh with ⟨k, hk, hfix⟩
  intro l hl x hx
  rw [mark] at hl ⊢
  have hN : k ≤ s.heap.length + (markRoots pool s).length + 1 := by omega
  have hl2 := iterate_stable s.heap (markRoots pool s) k hfix
    (s.heap.length + (markRoots pool s).length + 1 - k)
    l (by rw [show k + (s.heap.length + (markRoots pool s).length + 1 - k)
        = s.heap.length + (markRoots pool s).length + 1 by omega]; exact hl)
  have hx2 : x ∈ markExpand s.heap ((markExpand s.heap)^[k] (markRoots pool s)) :=
    (mem_markExpand _ _ x).mpr ⟨l, hl2, Or.inr hx⟩
  have hx2b : x ∈ (markExpand s.heap)^[k + 1] (markRoots pool s) := by
    rw [Function.iterate_succ_apply']
    exact hx2
  have hx3 := hfix x hx2b
  exact iterate_subset_le s.heap (markRoots pool s) k _ hN x hx3

theorem mark_bounded (pool : EnvPool) (s : State) (hwf : WF pool s) :
    ∀ x ∈ mark pool s, x < s.heap.length := by
  intro x hx
  rw [mark] at hx
  exact iterate_bounded s.heap (markRoots pool s) (markRoots_lt pool s hwf)
    (valueLocs_bound pool s hwf) _ x hx


theorem mapValue_comp (f g : Nat → Nat) (v : Value) :
    mapValue f (relocValue g v) = mapValue (fun l => f (g l)) v := by
  cases v with
  | ClosureV env varList body =>
    show Value.ClosureV (relocEnv f (relocEnv g env)) _ _ = Value.ClosureV _ _ _
    rw [relocEnv_comp]
  | VoidV => rfl
  | IntegerV v => rfl
  | StringV v => rfl

theorem valueLocs_relocValue (ρ : Nat → Nat) (v : Value) :
    valueLocs (relocValue ρ v) = (valueLocs v).map ρ := by
  cases v with
  | ClosureV env varList body =>
    show (relocEnv ρ env).map (fun x => x.2) = (env.map (fun x => x.2)).map ρ
    rw [relocEnv, List.map_map, List.map_map]
    rfl
  | VoidV => rfl
  | IntegerV v => rfl
  | StringV v => rfl

theorem mem_drop_range (hl nl j : Nat) :
    j ∈ (List.range hl).drop nl ↔ nl ≤ j ∧ j < hl := by
  constructor
  · intro hj
    rcases List.mem_iff_getElem.mp hj with ⟨i, hi, hij⟩
    rw [List.getElem_drop, List.getElem_range] at hij
    have hlen := hi
    rw [List.length_drop, List.length_range] at hlen
    omega
  · intro hj
    refine List.mem_iff_getElem.mpr ⟨j - nl, ?_, ?_⟩
    · rw [List.length_drop, List.length_range]
      omega
    · rw [List.getElem_drop, List.getElem_range]
      omega

theorem mem_keepList (visited : List Nat) (nl hl j : Nat) :
    j ∈ keepList visited nl hl ↔ nl ≤ j ∧ j < hl ∧ j ∈ visited := by
  rw [keepList, List.mem_filter, mem_drop_range]
  simp [and_assoc]

theorem keepList_nodup (visited : List Nat) (nl hl : Nat) :
    (keepList visited nl hl).Nodup := by
  rw [keepList]
  exact (List.filter_sublist _).nodup ((List.drop_sublist _ _).nodup (List.nodup_range hl))

theorem relocOf_of_not_mem (visited : List Nat) (nl hl j : Nat)
    (h : j ∉ keepList visited nl hl) : relocOf visited nl hl j = j := by
  rw [relocOf]
  have hnone : (keepList visited nl hl).findIdx? (fun x => x = j) = none := by
    rw [List.findIdx?_eq_none_iff]
    intro x hx
    simp only [decide_eq_false_iff_not]
    intro he
    exact h (he ▸ hx)
  rw [hnone]

theorem relocOf_lit (visited : List Nat) (nl hl j : Nat) (h : j < nl) :
    relocOf visited nl hl j = j := by
  refine relocOf_of_not_mem visited nl hl j ?_
  intro hmem
  have h2 := (mem_keepList visited nl hl j).mp hmem
  omega

theorem relocOf_mem (visited : List Nat) (nl hl j : Nat)
    (h : j ∈ keepList visited nl hl) :
    ∃ k, k < (keepList visited nl hl).length ∧
      relocOf visited nl hl j = nl + k ∧ (keepList visited nl hl).getD k 0 = j := by
  rcases hfi : (keepList visited nl hl).findIdx? (fun x => x = j) with _ | k
  · rw [List.findIdx?_eq_none_iff] at hfi
    have h2 := hfi j h
    simp at h2
  · rcases List.findIdx?_eq_some_iff_getElem.mp hfi with ⟨hk, hpk, _⟩
    refine ⟨k, hk, ?_, ?_⟩
    · rw [relocOf, hfi]
    · have h3 : (keepList visited nl hl)[k] = j := by simpa using hpk
      rw [List.getD_eq_getElem _ _ hk]
      exact h3

theorem unreloc_relocOf (visited : List Nat) (nl hl j : Nat)
    (hj : j < nl ∨ j ∈ keepList visited nl hl) :
    unreloc (keepList visited nl hl) nl (relocOf visited nl hl j) = j := by
  rcases hj with hj | hj
  · rw [relocOf_lit visited nl hl j hj, unreloc, if_pos hj]
  · rcases relocOf_mem visited nl hl j hj with ⟨k, hk, hrel, hget⟩
    rw [hrel, unreloc, if_neg (by omega)]
    rw [show nl + k - nl = k by omega]
    exact hget

theorem relocOf_lt (visited : List Nat) (nl hl j : Nat)
    (hj : j < nl ∨ j ∈ keepList visited nl hl) :
    relocOf visited nl hl j < nl + (keepList visited nl hl).length := by
  rcases hj with hj | hj
  · rw [relocOf_lit visited nl hl j hj]
    omega
  · rcases relocOf_mem visited nl hl j hj with ⟨k, hk, hrel, _⟩
    omega

theorem relocOf_high (visited : List Nat) (nl hl j : Nat) (h : nl ≤ j) :
    nl ≤ relocOf visited nl hl j := by
  rw [relocOf]
  rcases hfi : (keepList visited nl hl).findIdx? (fun x => x = j) with _ | k
  · exact h
  · exact Nat.le_add_right nl k

theorem unreloc_lt (keep : List Nat) (nl hl : Nat) (l : Nat)
    (hnl : nl ≤ hl) (hkeep : ∀ j ∈ keep, j < hl)
    (hl2 : l < nl + keep.length) : unreloc keep nl l < hl := by
  rw [unreloc]
  by_cases hc : l < nl
  · rw [if_pos hc]
    omega
  · rw [if_neg hc]
    have hidx : l - nl < keep.length := by omega
    have hmem : keep.getD (l - nl) 0 ∈ keep := by
      rw [List.getD_eq_getElem _ _ hidx]
      exact List.getElem_mem hidx
    exact hkeep _ hmem

theorem unreloc_inj (keep : List Nat) (nl : Nat)
    (hnd : keep.Nodup) (hhigh : ∀ j ∈ keep, nl ≤ j) :
    ∀ l1 < nl + keep.length, ∀ l2 < nl + keep.length,
      unreloc keep nl l1 = unreloc keep nl l2 → l1 = l2 := by
  intro l1 h1 l2 h2 heq
  rw [unreloc, unreloc] at heq
  by_cases hc1 : l1 < nl <;> by_cases hc2 : l2 < nl
  · rw [if_pos hc1, if_pos hc2] at heq
    exact heq
  · rw [if_pos hc1, if_neg hc2] at heq
    have hidx : l2 - nl < keep.length := by omega
    have hmem : keep.getD (l2 - nl) 0 ∈ keep := by
      rw [List.getD_eq_getElem _ _ hidx]
      exact List.getElem_mem hidx
    have h3 := hhigh _ hmem
    omega
  · rw [if_neg hc1, if_pos hc2] at heq
    have hidx : l1 - nl < keep.length := by omega
    have hmem : keep.getD (l1 - nl) 0 ∈ keep := by
      rw [List.getD_eq_getElem _ _ hidx]
      exact List.getElem_mem hidx
    have h3 := hhigh _ hmem
    omega
  · rw [if_neg hc1, if_neg hc2] at heq
    have hidx1 : l1 - nl < keep.length := by omega
    have hidx2 : l2 - nl < keep.length := by omega
    rw [List.getD_eq_getElem _ _ hidx1, List.getD_eq_getElem _ _ hidx2] at heq
    have h3 := (List.Nodup.getElem_inj_iff hnd).mp heq
    omega

theorem sweepAndCompact_length (visited : List Nat) (nl : Nat) (heap : List Value)
    (hnl : nl ≤ heap.length) :
    (sweepAndCompact visited nl heap).length =
      nl + (keepList visited nl heap.length).length := by
  rw [sweepAndCompact, List.length_append, List.length_take, List.length_map]
  omega

theorem sweepAndCompact_getD_low (visited : List Nat) (nl : Nat) (heap : List Value)
    (hnl : nl ≤ heap.length) (l : Nat) (hl2 : l < nl) :
    (sweepAndCompact visited nl heap).getD l .VoidV = heap.getD l .VoidV := by
  rw [sweepAndCompact]
  rw [List.getD_append _ _ _ _ (by rw [List.length_take]; omega)]
  have hlt : l < heap.length := by omega
  rw [List.getD_eq_getElem _ _ (by rw [List.length_take]; omega),
    List.getD_eq_getElem _ _ hlt]
  exact List.getElem_take heap

theorem sweepAndCompact_getD_high (visited : List Nat) (nl : Nat) (heap : List Value)
    (hnl : nl ≤ heap.length) (k : Nat) (hk : k < (keepList visited nl heap.length).length) :
    (sweepAndCompact visited nl heap).getD (nl + k) .VoidV =
      heap.getD ((keepList visited nl heap.length).getD k 0) .VoidV := by
  rw [sweepAndCompact]
  rw [List.getD_append_right _ _ _ _ (by rw [List.length_take]; omega)]
  rw [show nl + k - (heap.take nl).length = k by rw [List.length_take]; omega]
  rw [List.getD_eq_getElem _ _ (by rw [List.length_map]; omega)]
  rw [List.getElem_map]
  rw [List.getD_eq_getElem _ _ hk]

theorem sweepAndCompact_getD_unreloc (visited : List Nat) (nl : Nat) (heap : List Value)
    (hnl : nl ≤ heap.length) (l : Nat)
    (hl2 : l < nl + (keepList visited nl heap.length).length) :
    (sweepAndCompact visited nl heap).getD l .VoidV =
      heap.getD (unreloc (keepList visited nl heap.length) nl l) .VoidV := by
  by_cases hc : l < nl
  · rw [unreloc, if_pos hc]
    exact sweepAndCompact_getD_low visited nl heap hnl l hc
  · rw [unreloc, if_neg hc]
    have h2 := sweepAndCompact_getD_high visited nl heap hnl (l - nl) (by omega)
    rw [show nl + (l - nl) = l by omega] at h2
    exact h2


theorem gc_components (pool : EnvPool) (s : State) :
    (gc pool s).1 = s.stack.foldl
      (fun pl layer =>
        if layer.frame then
          pl.set layer.envRef
            (relocEnv (relocOf (mark pool s) s.numLiterals s.heap.length)
              (pl.getD layer.envRef []))
        else pl) pool ∧
    (gc pool s).2.stack =
      s.stack.map (layerMap (relocOf (mark pool s) s.numLiterals s.heap.length)) ∧
    (gc pool s).2.heap =
      (sweepAndCompact (mark pool s) s.numLiterals s.heap).map
        (relocValue (relocOf (mark pool s) s.numLiterals s.heap.length)) ∧
    (gc pool s).2.numLiterals = s.numLiterals ∧
    (gc pool s).2.resultLoc =
      relocOf (mark pool s) s.numLiterals s.heap.length s.resultLoc :=
  ⟨rfl, rfl, rfl, rfl, rfl⟩

theorem gcFold_length (ρ : Nat → Nat) :
    ∀ (L : List Layer) (pl : EnvPool),
      (L.foldl
        (fun pl layer =>
          if layer.frame then
            pl.set layer.envRef (relocEnv ρ (pl.getD layer.envRef []))
          else pl) pl).length = pl.length := by
  intro L
  induction L with
  | nil => intro pl; rfl
  | cons a t ih =>
    intro pl
    simp only [List.foldl_cons]
    by_cases ha : a.frame
    · rw [if_pos ha, ih, List.length_set]
    · rw [if_neg ha, ih]

theorem gcFold_getD_untouched (ρ : Nat → Nat) :
    ∀ (L : List Layer) (pl : EnvPool) (r : Nat),
      (∀ fl ∈ L, fl.frame = true → fl.envRef ≠ r) →
      (L.foldl
        (fun pl layer =>
          if layer.frame then
            pl.set layer.envRef (relocEnv ρ (pl.getD layer.envRef []))
          else pl) pl).getD r [] = pl.getD r [] := by
  intro L
  induction L with
  | nil => intro pl r _; rfl
  | cons a t ih =>
    intro pl r hr
    simp only [List.foldl_cons]
    by_cases ha : a.frame
    · rw [if_pos ha]
      rw [ih _ r (fun fl hfl => hr fl (List.mem_cons_of_mem _ hfl))]
      exact getD_set_ne _ _ _ _ _ (hr a (List.mem_cons_self _ _) ha)
    · rw [if_neg ha]
      exact ih _ r (fun fl hfl => hr fl (List.mem_cons_of_mem _ hfl))

theorem gcFold_getD_frame (ρ : Nat → Nat) :
    ∀ (L : List Layer) (pl : EnvPool) (r : Nat),
      frameNodup L → r < pl.length →
      (∃ fl ∈ L, fl.frame = true ∧ fl.envRef = r) →
      (L.foldl
        (fun pl layer =>
          if layer.frame then
            pl.set layer.envRef (relocEnv ρ (pl.getD layer.envRef []))
          else pl) pl).getD r [] = relocEnv ρ (pl.getD r []) := by
  intro L
  induction L with
  | nil =>
    intro pl r _ _ hex
    rcases hex with ⟨fl, hfl, _⟩
    cases hfl
  | cons a t ih =>
    intro pl r hnd hrlt hex
    simp only [List.foldl_cons]
    by_cases ha : a.frame
    · rw [if_pos ha]
      by_cases har : a.envRef = r
      · have hlater : ∀ fl ∈ t, fl.frame = true → fl.envRef ≠ r := by
          intro fl hfl hflf
          unfold frameNodup at hnd
          rw [List.filter_cons, if_pos (by simp [ha])] at hnd
          have h2 := (List.pairwise_cons.mp hnd).1 fl
            (List.mem_filter.mpr ⟨hfl, by simp [hflf]⟩)
          rw [har] at h2
          exact fun hx => h2 hx.symm
        rw [gcFold_getD_untouched ρ t _ r hlater]
        rw [har, getD_set_self _ _ _ _ hrlt]
      · have hex2 : ∃ fl ∈ t, fl.frame = true ∧ fl.envRef = r := by
          rcases hex with ⟨fl, hfl, hf1, hf2⟩
          rcases List.mem_cons.mp hfl with rfl | hfl2
          · exact absurd hf2 har
          · exact ⟨fl, hfl2, hf1, hf2⟩
        rw [ih _ r (frameNodup_tail a t hnd) (by rw [List.length_set]; exact hrlt) hex2]
        rw [getD_set_ne _ _ _ _ _ har]
    · rw [if_neg ha]
      have hex2 : ∃ fl ∈ t, fl.frame = true ∧ fl.envRef = r := by
        rcases hex with ⟨fl, hfl, hf1, hf2⟩
        rcases List.mem_cons.mp hfl with rfl | hfl2
        · exact absurd hf1 ha
        · exact ⟨fl, hfl2, hf1, hf2⟩
      exact ih pl r (frameNodup_tail a t hnd) hrlt hex2

theorem frameOf_map_layerMap (ρ : Nat → Nat) :
    ∀ L : List Layer, frameOf (L.map (layerMap ρ)) = frameOf L := by
  intro L
  induction L with
  | nil => rfl
  | cons a t ih =>
    rw [List.map_cons, frameOf, frameOf]
    by_cases ha : a.frame
    · rw [if_pos (show (layerMap ρ a).frame = true from ha), if_pos ha]
      rfl
    · rw [if_neg (show ¬ (layerMap ρ a).frame = true from ha), if_neg ha]
      exact ih

theorem shareInv_map_layerMap (ρ : Nat → Nat) :
    ∀ L : List Layer, shareInv L → shareInv (L.map (layerMap ρ)) := by
  intro L
  induction L with
  | nil => intro _; trivial
  | cons a t ih =>
    intro h
    rw [List.map_cons]
    refine ⟨?_, ih h.2⟩
    rcases h.1 with h1 | h1
    · exact Or.inl h1
    · refine Or.inr ?_
      rw [frameOf_map_layerMap]
      exact h1

theorem frameNodup_map_layerMap (ρ : Nat → Nat) (L : List Layer)
    (h : frameNodup L) : frameNodup (L.map (layerMap ρ)) := by
  unfold frameNodup at *
  rw [List.filter_map, List.pairwise_map]
  exact List.Pairwise.imp (fun hab => hab) h

theorem activeVes_map_layerMap (ρ : Nat → Nat) (r : Nat) :
    ∀ L : List Layer, activeVes r (L.map (layerMap ρ)) = activeVes r L := by
  intro L
  induction L with
  | nil => rfl
  | cons a t ih =>
    rw [List.map_cons]
    have hsame : activeLetrec r (layerMap ρ a) = activeLetrec r a :=
      activeLetrec_congr2 r a (layerMap ρ a) rfl rfl (fun _ _ _ => Iff.rfl)
    rcases hact : activeLetrec r a with _ | ves
    · rw [activeVes_cons_none _ _ _ (by rw [hsame]; exact hact),
        activeVes_cons_none _ _ _ hact]
      exact ih
    · rw [activeVes_cons_some _ _ _ _ (by rw [hsame]; exact hact),
        activeVes_cons_some _ _ _ _ hact, ih]

theorem layerMap_comp (f g2 : Nat → Nat) (l : Layer) :
    layerMap f (layerMap g2 l) = layerMap (fun x => f (g2 x)) l := by
  unfold layerMap
  rw [List.map_map]
  rfl

theorem env_roots (pool : EnvPool) (s : State) (hwf : WF pool s) :
    ∀ l ∈ s.stack, ∀ p ∈ pool.getD l.envRef [], p.2 ∈ mark pool s := by
  intro l hl p hp
  rcases shareInv_backed s.stack hwf.share l hl with ⟨fl, hflm, hfr, hfe⟩
  refine markRoots_subset_mark pool s _ ?_
  rw [markRoots, List.mem_append]
  left
  rw [List.mem_flatMap]
  refine ⟨fl, hflm, ?_⟩
  rw [List.mem_append]
  left
  rw [if_pos hfr]
  exact List.mem_map_of_mem _ (by rw [layerEnv, hfe]; exact hp)

theorem locals_roots (pool : EnvPool) (s : State) :
    ∀ l ∈ s.stack, ∀ x ∈ l.localLocs, x ∈ mark pool s := by
  intro l hl x hx
  refine markRoots_subset_mark pool s x ?_
  rw [markRoots, List.mem_append]
  left
  rw [List.mem_flatMap]
  exact ⟨l, hl, List.mem_append_right _ hx⟩

theorem res_root (pool : EnvPool) (s : State) : s.resultLoc ∈ mark pool s := by
  refine markRoots_subset_mark pool s _ ?_
  rw [markRoots]
  exact List.mem_append_right _ (List.mem_singleton.mpr rfl)

theorem valueOK_relocValue (hlOld hlNew nl : Nat) (ρ : Nat → Nat) (w : Value)
    (hOK : valueOK hlOld nl w) (hρ : ∀ x ∈ valueLocs w, ρ x < hlNew) :
    valueOK hlNew nl (relocValue ρ w) := by
  cases w with
  | ClosureV env varList body =>
    refine ⟨?_, hOK.2⟩
    intro q hq
    rcases List.mem_map.mp hq with ⟨p, hp, rfl⟩
    exact hρ p.2 (List.mem_map_of_mem _ hp)
  | VoidV => trivial
  | IntegerV v => trivial
  | StringV v => trivial

theorem gc_fixes (pool : EnvPool) (s : State) (j : Nat)
    (hj : j ∈ mark pool s) (hjlt : j < s.heap.length) :
    unreloc (keepList (mark pool s) s.numLiterals s.heap.length) s.numLiterals
      (relocOf (mark pool s) s.numLiterals s.heap.length j) = j ∧
    relocOf (mark pool s) s.numLiterals s.heap.length j <
      s.numLiterals + (keepList (mark pool s) s.numLiterals s.heap.length).length := by
  have hgood : j < s.numLiterals ∨
      j ∈ keepList (mark pool s) s.numLiterals s.heap.length := by
    by_cases hc : j < s.numLiterals
    · exact Or.inl hc
    · exact Or.inr ((mem_keepList _ _ _ j).mpr ⟨by omega, hjlt, hj⟩)
  exact ⟨unreloc_relocOf _ _ _ j hgood, relocOf_lt _ _ _ j hgood⟩


theorem gc_heap_len (pool : EnvPool) (s : State) (hwf : WF pool s) :
    (gc pool s).2.heap.length = s.numLiterals + (keepList (mark pool s) s.numLiterals s.heap.length).length := by
  rcases gc_components pool s with ⟨_, _, hH, _, _⟩
  rw [hH, List.length_map, sweepAndCompact_length _ _ _ hwf.litsLe]

theorem gc_cell (pool : EnvPool) (s : State) (hwf : WF pool s) :
    ∀ i < s.numLiterals + (keepList (mark pool s) s.numLiterals s.heap.length).length,
      (gc pool s).2.heap.getD i .VoidV =
        relocValue (relocOf (mark pool s) s.numLiterals s.heap.length) (s.heap.getD ((unreloc (keepList (mark pool s) s.numLiterals s.heap.length) s.numLiterals) i) .VoidV) := by
  rcases gc_components pool s with ⟨_, _, hH, _, _⟩
  intro i hi
  rw [hH]
  have hi2 : i < (sweepAndCompact (mark pool s) s.numLiterals s.heap).length := by
    rw [sweepAndCompact_length _ _ _ hwf.litsLe]
    exact hi
  rw [List.getD_eq_getElem _ _ (by rw [List.length_map]; exact hi2)]
  rw [List.getElem_map]
  rw [← List.getD_eq_getElem _ Value.VoidV hi2]
  rw [sweepAndCompact_getD_unreloc _ _ _ hwf.litsLe i hi]

theorem gc_u_lt (pool : EnvPool) (s : State) (hwf : WF pool s) :
    ∀ i < s.numLiterals + (keepList (mark pool s) s.numLiterals s.heap.length).length, (unreloc (keepList (mark pool s) s.numLiterals s.heap.length) s.numLiterals) i < s.heap.length := by
  intro i hi
  refine unreloc_lt _ _ s.heap.length i hwf.litsLe ?_ hi
  intro j hj
  exact ((mem_keepList _ _ _ j).mp hj).2.1

theorem gc_keep_cell (pool : EnvPool) (s : State) (hwf : WF pool s) (hflat : litsFlat s) :
    ∀ i < s.numLiterals + (keepList (mark pool s) s.numLiterals s.heap.length).length,
      ∀ x ∈ valueLocs (s.heap.getD ((unreloc (keepList (mark pool s) s.numLiterals s.heap.length) s.numLiterals) i) .VoidV),
        x ∈ mark pool s ∧ x < s.heap.length := by
  intro i hi x hx
  by_cases hc : i < s.numLiterals
  · rw [unreloc, if_pos hc] at hx
    rw [hflat i hc] at hx
    cases hx
  · have hidx : i - s.numLiterals < (keepList (mark pool s) s.numLiterals s.heap.length).length := by omega
    have hmem : (unreloc (keepList (mark pool s) s.numLiterals s.heap.length) s.numLiterals) i ∈ (keepList (mark pool s) s.numLiterals s.heap.length) := by
      rw [unreloc, if_neg hc]
      rw [List.getD_eq_getElem _ _ hidx]
      exact List.getElem_mem hidx
    have hmk := (mem_keepList _ _ _ _).mp hmem
    exact ⟨mark_closed pool s hwf _ hmk.2.2 x hx, valueLocs_bound pool s hwf _ x hx⟩

theorem gc_WF (pool : EnvPool) (s : State) (hwf : WF pool s) (hflat : litsFlat s) :
    WF (gc pool s).1 (gc pool s).2 := by
  rcases gc_components pool s with ⟨hP, hSt, hH, hNl, hR⟩
  constructor
  · rw [hNl, gc_heap_len pool s hwf]
    omega
  · rw [hR, gc_heap_len pool s hwf]
    exact (gc_fixes pool s s.resultLoc (res_root pool s) hwf.resOK).2
  · intro v hv
    rcases List.mem_iff_getElem.mp hv with ⟨i, hi, heq⟩
    have hi2 : i < s.numLiterals + (keepList (mark pool s) s.numLiterals s.heap.length).length := by
      rw [gc_heap_len pool s hwf] at hi
      exact hi
    have hv2 : (gc pool s).2.heap.getD i .VoidV = v := by
      rw [List.getD_eq_getElem _ _ hi]
      exact heq
    rw [← hv2, gc_heap_len pool s hwf, hNl, gc_cell pool s hwf i hi2]
    have hOK : valueOK s.heap.length s.numLiterals (s.heap.getD ((unreloc (keepList (mark pool s) s.numLiterals s.heap.length) s.numLiterals) i) .VoidV) :=
      hwf.heapOK _ (mem_of_getD _ _ _ (gc_u_lt pool s hwf i hi2))
    refine valueOK_relocValue s.heap.length _ _ _ _ hOK ?_
    intro x hx
    rcases gc_keep_cell pool s hwf hflat i hi2 x hx with ⟨hxm, hxl⟩
    exact (gc_fixes pool s x hxm hxl).2
  · intro l' hl'
    rw [hSt] at hl'
    rcases List.mem_map.mp hl' with ⟨l0, hl0, rfl⟩
    refine ⟨?_, ?_, ?_⟩
    · intro x hx
      rcases List.mem_map.mp hx with ⟨x0, hx0, rfl⟩
      rw [gc_heap_len pool s hwf]
      exact (gc_fixes pool s x0 (locals_roots pool s l0 hl0 x0 hx0)
        ((hwf.stackOK l0 hl0).1 x0 hx0)).2
    · rw [hP, gcFold_length, layerMap_envRef]
      exact (hwf.stackOK l0 hl0).2.1
    · intro e hexp x hx
      rw [hNl]
      exact (hwf.stackOK l0 hl0).2.2 e hexp x hx
  · rw [hSt]
    exact shareInv_map_layerMap _ _ hwf.share
  · rw [hSt]
    exact frameNodup_map_layerMap _ _ hwf.frameNodup
  · intro l' hl'
    rw [hSt] at hl'
    rcases List.mem_map.mp hl' with ⟨l0, hl0, rfl⟩
    rcases shareInv_backed s.stack hwf.share l0 hl0 with ⟨fl, hflm, hfr, hfe⟩
    rw [layerMap_envRef, hP,
      gcFold_getD_frame _ s.stack pool l0.envRef hwf.frameNodup
        (hwf.stackOK l0 hl0).2.1 ⟨fl, hflm, hfr, hfe⟩]
    intro q hq
    rcases List.mem_map.mp hq with ⟨p, hp, rfl⟩
    rw [gc_heap_len pool s hwf]
    exact (gc_fixes pool s p.2 (env_roots pool s hwf l0 hl0 p hp)
      (hwf.poolOK l0 hl0 p hp)).2

theorem gc_good (pool : EnvPool) (s : State) (hg : stackGood s.stack) :
    stackGood (gc pool s).2.stack := by
  rcases gc_components pool s with ⟨_, hSt, _, _, _⟩
  intro l' hl'
  rw [hSt] at hl'
  rcases List.mem_map.mp hl' with ⟨l0, hl0, rfl⟩
  intro tp c args hexp hpc
  have h2 := hg l0 hl0 tp c args hexp hpc
  intro hnil
  exact h2 (List.map_eq_nil.mp hnil)

theorem gc_flat (pool : EnvPool) (s : State) (hwf : WF pool s) (hflat : litsFlat s) :
    litsFlat (gc pool s).2 := by
  rcases gc_components pool s with ⟨_, _, _, hNl, _⟩
  intro i hi
  rw [hNl] at hi
  have hi2 : i < s.numLiterals + (keepList (mark pool s) s.numLiterals s.heap.length).length := by omega
  rw [gc_cell pool s hwf i hi2]
  rw [show (unreloc (keepList (mark pool s) s.numLiterals s.heap.length) s.numLiterals) i = i from by rw [unreloc, if_pos hi]]
  rw [valueLocs_relocValue]
  rw [hflat i hi]
  rfl

theorem gc_segs (pool : EnvPool) (s : State) (hwf : WF pool s)
    (hsegs : stackSegs s.numLiterals pool s.stack) :
    stackSegs (gc pool s).2.numLiterals (gc pool s).1 (gc pool s).2.stack := by
  rcases gc_components pool s with ⟨hP, hSt, _, hNl, _⟩
  intro l' hl'
  rw [hSt] at hl'
  rcases List.mem_map.mp hl' with ⟨l0, hl0, rfl⟩
  rcases shareInv_backed s.stack hwf.share l0 hl0 with ⟨fl, hflm, hfr, hfe⟩
  rw [hNl, hSt, layerMap_envRef, activeVes_map_layerMap, hP,
    gcFold_getD_frame _ s.stack pool l0.envRef hwf.frameNodup
      (hwf.stackOK l0 hl0).2.1 ⟨fl, hflm, hfr, hfe⟩]
  exact envSeg_relocEnv s.numLiterals _ _ _ (hsegs l0 hl0)
    (fun j hj => relocOf_high _ _ _ j hj)


theorem gc_rel (φ : Nat → Nat) (pA : EnvPool) (sA : State) (pB : EnvPool) (sB : State)
    (hwf : WF pB sB) (hflat : litsFlat sB) (hrel : Rel φ pA sA pB sB) :
    Rel (fun l => φ ((unreloc (keepList (mark pB sB) sB.numLiterals sB.heap.length) sB.numLiterals) l)) pA sA (gc pB sB).1 (gc pB sB).2 := by
  rcases gc_components pB sB with ⟨hP, hSt, hH, hNl, hR⟩
  have hlen := gc_heap_len pB sB hwf
  constructor
  · intro l1 h1 l2 h2 heq
    rw [hlen] at h1 h2
    have hu1 := gc_u_lt pB sB hwf l1 h1
    have hu2 := gc_u_lt pB sB hwf l2 h2
    have hueq := hrel.inj _ hu1 _ hu2 heq
    exact unreloc_inj _ _ (keepList_nodup _ _ _)
      (fun j hj => ((mem_keepList _ _ _ j).mp hj).1) l1 h1 l2 h2 hueq
  · intro l hl2
    rw [hlen] at hl2
    have hul := gc_u_lt pB sB hwf l hl2
    rcases hrel.maps _ hul with ⟨hm1, hm2⟩
    refine ⟨hm1, ?_⟩
    rw [gc_cell pB sB hwf l hl2, hm2, mapValue_comp]
    refine mapValue_congr _ _ _ ?_
    intro x hx
    rcases gc_keep_cell pB sB hwf hflat l hl2 x hx with ⟨hxm, hxl⟩
    show φ x = φ ((unreloc (keepList (mark pB sB) sB.numLiterals sB.heap.length) sB.numLiterals) ((relocOf (mark pB sB) sB.numLiterals sB.heap.length) x))
    rw [(gc_fixes pB sB x hxm hxl).1]
  · rw [hNl]
    exact hrel.litsEq
  · intro l hl2
    rw [hNl] at hl2
    show φ ((unreloc (keepList (mark pB sB) sB.numLiterals sB.heap.length) sB.numLiterals) l) = l
    rw [show (unreloc (keepList (mark pB sB) sB.numLiterals sB.heap.length) sB.numLiterals) l = l from by rw [unreloc, if_pos hl2]]
    exact hrel.litsFix l hl2
  · rw [hR]
    show sA.resultLoc = φ ((unreloc (keepList (mark pB sB) sB.numLiterals sB.heap.length) sB.numLiterals) ((relocOf (mark pB sB) sB.numLiterals sB.heap.length) sB.resultLoc))
    rw [(gc_fixes pB sB sB.resultLoc (res_root pB sB) hwf.resOK).1]
    exact hrel.res
  · rw [hSt, hrel.stackEq, List.map_map]
    refine List.map_congr_left ?_
    intro l0 hl0
    show layerMap φ l0 = layerMap (fun l => φ ((unreloc (keepList (mark pB sB) sB.numLiterals sB.heap.length) sB.numLiterals) l)) (layerMap (relocOf (mark pB sB) sB.numLiterals sB.heap.length) l0)
    rw [layerMap_comp]
    refine layerMap_congr _ _ _ ?_
    intro x hx
    show φ x = φ ((unreloc (keepList (mark pB sB) sB.numLiterals sB.heap.length) sB.numLiterals) ((relocOf (mark pB sB) sB.numLiterals sB.heap.length) x))
    rw [(gc_fixes pB sB x (locals_roots pB sB l0 hl0 x hx)
      ((hwf.stackOK l0 hl0).1 x hx)).1]
  · rw [hP, gcFold_length]
    exact hrel.poolLen
  · intro l' hl'
    rw [hSt] at hl'
    rcases List.mem_map.mp hl' with ⟨l0, hl0, rfl⟩
    rcases shareInv_backed sB.stack hwf.share l0 hl0 with ⟨fl, hflm, hfr, hfe⟩
    rw [layerMap_envRef, hP,
      gcFold_getD_frame _ sB.stack pB l0.envRef hwf.frameNodup
        (hwf.stackOK l0 hl0).2.1 ⟨fl, hflm, hfr, hfe⟩]
    rw [relocEnv_comp, hrel.poolRel l0 hl0]
    refine relocEnv_congr _ _ _ ?_
    intro p hp
    show φ p.2 = φ ((unreloc (keepList (mark pB sB) sB.numLiterals sB.heap.length) sB.numLiterals) ((relocOf (mark pB sB) sB.numLiterals sB.heap.length) p.2))
    rw [(gc_fixes pB sB p.2 (env_roots pB sB hwf l0 hl0 p hp)
      (hwf.poolOK l0 hl0 p hp)).1]


theorem layerMap_id (l : Layer) : layerMap id l = l := by
  unfold layerMap
  rw [List.map_id]

theorem Rel_refl (pool : EnvPool) (s : State) : Rel id pool s pool s := by
  constructor
  · intro l1 _ l2 _ h
    exact h
  · intro l hl2
    exact ⟨hl2, by rw [mapValue_id]; rfl⟩
  · rfl
  · intro l _
    rfl
  · rfl
  · have h : s.stack.map (layerMap id) = s.stack := by
      have h2 : ∀ l ∈ s.stack, layerMap id l = id l := fun l _ => layerMap_id l
      rw [List.map_congr_left h2, List.map_id]
    exact h.symm
  · rfl
  · intro l _
    rw [relocEnv_id]

theorem run_agree (fuel : Nat) :
    ∀ (φ : Nat → Nat) (pA : EnvPool) (sA : State) (pB : EnvPool) (sB : State)
      (threshold : Nat),
      WF pB sB → stackGood sB.stack → litsFlat sB →
      stackSegs sB.numLiterals pB sB.stack → Rel φ pA sA pB sB →
      outcomesAgree (runNoGC fuel pA sA) (runGC fuel threshold pB sB) := by
  induction fuel with
  | zero =>
    intro _ _ _ _ _ _ _ _ _ _ _
    trivial
  | succ fuel ih =>
    intro φ pA sA pB sB threshold hwf hgood hflat hsegs hrel
    rcases hR : step pB sB with _ | ⟨p1B, s1B⟩ | m
    · have hA : step pA sA = .halt := step_rel φ pA sA pB sB hwf hgood hrel _ hR
      simp only [runNoGC, runGC, hA, hR]
      show valueToString (sA.heap.getD sA.resultLoc .VoidV) =
        valueToString (sB.heap.getD sB.resultLoc .VoidV)
      rw [res_value_rel φ pA sA pB sB hrel hwf.resOK, valueToString_mapValue]
    · have hsim := step_rel φ pA sA pB sB hwf hgood hrel _ hR
      rcases hsim with ⟨ψ, hmatch⟩
      rcases hA : step pA sA with _ | ⟨p1A, s1A⟩ | m2
      · exact False.elim (by rw [hA] at hmatch; exact hmatch)
      · rw [hA] at hmatch
        have hrel1 : Rel ψ p1A s1A p1B s1B := hmatch
        have hwf1 := step_WF pB sB p1B s1B hwf hR
        have hgood1 := step_good pB sB p1B s1B hR hgood
        have hflat1 := step_litsFlat pB sB p1B s1B hwf hsegs hflat hR
        have hsegs1 := step_segs pB sB p1B s1B hwf hsegs hR
        simp only [runNoGC, runGC, hA, hR]
        by_cases hth : s1B.heap.length > threshold
        · rw [if_pos hth]
          exact ih
            (fun l => ψ (unreloc
              (keepList (mark p1B s1B) s1B.numLiterals s1B.heap.length)
              s1B.numLiterals l))
            p1A s1A (gc p1B s1B).1 (gc p1B s1B).2 (2 * (gc p1B s1B).2.heap.length)
            (gc_WF p1B s1B hwf1 hflat1) (gc_good p1B s1B hgood1)
            (gc_flat p1B s1B hwf1 hflat1) (gc_segs p1B s1B hwf1 hsegs1)
            (gc_rel ψ p1A s1A p1B s1B hwf1 hflat1 hrel1)
        · rw [if_neg hth]
          exact ih ψ p1A s1A p1B s1B threshold hwf1 hgood1 hflat1 hsegs1 hrel1
      · exact False.elim (by rw [hA] at hmatch; exact hmatch)
    · have hA : step pA sA = .fail m := step_rel φ pA sA pB sB hwf hgood hrel _ hR
      simp only [runNoGC, runGC, hA, hR]
      exact rfl

/-- C2: garbage collection is transparent — starting from any well-formed
machine configuration (all stored locations in range, the env-sharing and
callee-recorded disciplines hold, literal cells are location-free, and every
in-progress letrec's bindings sit above the literal prefix — all invariants
of reachable states), the driver loop that collects whenever the heap size
exceeds the threshold (`runGC`, and `execute` with its initial
`numLiterals + 64` threshold) produces, for every step budget, the same
outcome as the hypothetical driver that never collects (`runNoGC`): both
still running, both failing with the same message, or both finishing with
the same printed final value — each `_gc()` preserves every reachable value
and consistently rewrites every stored location. -/
theorem gc_transparency (pool : EnvPool) (s : State)
    (hwf : WF pool s) (hgood : stackGood s.stack) (hflat : litsFlat s)
    (hsegs : stackSegs s.numLiterals pool s.stack) :
    ∀ fuel threshold : Nat,
      outcomesAgree (runNoGC fuel pool s) (runGC fuel threshold pool s) ∧
      outcomesAgree (runNoGC fuel pool s) (execute fuel pool s) := by
  intro fuel threshold
  refine ⟨?_, ?_⟩
  · exact run_agree fuel id pool s pool s threshold hwf hgood hflat hsegs
      (Rel_refl pool s)
  · exact run_agree fuel id pool s pool s (s.numLiterals + 64) hwf hgood hflat hsegs
      (Rel_refl pool s)

theorem gc_transparency_witness :
    outcomesAgree (runNoGC 20 c1Pool c1State)
      (runGC 20 (c1State.numLiterals + 64) c1Pool c1State) ∧
    outcomesAgree (runNoGC 20 c1Pool c1State) (execute 20 c1Pool c1State) :=
  gc_transparency c1Pool c1State
    (by
      constructor
      · decide
      · decide
      · intro v hv
        rcases List.mem_singleton.mp hv with rfl
        trivial
      · intro l hl
        rcases List.mem_cons.mp hl with rfl | hl2
        · refine ⟨?_, by decide, ?_⟩
          · intro x hx
            cases hx
          · intro e he x hx
            injection he with he2
            subst he2
            revert hx
            revert x
            decide
        rcases List.mem_cons.mp hl2 with rfl | hl3
        · refine ⟨?_, by decide, ?_⟩
          · intro x hx
            cases hx
          · intro e he
            exact Option.noConfusion he
        · cases hl3
      · exact ⟨Or.inr rfl, Or.inl rfl, trivial⟩
      · decide
      · intro l hl p hp
        rcases List.mem_cons.mp hl with rfl | hl2
        · exact absurd hp (List.not_mem_nil p)
        rcases List.mem_cons.mp hl2 with rfl | hl3
        · exact absurd hp (List.not_mem_nil p)
        · cases hl3)
    (by
      intro l hl tp c args he
      rcases List.mem_cons.mp hl with rfl | hl2
      · intro _
        injection he with he2
        exact ExprNode.noConfusion he2
      rcases List.mem_cons.mp hl2 with rfl | hl3
      · exact Option.noConfusion he
      · cases hl3)
    (by
      intro i hi
      have hi2 : i < 1 := hi
      have h0 : i = 0 := by omega
      subst h0
      rfl)
    (by
      intro l hl
      show envSeg c1State.numLiterals (c1Pool.getD l.envRef [])
        (activeVes l.envRef [childLayer 0 c1Letrec, mainLayer])
      rw [activeVes_cons_none _ _ _ (activeLetrec_pc0 _ _ rfl),
        activeVes_cons_none _ _ _
          (activeLetrec_nonLetrec _ _ (fun _ _ hq => Option.noConfusion hq))]
      trivial)
    20 (c1State.numLiterals + 64)

end ExprScript
